import Mathlib

/-!
# Acceptance engine and caches of the wavelet ledger

A shallow embedding of the acceptance core of `ledger.go`: the two prefix-scoped
buckets of the key-value store, the acceptance tick `updatedAcceptedTransactions`,
`WasAccepted`, `acceptTransaction`, `revertTransaction`, the safety hook
`ensureAccepted` / `ensureSafeCommittable` and the tick loop `UpdateAcceptedTransactions`;
of the bounded caches of `lru.state.go` and `lru.vm.go`; and of the request binding
`sessionInitRequest.bind` / `sendTransactionRequest.bind` of `api/msg.go`.

The key-value store, the graph, the conflict resolver, the HyperLogLog codec and the
constants `system.Beta1`, `system.Beta2` are external packages; they appear here as the
fields of `Env` (read-only collaborators) and as the association-list `Store`.

Go functions that mutate the ledger's store become functions from the store before to the
store after; a returned `error` becomes an `Option Error` next to it. Unsigned counters
(`Count`, `Nonce`, cardinalities) are natural numbers: the code only compares them, and its
only arithmetic is `Beta1 + 1` on a protocol constant.
-/

namespace Wavelet

/-! ## Data model -/

/-- A Go byte slice; each element is a byte value. -/
abbrev Bytes := List Nat

/-- The symbol of a transaction: a Go string, seen as its byte sequence. -/
abbrev Symbol := List Nat

/-- A Go error value returned by an external package. -/
structure Error where
  code : Nat
deriving DecidableEq, Repr

/-- The fields of `database.Transaction` read by the ledger. -/
structure Transaction where
  Id : Symbol
  Sender : Bytes
  Nonce : Nat
  Parents : List Symbol
deriving DecidableEq, Repr

/-- The fields of `database.ConflictSet` read by the ledger. -/
structure ConflictSet where
  Preferred : Symbol
  Count : Nat
  Transactions : Bytes
deriving DecidableEq, Repr

/-- A decoded HyperLogLog sketch (`hll.Hll`); its content is opaque to the ledger. -/
structure Hll where
  registers : List Nat
deriving DecidableEq, Repr

/-- The external collaborators of the ledger: graph, conflict resolver, HyperLogLog codec
and the protocol constants. `symbols` lists the symbols stored in the (finite) graph; a
breadth-first traversal is granted `symbols.length + 1` pops, which is enough whenever
every children lookup returns symbols of that list (`FiniteGraph`, see
`revertTransaction_fuel_suffices` and `acceptTransaction_fuel_suffices`). -/
structure Env where
  symbols : List Symbol
  GetByIndex : Nat → Except Error Transaction
  GetBySymbol : Symbol → Except Error Transaction
  GetChildrenBySymbol : Symbol → Except Error (List Symbol)
  CountAscendants : Symbol → Nat → Nat
  GetConflictSet : Bytes → Nat → Except Error ConflictSet
  UnmarshalPb : Bytes → Except Error Hll
  Cardinality : Hll → Nat
  Beta1 : Nat
  Beta2 : Nat

/-! ## Byte helpers and bucket names -/

/-- Modelled from the spec: `writeBytes` is declared outside the given sources; it turns a
string into its bytes, which for a symbol is the symbol itself. -/
def writeBytes (s : Symbol) : Bytes := s

/-- Modelled from the spec: `merge` is declared outside the given sources; a bucket key is
the concatenation of bucket-name bytes and symbol bytes. -/
def merge (a b : Bytes) : Bytes := a ++ b

/-- Modelled from the spec: `writeBoolean` is declared outside the given sources; the
accepted bucket stores one scalar byte, the "true" byte being 1. -/
def writeBoolean (b : Bool) : Bytes := if b then [1] else [0]

/-- Modelled from the spec: `readBoolean` is declared outside the given sources; absent
(empty) bytes parse as false, the "true" byte parses as true. -/
def readBoolean (bs : Bytes) : Bool :=
  match bs with
  | b :: _ => b == 1
  | [] => false

/-- The bytes of `"accepted_"`. -/
def BucketAccepted : Bytes := [97, 99, 99, 101, 112, 116, 101, 100, 95]

/-- The bytes of `"p.accepted_"`. -/
def BucketAcceptPending : Bytes := [112, 46, 97, 99, 99, 101, 112, 116, 101, 100, 95]

/-! ## Key-value store -/

/-- The key-value store (`database.Store`): a finite list of key/value entries. -/
abbrev Store := List (Bytes × Bytes)

/-- Lookup: `ledger.Get(key)`; `none` when the key is absent (the Go call then returns
nil bytes and an error). -/
def Store.Get : Store → Bytes → Option Bytes
  | [], _ => none
  | (k, v) :: rest, key => if k = key then some v else Store.Get rest key

/-- Removal: `ledger.Delete(key)`. -/
def Store.Delete (st : Store) (key : Bytes) : Store :=
  st.filter (fun kv => decide (kv.1 ≠ key))

/-- Insertion or overwrite: `ledger.Put(key, value)`. -/
def Store.Put (st : Store) (key value : Bytes) : Store :=
  (key, value) :: Store.Delete st key

/-- Does `key` start with the bytes of `bucket`? -/
def startsWith : Bytes → Bytes → Bool
  | [], _ => true
  | _ :: _, [] => false
  | b :: bs, k :: ks => b == k && startsWith bs ks

/-- Number of keys in a bucket: `ledger.Size(bucket)`. -/
def Store.Size (st : Store) (bucket : Bytes) : Nat :=
  (st.filter (fun kv => startsWith bucket kv.1)).length

/-- Modelled from the spec: `ForEachKey` belongs to the external store; the keys handed to
its callback are the bucket's keys without the bucket name, taken when the iteration starts,
so that keys inserted during the iteration are deferred to the next one. -/
def Store.bucketKeys (st : Store) (bucket : Bytes) : List Bytes :=
  (st.filter (fun kv => startsWith bucket kv.1)).map (fun kv => kv.1.drop bucket.length)

/-- The iteration of `ForEachKey`: the callback runs on every key in turn and the iteration
stops at the first error it reports. -/
def forEachKeyLoop {σ : Type} (callback : σ → Bytes → σ × Option Error) :
    List Bytes → σ → σ × Option Error
  | [], s => (s, none)
  | k :: ks, s =>
    match callback s k with
    | (s1, none) => forEachKeyLoop callback ks s1
    | (s1, some err) => (s1, some err)

/-! ## Ledger operations -/

/-- Embedding of `WasAccepted`: the read error is dropped and nil bytes read as false. -/
def WasAccepted (st : Store) (symbol : Symbol) : Bool :=
  readBoolean ((st.Get (merge BucketAccepted (writeBytes symbol))).getD [])

/-- The state of a breadth-first traversal: store, queue and visited set. -/
structure Bfs where
  store : Store
  queue : List Symbol
  visited : List Symbol
deriving DecidableEq, Repr

/-- Inner loop of `acceptTransaction` over the children of the popped symbol. -/
def acceptChildren : List Symbol → Bfs → Bfs
  | [], b => b
  | child :: rest, b =>
    if child ∈ b.visited then acceptChildren rest b
    else
      let st1 := if !WasAccepted b.store child then
          b.store.Put (merge BucketAcceptPending (writeBytes child)) [0]
        else b.store
      acceptChildren rest ⟨st1, b.queue ++ [child], child :: b.visited⟩

/-- Outer loop of `acceptTransaction` (`for queue.Len() > 0`), one pop per unit of fuel. -/
def acceptLoop (e : Env) : Nat → Bfs → Bfs
  | 0, b => b
  | fuel + 1, b =>
    match b.queue with
    | [] => b
    | popped :: rest =>
      match e.GetChildrenBySymbol popped with
      | .error _ => acceptLoop e fuel ⟨b.store, rest, b.visited⟩
      | .ok children => acceptLoop e fuel (acceptChildren children ⟨b.store, rest, b.visited⟩)

/-- Embedding of `acceptTransaction`. -/
def acceptTransaction (e : Env) (st : Store) (symbol : Symbol) : Store :=
  let st1 := st.Put (merge BucketAccepted (writeBytes symbol)) (writeBoolean true)
  let st2 := st1.Delete (merge BucketAcceptPending (writeBytes symbol))
  (acceptLoop e (e.symbols.length + 1) ⟨st2, [symbol], []⟩).store

/-- Inner loop of `revertTransaction` over the children of the popped symbol. -/
def revertChildren : List Symbol → Bfs → Bfs
  | [], b => b
  | child :: rest, b =>
    if child ∈ b.visited then revertChildren rest b
    else revertChildren rest ⟨b.store, b.queue ++ [child], child :: b.visited⟩

/-- Outer loop of `revertTransaction` (`for queue.Len() > 0`), one pop per unit of fuel. -/
def revertLoop (e : Env) : Nat → Bfs → Bfs
  | 0, b => b
  | fuel + 1, b =>
    match b.queue with
    | [] => b
    | popped :: rest =>
      let st1 := b.store.Delete (merge BucketAccepted (writeBytes popped))
      let st2 := st1.Put (merge BucketAcceptPending (writeBytes popped)) [0]
      match e.GetChildrenBySymbol popped with
      | .error _ => revertLoop e fuel ⟨st2, rest, b.visited⟩
      | .ok children => revertLoop e fuel (revertChildren children ⟨st2, rest, b.visited⟩)

/-- Embedding of `revertTransaction`. -/
def revertTransaction (e : Env) (st : Store) (symbol : Symbol) : Store :=
  (revertLoop e (e.symbols.length + 1) ⟨st, [symbol], []⟩).store

/-- Embedding of `ensureAccepted`: the store afterwards and the returned error. -/
def ensureAccepted (e : Env) (st : Store) (set : ConflictSet) : Store × Option Error :=
  match e.UnmarshalPb set.Transactions with
  | .error err => (st, some err)
  | .ok transactions =>
    let conflicting := !(e.Cardinality transactions == 1)
    if conflicting && WasAccepted st set.Preferred && decide (set.Count ≤ e.Beta2) then
      (revertTransaction e st set.Preferred, none)
    else (st, none)

/-- Embedding of `ensureSafeCommittable`: the store afterwards and the returned error. -/
def ensureSafeCommittable (e : Env) (st : Store) (_index : Nat) (tx : Transaction) :
    Store × Option Error :=
  match e.GetConflictSet tx.Sender tx.Nonce with
  | .error err => (st, some err)
  | .ok set => ensureAccepted e st set

/-- The loop over `tx.Parents` that computes `parentsAccepted` (with its `break`). -/
def parentsAccepted (st : Store) : List Symbol → Bool
  | [] => true
  | parent :: rest => if !WasAccepted st parent then false else parentsAccepted st rest

/-- The state threaded through the scan of the pending bucket: the store and
`acceptedList`. -/
structure Scan where
  store : Store
  acceptedList : List Symbol
deriving DecidableEq, Repr

/-- The callback given to `ForEachKey` in `updatedAcceptedTransactions`. -/
def pendingCallback (e : Env) (s : Scan) (k : Bytes) : Scan × Option Error :=
  let symbol : Symbol := k
  match e.GetBySymbol symbol with
  | .error _ => (s, none)
  | .ok tx =>
    match e.GetConflictSet tx.Sender tx.Nonce with
    | .error _ => (s, none)
    | .ok set =>
      match e.UnmarshalPb set.Transactions with
      | .error _ => (s, none)
      | .ok transactions =>
        if parentsAccepted s.store tx.Parents then
          let conflicting := !(e.Cardinality transactions == 1)
          if decide (set.Count > e.Beta2) ||
              (!conflicting && decide (e.CountAscendants symbol (e.Beta1 + 1) > e.Beta1)) then
            if !WasAccepted s.store symbol then
              (⟨acceptTransaction e s.store symbol, s.acceptedList ++ [symbol]⟩, none)
            else (s, none)
          else (s, none)
        else (s, none)

/-- The slice `acceptedList[i][:10]`; `none` when the symbol is shorter than ten bytes
(slice bounds out of range). -/
def trimId (symbol : Symbol) : Option Symbol :=
  if symbol.length < 10 then none else some (symbol.take 10)

/-- The emit step: the trimmed ids handed to the logger (`some []` when nothing was
accepted), `none` when a slice is out of range. -/
def emitAccepted (acceptedList : List Symbol) : Option (List Symbol) :=
  if acceptedList.length > 0 then acceptedList.mapM trimId else some []

/-- What one acceptance tick leaves behind: the store, the symbols it accepted and the
outcome of the emit step. -/
structure Tick where
  store : Store
  acceptedList : List Symbol
  logged : Option (List Symbol)
deriving DecidableEq, Repr

/-- The scan of the pending bucket followed by the emit step. -/
def scanPending (e : Env) (st : Store) : Tick :=
  let r := (forEachKeyLoop (pendingCallback e) (st.bucketKeys BucketAcceptPending) ⟨st, []⟩).1
  ⟨r.store, r.acceptedList, emitAccepted r.acceptedList⟩

/-- Embedding of `updatedAcceptedTransactions`. -/
def updatedAcceptedTransactions (e : Env) (st : Store) : Tick :=
  if st.Size BucketAcceptPending == 0 && st.Size BucketAccepted == 0 then
    match e.GetByIndex 0 with
    | .error _ => ⟨st, [], some []⟩
    | .ok tx => scanPending e (st.Put (merge BucketAcceptPending (writeBytes tx.Id)) [0])
  else scanPending e st

/-! ## Specification vocabulary -/

/-- The key of `symbol` in the accepted bucket. -/
def acceptedKey (symbol : Symbol) : Bytes := merge BucketAccepted (writeBytes symbol)

/-- The key of `symbol` in the pending bucket. -/
def pendingKey (symbol : Symbol) : Bytes := merge BucketAcceptPending (writeBytes symbol)

/-- The symbol has a key in the pending bucket. -/
def InPending (st : Store) (symbol : Symbol) : Prop := st.Get (pendingKey symbol) ≠ none

instance (st : Store) (symbol : Symbol) : Decidable (InPending st symbol) :=
  inferInstanceAs (Decidable (st.Get (pendingKey symbol) ≠ none))

/-- The symbol is reverted: no key in the accepted bucket, a key in the pending bucket. -/
def Reverted (st : Store) (symbol : Symbol) : Prop :=
  st.Get (acceptedKey symbol) = none ∧ InPending st symbol

/-- The children relation of the graph: `c` is listed by a successful children lookup
of `p`. -/
def ChildOf (e : Env) (p c : Symbol) : Prop :=
  ∃ cs, e.GetChildrenBySymbol p = .ok cs ∧ c ∈ cs

/-- The parents relation of the graph: `p` is listed as a parent by the transaction
of `c`. -/
def ParentOf (e : Env) (c p : Symbol) : Prop :=
  ∃ tx, e.GetBySymbol c = .ok tx ∧ p ∈ tx.Parents

/-- The graph is finite: every symbol a children lookup returns is one of `e.symbols`. -/
def FiniteGraph (e : Env) : Prop :=
  ∀ p cs, e.GetChildrenBySymbol p = .ok cs → ∀ c ∈ cs, c ∈ e.symbols

/-- Ancestor closure: every accepted symbol has all its parents accepted. -/
def AncestorClosed (e : Env) (st : Store) : Prop :=
  ∀ s p, WasAccepted st s = true → ParentOf e s p → WasAccepted st p = true

/-- Bucket exclusivity: no symbol is accepted and pending at once. -/
def Exclusive (st : Store) : Prop :=
  ∀ s, ¬ (WasAccepted st s = true ∧ InPending st s)


/-! ## A sample ledger

Three transactions `a ← b ← c` (each names the previous one as its parent), used to
evaluate the definitions on concrete inputs. -/

/-- Symbol of the genesis transaction, ten bytes `a`. -/
def symA : Symbol := [97, 97, 97, 97, 97, 97, 97, 97, 97, 97]

/-- Symbol of the child of `symA`, ten bytes `b`. -/
def symB : Symbol := [98, 98, 98, 98, 98, 98, 98, 98, 98, 98]

/-- Symbol of the child of `symB`, ten bytes `c`. -/
def symC : Symbol := [99, 99, 99, 99, 99, 99, 99, 99, 99, 99]

/-- The genesis transaction. -/
def txA : Transaction := ⟨symA, [1], 0, []⟩

/-- The transaction whose parent is `symA`. -/
def txB : Transaction := ⟨symB, [2], 0, [symA]⟩

/-- The transaction whose parent is `symB`. -/
def txC : Transaction := ⟨symC, [3], 0, [symB]⟩

/-- A sample environment: the chain `a ← b ← c`, one conflict set per sender whose sketch
holds one register, a toy sketch codec (the bytes `[255]` do not decode, the cardinality is
the number of registers), `Beta1 = 1` and `Beta2 = 10`. -/
def sampleEnv : Env where
  symbols := [symA, symB, symC]
  GetByIndex := fun i =>
    if i = 0 then .ok txA else if i = 1 then .ok txB else if i = 2 then .ok txC
    else .error ⟨404⟩
  GetBySymbol := fun s =>
    if s = symA then .ok txA else if s = symB then .ok txB else if s = symC then .ok txC
    else .error ⟨404⟩
  GetChildrenBySymbol := fun s =>
    if s = symA then .ok [symB] else if s = symB then .ok [symC] else .error ⟨404⟩
  CountAscendants := fun s limit =>
    if s = symA then min 2 limit else if s = symB then min 1 limit else 0
  GetConflictSet := fun sender _ =>
    if sender = [1] then .ok ⟨symA, 0, [7]⟩
    else if sender = [2] then .ok ⟨symB, 0, [7]⟩
    else if sender = [3] then .ok ⟨symC, 0, [7]⟩
    else .error ⟨404⟩
  UnmarshalPb := fun bs => if bs = [255] then .error ⟨400⟩ else .ok ⟨bs⟩
  Cardinality := fun h => h.registers.length
  Beta1 := 1
  Beta2 := 10

/-- A store in which `symA` is accepted and `symB` is pending. -/
def sampleStore : Store := [(acceptedKey symA, [1]), (pendingKey symB, [0])]

/-- The confidence gate of the acceptance tick for `symbol`: its transaction, conflict set
and sketch are found and the strong path or the fast path holds. -/
def ConfidenceGate (e : Env) (symbol : Symbol) : Prop :=
  ∃ tx set h,
    e.GetBySymbol symbol = .ok tx ∧ e.GetConflictSet tx.Sender tx.Nonce = .ok set ∧
    e.UnmarshalPb set.Transactions = .ok h ∧
    (set.Count > e.Beta2 ∨
      (e.Cardinality h = 1 ∧ e.CountAscendants symbol (e.Beta1 + 1) > e.Beta1))

/-- The sample environment after a conflicting transaction reached the conflict set of
`symA`: its sketch now holds two registers and its count is 2. -/
def conflictEnv : Env :=
  { sampleEnv with
    GetConflictSet := fun sender _ =>
      if sender = [1] then .ok ⟨symA, 2, [7, 8]⟩ else .error ⟨404⟩ }

/-- The sample environment with a contested but strongly confirmed conflict set for `symB`:
two registers and a count of `Beta2 + 1`. -/
def strongEnv : Env :=
  { sampleEnv with
    GetConflictSet := fun sender _ =>
      if sender = [2] then .ok ⟨symB, 11, [7, 8]⟩ else .error ⟨404⟩ }

/-- A store in which `symB` and `symA` are pending (iterated in this order) and nothing is
accepted. -/
def pendingStore : Store := [(pendingKey symB, [0]), (pendingKey symA, [0])]

/-- Every value stored in the accepted bucket reads as true: the only value
`acceptTransaction` writes there. -/
def AcceptedValuesTrue (st : Store) : Prop :=
  ∀ s v, st.Get (acceptedKey s) = some v → readBoolean v = true

/-- Number of graph symbols a traversal has not visited yet. -/
def unvisited (e : Env) (visited : List Symbol) : Nat :=
  (e.symbols.toFinset \ visited.toFinset).card

/-! ## Observers of the traversals -/

/-- The symbols `revertTransaction` pops from its queue, in order: the recursion of
`revertLoop`, recording `popped` (the length of this list is `numReverted`). -/
def revertPops (e : Env) : Nat → Bfs → List Symbol
  | 0, _ => []
  | fuel + 1, b =>
    match b.queue with
    | [] => []
    | popped :: rest =>
      let st1 := b.store.Delete (merge BucketAccepted (writeBytes popped))
      let st2 := st1.Put (merge BucketAcceptPending (writeBytes popped)) [0]
      match e.GetChildrenBySymbol popped with
      | .error _ => popped :: revertPops e fuel ⟨st2, rest, b.visited⟩
      | .ok children => popped :: revertPops e fuel (revertChildren children ⟨st2, rest, b.visited⟩)

/-- The symbols `acceptTransaction` pops from its queue, in order: the recursion of
`acceptLoop`, recording `popped`. -/
def acceptPops (e : Env) : Nat → Bfs → List Symbol
  | 0, _ => []
  | fuel + 1, b =>
    match b.queue with
    | [] => []
    | popped :: rest =>
      match e.GetChildrenBySymbol popped with
      | .error _ => popped :: acceptPops e fuel ⟨b.store, rest, b.visited⟩
      | .ok children => popped :: acceptPops e fuel (acceptChildren children ⟨b.store, rest, b.visited⟩)

/-- A symbol the sample graph does not know, ten bytes `d`. -/
def symD : Symbol := [100, 100, 100, 100, 100, 100, 100, 100, 100, 100]

/-- A malformed graph: the children relation has the cycle `a → b → a` through the start
symbol, and `b` also lists itself. -/
def cycleEnv : Env :=
  { sampleEnv with
    symbols := [symA, symB]
    GetChildrenBySymbol := fun s =>
      if s = symA then .ok [symB] else if s = symB then .ok [symA, symB] else .error ⟨404⟩ }

/-! ## The tick loop (`UpdateAcceptedTransactions`) -/

/-- The case a `select` statement of the tick loop takes: `<-ledger.kill` or `<-timer.C`. -/
inductive SelectCase where
  | kill
  | timer
deriving DecidableEq, Repr

/-- The state of `UpdateAcceptedTransactions`: the store, the number of acceptance ticks
run so far, whether control is still inside the `for` statement, whether `timer.Stop()` has
been executed, and whether a tick ended in a runtime failure. -/
structure TickLoop where
  store : Store
  ticks : Nat
  inLoop : Bool
  timerStopped : Bool
  failed : Bool
deriving DecidableEq, Repr

/-- One iteration of the `for` statement, given the case its `select` takes. In the kill
case the body is `break`, which ends the `select` statement (the innermost enclosing
statement), so control goes back to the head of the `for` statement. In the timer case the
acceptance tick runs; a slice out of range in its emit step ends the goroutine. -/
def tickLoopStep (e : Env) (l : TickLoop) (c : SelectCase) : TickLoop :=
  if l.inLoop then
    match c with
    | .kill => l
    | .timer =>
      match (updatedAcceptedTransactions e l.store).logged with
      | some _ =>
        { l with store := (updatedAcceptedTransactions e l.store).store, ticks := l.ticks + 1 }
      | none =>
        { l with store := (updatedAcceptedTransactions e l.store).store, ticks := l.ticks + 1,
                 inLoop := false, failed := true }
  else l

/-- Embedding of `UpdateAcceptedTransactions`, run on the sequence of cases its `select`
statements take. `timer.Stop()` follows a `for` statement without exit. -/
def UpdateAcceptedTransactions (e : Env) (st : Store) (cases : List SelectCase) : TickLoop :=
  cases.foldl (tickLoopStep e) ⟨st, 0, true, false, false⟩

/-! ## Bounded caches (`lru.state.go`, `lru.vm.go`)

The two files are the same text up to the key and value types; they are embedded once, for
any key type `K` and value type `V`. Each file is also translated on its own further down
(`lru_state`, `lru_vm`) and shown to agree with this embedding. -/

/-- A failure of a cache operation. -/
inductive Fault where
  /-- The nil pointer returned by `l.access.Back()` on an empty list is dereferenced. -/
  | nilPointer
  /-- A pointer of the key map whose element is not in the access list (the model cannot
  read its value; the operations never build such a state). -/
  | strayPointer
deriving DecidableEq, Repr

/-- A `*list.Element` of the access list: its identity `ptr` and the `objectInfo` it
carries. -/
structure Element (K V : Type) where
  ptr : Nat
  key : K
  obj : V
deriving DecidableEq, Repr

/-- The cache (`StateLRU`, `VMLRU`): `elements` maps a key to the pointer of its list
element, `access` is the list from front (most recently used) to back, `nextPtr` is the
identity the next allocated element gets. -/
structure LRU (K V : Type) where
  size : Int
  elements : List (K × Nat)
  access : List (Element K V)
  nextPtr : Nat
deriving DecidableEq, Repr

/-- Embedding of `NewStateLRU` / `NewVMLRU`. -/
def LRU.New {K V : Type} (size : Int) : LRU K V := ⟨size, [], [], 0⟩

/-- Map lookup `l.elements[key]`. -/
def LRU.mapGet {K : Type} [DecidableEq K] : List (K × Nat) → K → Option Nat
  | [], _ => none
  | (k, p) :: rest, key => if k = key then some p else LRU.mapGet rest key

/-- Map deletion `delete(l.elements, key)`. -/
def LRU.mapDelete {K : Type} [DecidableEq K] (m : List (K × Nat)) (key : K) : List (K × Nat) :=
  m.filter (fun kv => decide (kv.1 ≠ key))

/-- Map assignment `l.elements[key] = p`. -/
def LRU.mapSet {K : Type} [DecidableEq K] (m : List (K × Nat)) (key : K) (p : Nat) :
    List (K × Nat) :=
  (key, p) :: LRU.mapDelete m key

/-- The list element a pointer refers to. -/
def LRU.deref {K V : Type} (access : List (Element K V)) (p : Nat) : Option (Element K V) :=
  access.find? (fun el => el.ptr == p)

/-- The call `l.access.MoveToFront(elem)` of the standard `container/list`: the element is
moved to the front (the most-recently-used end); the list is unchanged when the element is
not in it. -/
def LRU.MoveToFront {K V : Type} (access : List (Element K V)) (p : Nat) :
    List (Element K V) :=
  match LRU.deref access p with
  | none => access
  | some el => el :: access.filter (fun x => decide (x.ptr ≠ p))

/-- The call `l.access.Remove(elem)` of the standard `container/list`: the element is taken
out of the list. -/
def LRU.listRemove {K V : Type} (access : List (Element K V)) (p : Nat) : List (Element K V) :=
  access.filter (fun x => decide (x.ptr ≠ p))

/-- The assignment `elem.Value.(*objectInfo).obj = val` through the pointer `p`. -/
def LRU.setObj {K V : Type} (access : List (Element K V)) (p : Nat) (val : V) :
    List (Element K V) :=
  access.map (fun el => if el.ptr = p then { el with obj := val } else el)

/-- The eviction loop `for len(l.elements) > l.size`, run on the access list read from the
back: each iteration deletes the key of the back element from the map and removes that
element; on an empty list `Back()` is nil and reading its value fails. -/
def LRU.evictLoop {K V : Type} [DecidableEq K] (size : Int) :
    List (K × Nat) → List (Element K V) → Except Fault (List (K × Nat) × List (Element K V))
  | elements, [] =>
    if (elements.length : Int) > size then .error .nilPointer else .ok (elements, [])
  | elements, back :: rest =>
    if (elements.length : Int) > size then
      LRU.evictLoop size (LRU.mapDelete elements back.key) rest
    else .ok (elements, back :: rest)

/-- The `else` branch shared by `LoadOrPut` and `Put`: push a new element to the front,
record it in the map, then evict from the back. -/
def LRU.insertAndEvict {K V : Type} [DecidableEq K] (l : LRU K V) (key : K) (val : V) :
    Except Fault (LRU K V) :=
  let el : Element K V := ⟨l.nextPtr, key, val⟩
  match LRU.evictLoop l.size (LRU.mapSet l.elements key el.ptr) (el :: l.access).reverse with
  | .error f => .error f
  | .ok (elements, revAccess) => .ok ⟨l.size, elements, revAccess.reverse, l.nextPtr + 1⟩

/-- Embedding of `Load`: the cache afterwards, the returned value (`none` is nil) and the
hit flag. -/
def LRU.Load {K V : Type} [DecidableEq K] (l : LRU K V) (key : K) :
    Except Fault (LRU K V × Option V × Bool) :=
  match LRU.mapGet l.elements key with
  | none => .ok (l, none, false)
  | some p =>
    match LRU.deref l.access p with
    | none => .error .strayPointer
    | some el => .ok ({ l with access := LRU.MoveToFront l.access p }, some el.obj, true)

/-- Embedding of `LoadOrPut`: the cache afterwards, the effective value and whether the key
was present. -/
def LRU.LoadOrPut {K V : Type} [DecidableEq K] (l : LRU K V) (key : K) (val : V) :
    Except Fault (LRU K V × V × Bool) :=
  match LRU.mapGet l.elements key with
  | some p =>
    match LRU.deref l.access p with
    | none => .error .strayPointer
    | some el => .ok ({ l with access := LRU.MoveToFront l.access p }, el.obj, true)
  | none =>
    match LRU.insertAndEvict l key val with
    | .error f => .error f
    | .ok l2 => .ok (l2, val, false)

/-- Embedding of `Put`. -/
def LRU.Put {K V : Type} [DecidableEq K] (l : LRU K V) (key : K) (val : V) :
    Except Fault (LRU K V) :=
  match LRU.mapGet l.elements key with
  | some p =>
    match LRU.deref l.access p with
    | none => .error .strayPointer
    | some _ =>
      .ok { l with access := LRU.MoveToFront (LRU.setObj l.access p val) p }
  | none => LRU.insertAndEvict l key val

/-- Embedding of `Remove`. -/
def LRU.Remove {K V : Type} [DecidableEq K] (l : LRU K V) (key : K) : LRU K V :=
  match LRU.mapGet l.elements key with
  | some p =>
    { l with elements := LRU.mapDelete l.elements key, access := LRU.listRemove l.access p }
  | none => l

/-- The state cache: `uint64` fingerprints to `*CollapseState` references. -/
abbrev StateLRU := LRU Nat Nat

/-- The VM cache: `[32]byte` transaction ids to `*exec.VirtualMachine` references. -/
abbrev VMLRU := LRU Bytes Nat

/-- Embedding of `NewStateLRU`. -/
def NewStateLRU (size : Int) : StateLRU := LRU.New size

/-- Embedding of `NewVMLRU`. -/
def NewVMLRU (size : Int) : VMLRU := LRU.New size

/-- A call on a cache. -/
inductive CacheOp (K V : Type) where
  | load (key : K)
  | loadOrPut (key : K) (val : V)
  | put (key : K) (val : V)
  | remove (key : K)
deriving DecidableEq, Repr

/-- The cache after one call, or the failure of that call. -/
def LRU.step {K V : Type} [DecidableEq K] (l : LRU K V) : CacheOp K V → Except Fault (LRU K V)
  | .load key =>
    match LRU.Load l key with
    | .error f => .error f
    | .ok r => .ok r.1
  | .loadOrPut key val =>
    match LRU.LoadOrPut l key val with
    | .error f => .error f
    | .ok r => .ok r.1
  | .put key val => LRU.Put l key val
  | .remove key => .ok (LRU.Remove l key)

/-- The cache after a sequence of calls, or the first failure. -/
def LRU.run {K V : Type} [DecidableEq K] (l : LRU K V) : List (CacheOp K V) → Except Fault (LRU K V)
  | [] => .ok l
  | op :: ops =>
    match LRU.step l op with
    | .error f => .error f
    | .ok l2 => LRU.run l2 ops

/-- The representation invariant of the cache: the key map is the list of the key/pointer
pairs of the access list (in some order), no key and no pointer occurs twice in the access
list, and every pointer in use was allocated. -/
def LRU.Inv {K V : Type} (l : LRU K V) : Prop :=
  l.elements.Perm (l.access.map (fun el => (el.key, el.ptr))) ∧
  (l.access.map (fun el => el.key)).Nodup ∧
  (l.access.map (fun el => el.ptr)).Nodup ∧
  ∀ el ∈ l.access, el.ptr < l.nextPtr

/-! ## Specification vocabulary of the caches -/

/-- The value stored for `key`: the object of the list element that carries the key. -/
def LRU.valueOf {K V : Type} [DecidableEq K] (l : LRU K V) (key : K) : Option V :=
  (l.access.find? (fun el => decide (el.key = key))).map (fun el => el.obj)

/-- The key a call accesses successfully: a `Load` that hits, any `Put`, any
`LoadOrPut`. -/
def LRU.accessed {K V : Type} [DecidableEq K] (l : LRU K V) : CacheOp K V → Option K
  | .load key => if (LRU.mapGet l.elements key).isSome then some key else none
  | .loadOrPut key _ => some key
  | .put key _ => some key
  | .remove _ => none

/-- The number of the last call of a run from `l` that successfully accessed `key`, the
calls being numbered from `t` on; 0 when no call of the run did (numbers start at 1). -/
def LRU.lastAccess {K V : Type} [DecidableEq K] (l : LRU K V) (t : Nat) :
    List (CacheOp K V) → K → Nat
  | [], _ => 0
  | op :: ops, key =>
    match LRU.step l op with
    | .error _ => 0
    | .ok l2 =>
      if LRU.lastAccess l2 (t + 1) ops key ≠ 0 then LRU.lastAccess l2 (t + 1) ops key
      else if LRU.accessed l op = some key then t else 0

/-- A state cache of size 2 after `Put(1, 10)` and `Put(2, 20)`. -/
def sampleCache : StateLRU := ⟨2, [(2, 1), (1, 0)], [⟨1, 2, 20⟩, ⟨0, 1, 10⟩], 2⟩

/-- What a call returns to its caller: the value and hit flag of `Load`, the effective value
and presence flag of `LoadOrPut`, nothing for `Put` and `Remove`. -/
inductive Reply (V : Type) where
  | loaded (val : Option V) (hit : Bool)
  | loadedOrPut (val : V) (present : Bool)
  | done
deriving DecidableEq, Repr

/-- One call on a cache: the cache afterwards and what the call returns, or its failure. -/
def LRU.call {K V : Type} [DecidableEq K] (l : LRU K V) :
    CacheOp K V → Except Fault (LRU K V × Reply V)
  | .load key =>
    match LRU.Load l key with
    | .error f => .error f
    | .ok r => .ok (r.1, .loaded r.2.1 r.2.2)
  | .loadOrPut key val =>
    match LRU.LoadOrPut l key val with
    | .error f => .error f
    | .ok r => .ok (r.1, .loadedOrPut r.2.1 r.2.2)
  | .put key val =>
    match LRU.Put l key val with
    | .error f => .error f
    | .ok l2 => .ok (l2, .done)
  | .remove key => .ok (LRU.Remove l key, .done)

/-- A sequence of calls on a cache: the cache afterwards and what each call returned, or the
first failure. -/
def LRU.trace {K V : Type} [DecidableEq K] (l : LRU K V) :
    List (CacheOp K V) → Except Fault (LRU K V × List (Reply V))
  | [] => .ok (l, [])
  | op :: ops =>
    match LRU.call l op with
    | .error f => .error f
    | .ok (l2, r) =>
      match LRU.trace l2 ops with
      | .error f => .error f
      | .ok (l3, rs) => .ok (l3, r :: rs)

/-- A list element under a renaming `f` of keys and `g` of values. -/
def Element.rename {K V K2 V2 : Type} (f : K → K2) (g : V → V2) (el : Element K V) :
    Element K2 V2 :=
  ⟨el.ptr, f el.key, g el.obj⟩

/-- A cache under a renaming of keys and values: same size, same pointers, same order. -/
def LRU.rename {K V K2 V2 : Type} (f : K → K2) (g : V → V2) (l : LRU K V) : LRU K2 V2 :=
  ⟨l.size, l.elements.map (fun kv => (f kv.1, kv.2)), l.access.map (Element.rename f g),
    l.nextPtr⟩

/-- A call under a renaming of keys and values. -/
def CacheOp.rename {K V K2 V2 : Type} (f : K → K2) (g : V → V2) : CacheOp K V → CacheOp K2 V2
  | .load key => .load (f key)
  | .loadOrPut key val => .loadOrPut (f key) (g val)
  | .put key val => .put (f key) (g val)
  | .remove key => .remove (f key)

/-- What a call returns, under a renaming of values; the flags are kept. -/
def Reply.rename {V V2 : Type} (g : V → V2) : Reply V → Reply V2
  | .loaded val hit => .loaded (val.map g) hit
  | .loadedOrPut val present => .loadedOrPut (g val) present
  | .done => .done

/-- The outcome of a sequence of calls under a renaming: a failure is kept, the cache and
the replies are renamed. -/
def LRU.renameOutcome {K V K2 V2 : Type} (f : K → K2) (g : V → V2) :
    Except Fault (LRU K V × List (Reply V)) → Except Fault (LRU K2 V2 × List (Reply V2))
  | .error fault => .error fault
  | .ok (l, rs) => .ok (LRU.rename f g l, rs.map (Reply.rename g))

/-! ## Conflict keys -/

/-- Two symbols share a conflict key: their transactions have the same sender and the same
nonce, the pair by which `GetConflictSet` is called. -/
def SameConflictKey (e : Env) (x y : Symbol) : Prop :=
  ∃ tx ty, e.GetBySymbol x = .ok tx ∧ e.GetBySymbol y = .ok ty ∧
    tx.Sender = ty.Sender ∧ tx.Nonce = ty.Nonce

/-- No two distinct accepted symbols share a conflict key. -/
def ConflictFree (e : Env) (st : Store) : Prop :=
  ∀ x y, x ≠ y → WasAccepted st x = true → WasAccepted st y = true →
    ¬ SameConflictKey e x y

/-- A second child of `symA`, with the sender and nonce of `txB`. -/
def txD : Transaction := ⟨symD, [2], 0, [symA]⟩

/-- The sample environment with the conflicting transaction `txD` in the graph; the conflict
set of sender `[2]` holds two members, prefers `symB` and has the count `Beta2 + 1`. -/
def doubleSpendEnv : Env :=
  { sampleEnv with
    symbols := [symA, symB, symC, symD]
    GetBySymbol := fun s => if s = symD then .ok txD else sampleEnv.GetBySymbol s
    GetChildrenBySymbol := fun s =>
      if s = symA then .ok [symB, symD] else if s = symB then .ok [symC] else .error ⟨404⟩
    GetConflictSet := fun sender nonce =>
      if sender = [2] then .ok ⟨symB, 11, [7, 8]⟩ else sampleEnv.GetConflictSet sender nonce }

/-- A store in which `symA` is accepted and its two children `symB`, `symD` are pending. -/
def doubleSpendStore : Store :=
  [(acceptedKey symA, [1]), (pendingKey symB, [0]), (pendingKey symD, [0])]

/-- The one-byte symbol `g`. -/
def symG : Symbol := [103]

/-- A graph whose transaction at index 0 has the symbol `g`, an uncontested conflict set and
two ascendants. -/
def shortEnv : Env :=
  { sampleEnv with
    symbols := [symG]
    GetByIndex := fun i => if i = 0 then .ok ⟨symG, [1], 0, []⟩ else .error ⟨404⟩
    GetBySymbol := fun s => if s = symG then .ok ⟨symG, [1], 0, []⟩ else .error ⟨404⟩
    GetChildrenBySymbol := fun _ => .error ⟨404⟩
    CountAscendants := fun s limit => if s = symG then min 2 limit else 0 }

/-! ## Request binding of the HTTP API (`api/msg.go`)

The JSON parser (`fastjson`), the hex codec (`encoding/hex`), the error helpers
(`github.com/pkg/errors`) and the signature check (`edwards25519.Verify`) are external
packages. The parser and the signature check are fields of `ApiEnv`; the accessors of a
parsed value, the hex codec and the error helpers are written out after their libraries.
The constants `wavelet.SizeAccountID`, `wavelet.SizeSignature` and `sys.TagBatch` are declared
outside the given sources and are fields of `ApiEnv` too. -/

/-- A non-nil Go `error` of the API layer: its message and the arguments of its format;
the nil error is `none` of `Option ApiError`. -/
structure ApiError where
  msg : String
  args : List Nat
deriving DecidableEq, Repr

/-- The call `errors.New(msg)`: a non-nil error. -/
def errors.New (msg : String) : Option ApiError := some ⟨msg, []⟩

/-- The call `errors.Errorf(format, arg)`: a non-nil error. -/
def errors.Errorf (format : String) (arg : Nat) : Option ApiError := some ⟨format, [arg]⟩

/-- The call `errors.Wrap(err, msg)` of `github.com/pkg/errors`: it annotates `err` with
`msg`, and, as its documentation states, "If err is nil, Wrap returns nil." -/
def errors.Wrap (err : Option ApiError) (msg : String) : Option ApiError :=
  match err with
  | none => none
  | some cause => some ⟨msg ++ ": " ++ cause.msg, cause.args⟩

/-- A parsed JSON value (`fastjson.Value`); a number keeps its source text. -/
inductive Json where
  | null
  | tTrue
  | tFalse
  | number (raw : Bytes)
  | string (s : Bytes)
  | array (items : List Json)
  | object (fields : List (Bytes × Json))

/-- The type tags of `fastjson`. -/
inductive JsonType where
  | TypeNull
  | TypeObject
  | TypeArray
  | TypeString
  | TypeNumber
  | TypeTrue
  | TypeFalse
deriving DecidableEq, Repr

/-- The method `(*Value).Type()`. -/
def Json.TypeOf : Json → JsonType
  | .null => .TypeNull
  | .tTrue => .TypeTrue
  | .tFalse => .TypeFalse
  | .number _ => .TypeNumber
  | .string _ => .TypeString
  | .array _ => .TypeArray
  | .object _ => .TypeObject

/-- The method `(*Value).Get(key)` for a key that is not a decimal numeral (the keys `bind`
looks up): the value of the first field of an object with that name, nil (`none`)
otherwise. -/
def Json.Get : Json → Bytes → Option Json
  | .object fields, key => (fields.find? (fun kv => decide (kv.1 = key))).map (fun kv => kv.2)
  | _, _ => none

/-- The method `(*Value).StringBytes()`: the bytes of a string value, an error for any other
value. -/
def Json.StringBytes : Json → Bytes × Option ApiError
  | .string s => (s, none)
  | _ => ([], some ⟨"value doesn't contain string", []⟩)

/-- The function `fastfloat.ParseUint64BestEffort`: the value of a non-empty string of
decimal digits that fits 64 bits, 0 for every other string. -/
def ParseUint64BestEffort (raw : Bytes) : Nat :=
  if raw ≠ [] ∧ raw.all (fun c => decide (48 ≤ c ∧ c ≤ 57)) = true then
    if raw.foldl (fun acc c => acc * 10 + (c - 48)) 0 < 2 ^ 64 then
      raw.foldl (fun acc c => acc * 10 + (c - 48)) 0
    else 0
  else 0

/-- The method `(*Value).Uint64()`: an error for a value that is not a number or whose text
is not an unsigned 64-bit decimal. -/
def Json.Uint64 : Json → Nat × Option ApiError
  | .number raw =>
    if ParseUint64BestEffort raw = 0 ∧ raw ≠ [48] then (0, some ⟨"cannot parse uint64", []⟩)
    else (ParseUint64BestEffort raw, none)
  | _ => (0, some ⟨"value doesn't contain number", []⟩)

/-- The method `(*Value).Uint()` on a platform whose `uint` has 64 bits: as `Uint64()`, the
conversion to `uint` losing nothing. -/
def Json.Uint : Json → Nat × Option ApiError
  | .number raw =>
    if ParseUint64BestEffort raw = 0 ∧ raw ≠ [48] then (0, some ⟨"cannot parse uint", []⟩)
    else if ParseUint64BestEffort raw % 2 ^ 64 ≠ ParseUint64BestEffort raw then
      (0, some ⟨"number doesn't fit uint", []⟩)
    else (ParseUint64BestEffort raw % 2 ^ 64, none)
  | _ => (0, some ⟨"value doesn't contain number", []⟩)

/-- The value of a hexadecimal digit (`fromHexChar` of `encoding/hex`). -/
def hex.fromHexChar (c : Nat) : Option Nat :=
  if 48 ≤ c ∧ c ≤ 57 then some (c - 48)
  else if 97 ≤ c ∧ c ≤ 102 then some (c - 97 + 10)
  else if 65 ≤ c ∧ c ≤ 70 then some (c - 65 + 10)
  else none

/-- The function `hex.DecodeString`: the bytes decoded before the first error, and the
error (an invalid byte, or an odd length). -/
def hex.DecodeString : Bytes → Bytes × Option ApiError
  | [] => ([], none)
  | [a] =>
    match hex.fromHexChar a with
    | none => ([], some ⟨"encoding/hex: invalid byte", [a]⟩)
    | some _ => ([], some ⟨"encoding/hex: odd length hex string", []⟩)
  | a :: b :: rest =>
    match hex.fromHexChar a with
    | none => ([], some ⟨"encoding/hex: invalid byte", [a]⟩)
    | some x =>
      match hex.fromHexChar b with
      | none => ([], some ⟨"encoding/hex: invalid byte", [b]⟩)
      | some y => ((x * 16 + y) :: (hex.DecodeString rest).1, (hex.DecodeString rest).2)

/-- The builtin `copy(dst[:], src)` into a zeroed array of `n` bytes. -/
def copyArray (n : Nat) (src : Bytes) : Bytes :=
  src.take n ++ List.replicate (n - src.length) 0

/-- The text `fmt.Sprintf("%s%d", msg, n)`: the message followed by the decimal digits
of `n`. -/
def Sprintf (msg : Bytes) (n : Nat) : Bytes :=
  msg ++ (Nat.toDigits 10 n).map (fun c => c.toNat)

/-- The constant `SessionInitMessage`, the bytes of `"perlin_session_init_"`. -/
def SessionInitMessage : Bytes :=
  [112, 101, 114, 108, 105, 110, 95, 115, 101, 115, 115, 105, 111, 110, 95, 105, 110, 105,
    116, 95]

/-- The bytes of `"public_key"`. -/
def keyPublicKey : Bytes := [112, 117, 98, 108, 105, 99, 95, 107, 101, 121]

/-- The bytes of `"signature"`. -/
def keySignature : Bytes := [115, 105, 103, 110, 97, 116, 117, 114, 101]

/-- The bytes of `"time_millis"`. -/
def keyTimeMillis : Bytes := [116, 105, 109, 101, 95, 109, 105, 108, 108, 105, 115]

/-- The bytes of `"sender"`. -/
def keySender : Bytes := [115, 101, 110, 100, 101, 114]

/-- The bytes of `"payload"`. -/
def keyPayload : Bytes := [112, 97, 121, 108, 111, 97, 100]

/-- The bytes of `"tag"`. -/
def keyTag : Bytes := [116, 97, 103]

/-- The external collaborators and constants of the request binding: `fastjson.ValidateBytes`,
`parser.ParseBytes`, `edwards25519.Verify(publicKey, message, signature)`, and the constants
`wavelet.SizeAccountID`, `wavelet.SizeSignature`, `sys.TagBatch` (a byte). -/
structure ApiEnv where
  ValidateBytes : Bytes → Option ApiError
  ParseBytes : Bytes → Except ApiError Json
  Verify : Bytes → Bytes → Bytes → Bool
  SizeAccountID : Nat
  SizeSignature : Nat
  TagBatch : Nat

/-- The length of the array type `edwards25519.PublicKey`. -/
def SizePublicKey : Nat := 32

/-- The length of the array type `edwards25519.Signature`. -/
def SizeEdSignature : Nat := 64

/-- The struct `sessionInitRequest`. -/
structure sessionInitRequest where
  PublicKey : Bytes
  Signature : Bytes
  TimeMillis : Nat
deriving DecidableEq, Repr

/-- Embedding of `(*sessionInitRequest).bind`: the request afterwards and the returned
error. The variable `err` of the Go function is the error of the last call assigned to it;
when the signature check is reached that call is `hex.DecodeString(s.Signature)`. -/
def sessionInitRequest.bind (e : ApiEnv) (s : sessionInitRequest) (body : Bytes) :
    sessionInitRequest × Option ApiError :=
  match e.ValidateBytes body with
  | some err => (s, errors.Wrap (some err) "invalid json")
  | none =>
  match e.ParseBytes body with
  | .error err => (s, some err)
  | .ok v =>
  match v.Get keyPublicKey with
  | none => (s, errors.New "missing public_key")
  | some publicKeyVal =>
  if publicKeyVal.TypeOf ≠ JsonType.TypeString then
    (s, errors.New "public_key is not a string")
  else
  match publicKeyVal.StringBytes with
  | (_, some err) => (s, errors.Wrap (some err) "invalid public_key")
  | (publicKeyStr, none) =>
  match v.Get keySignature with
  | none => (s, errors.New "missing signature")
  | some signatureVal =>
  if signatureVal.TypeOf ≠ JsonType.TypeString then
    (s, errors.New "signature is not a string")
  else
  match signatureVal.StringBytes with
  | (_, some err) => (s, errors.Wrap (some err) "invalid signature")
  | (signatureStr, none) =>
  match v.Get keyTimeMillis with
  | none => (s, errors.New "missing time_millis")
  | some timeMillisVal =>
  if timeMillisVal.TypeOf ≠ JsonType.TypeNumber then
    (s, errors.New "time_millis is not a number")
  else
  match timeMillisVal.Uint64 with
  | (_, some err) => (s, errors.Wrap (some err) "invalid time_millis")
  | (timeMillis, none) =>
  let s1 : sessionInitRequest := ⟨publicKeyStr, signatureStr, timeMillis⟩
  match hex.DecodeString s1.PublicKey with
  | (_, some err) => (s1, errors.Wrap (some err) "public key provided is not hex-formatted")
  | (publicKeyBuf, none) =>
  if publicKeyBuf.length ≠ e.SizeAccountID then
    (s1, errors.Errorf "public key must be size %d" e.SizeAccountID)
  else
  match hex.DecodeString s1.Signature with
  | (_, some err) => (s1, errors.Wrap (some err) "signature provided is not hex-formatted")
  | (signatureBuf, err) =>
  if signatureBuf.length ≠ e.SizeSignature then
    (s1, errors.Errorf "signature must be size %d" e.SizeSignature)
  else
  let publicKey := copyArray SizePublicKey publicKeyBuf
  let signature := copyArray SizeEdSignature signatureBuf
  if !e.Verify publicKey (Sprintf SessionInitMessage s1.TimeMillis) signature then
    (s1, errors.Wrap err "signature verification failed")
  else (s1, none)

/-- The struct `sendTransactionRequest`, its internal fields included. -/
structure sendTransactionRequest where
  Sender : Bytes
  Tag : Nat
  Payload : Bytes
  Signature : Bytes
  creator : Bytes
  signature : Bytes
  payload : Bytes
deriving DecidableEq, Repr

/-- Embedding of `(*sendTransactionRequest).bind`: the request afterwards and the returned
error. `s.Tag = byte(tag)` keeps the low 8 bits of the parsed number; the variable `err` is
the error of `hex.DecodeString(s.Signature)` when the signature check is reached. -/
def sendTransactionRequest.bind (e : ApiEnv) (s : sendTransactionRequest) (body : Bytes) :
    sendTransactionRequest × Option ApiError :=
  match e.ValidateBytes body with
  | some err => (s, errors.Wrap (some err) "invalid json")
  | none =>
  match e.ParseBytes body with
  | .error err => (s, some err)
  | .ok v =>
  match v.Get keySender with
  | none => (s, errors.New "missing sender")
  | some senderVal =>
  if senderVal.TypeOf ≠ JsonType.TypeString then (s, errors.New "sender is not a string")
  else
  match senderVal.StringBytes with
  | (_, some err) => (s, errors.Wrap (some err) "invalid sender")
  | (senderStr, none) =>
  match v.Get keyPayload with
  | none => (s, errors.New "missing payload")
  | some payloadVal =>
  if payloadVal.TypeOf ≠ JsonType.TypeString then (s, errors.New "payload is not a string")
  else
  match payloadVal.StringBytes with
  | (_, some err) => (s, errors.Wrap (some err) "invalid payload")
  | (payloadStr, none) =>
  match v.Get keySignature with
  | none => (s, errors.New "missing signature")
  | some signatureVal =>
  if signatureVal.TypeOf ≠ JsonType.TypeString then
    (s, errors.New "signature is not a string")
  else
  match signatureVal.StringBytes with
  | (_, some err) => (s, errors.Wrap (some err) "invalid signature")
  | (signatureStr, none) =>
  match v.Get keyTag with
  | none => (s, errors.New "missing tag")
  | some tagVal =>
  if tagVal.TypeOf ≠ JsonType.TypeNumber then (s, errors.New "tag is not a number")
  else
  match tagVal.Uint with
  | (_, some err) => (s, errors.Wrap (some err) "invalid tag")
  | (tag, none) =>
  let s1 : sendTransactionRequest :=
    { s with Sender := senderStr, Payload := payloadStr, Signature := signatureStr,
             Tag := tag % 256 }
  match hex.DecodeString s1.Sender with
  | (_, some err) =>
    (s1, errors.Wrap (some err) "sender public key provided is not hex-formatted")
  | (senderBuf, none) =>
  if senderBuf.length ≠ e.SizeAccountID then
    (s1, errors.Errorf "sender public key must be size %d" e.SizeAccountID)
  else
  if s1.Tag > e.TagBatch then (s1, errors.New "unknown transaction tag specified")
  else
  match hex.DecodeString s1.Payload with
  | (partialPayload, some err) =>
    ({ s1 with payload := partialPayload },
      errors.Wrap (some err) "payload provided is not hex-formatted")
  | (payloadBuf, none) =>
  let s2 : sendTransactionRequest := { s1 with payload := payloadBuf }
  match hex.DecodeString s2.Signature with
  | (_, some err) =>
    (s2, errors.Wrap (some err) "sender signature provided is not hex-formatted")
  | (signatureBuf, err) =>
  if signatureBuf.length ≠ e.SizeSignature then
    (s2, errors.Errorf "sender signature must be size %d" e.SizeSignature)
  else
  let s3 : sendTransactionRequest := { s2 with creator := copyArray e.SizeAccountID senderBuf }
  let signature := copyArray SizeEdSignature signatureBuf
  let nonce : Bytes := List.replicate 8 0
  if !e.Verify s3.creator (nonce ++ ([s3.Tag] ++ s3.payload)) signature then
    (s3, errors.Wrap err "sender signature verification failed")
  else ({ s3 with signature := copyArray e.SizeSignature signatureBuf }, none)

/-- A toy signature over a public key and a message, 64 bytes long: the key followed by the
message, cut or padded with zero bytes. -/
def toySign (publicKey message : Bytes) : Bytes :=
  ((publicKey ++ message) ++ List.replicate 64 0).take 64

/-- The text of a session-init request whose `public_key` is 64 hex digits `0`, whose
`signature` is 128 hex digits `0` and whose `time_millis` is 1. -/
def sessionBody : Bytes :=
  [123, 34, 112, 117, 98, 108, 105, 99, 95, 107, 101, 121, 34, 58, 34]
    ++ List.replicate 64 48
    ++ [34, 44, 34, 115, 105, 103, 110, 97, 116, 117, 114, 101, 34, 58, 34]
    ++ List.replicate 128 48
    ++ [34, 44, 34, 116, 105, 109, 101, 95, 109, 105, 108, 108, 105, 115, 34, 58, 49, 125]

/-- The parsed `sessionBody`. -/
def sessionJson : Json :=
  .object [(keyPublicKey, .string (List.replicate 64 48)),
    (keySignature, .string (List.replicate 128 48)), (keyTimeMillis, .number [49])]

/-- The text of a send-transaction request whose `sender` is 64 hex digits `0`, whose `tag`
is 256, whose `payload` is empty and whose `signature` is 128 hex digits `0`. -/
def transferBody : Bytes :=
  [123, 34, 115, 101, 110, 100, 101, 114, 34, 58, 34]
    ++ List.replicate 64 48
    ++ [34, 44, 34, 116, 97, 103, 34, 58, 50, 53, 54, 44, 34, 112, 97, 121, 108, 111, 97, 100,
        34, 58, 34, 34, 44, 34, 115, 105, 103, 110, 97, 116, 117, 114, 101, 34, 58, 34]
    ++ List.replicate 128 48
    ++ [34, 125]

/-- The parsed `transferBody`. -/
def transferJson : Json :=
  .object [(keySender, .string (List.replicate 64 48)), (keyTag, .number [50, 53, 54]),
    (keyPayload, .string []), (keySignature, .string (List.replicate 128 48))]

/-- A sample API environment: a parser that knows the two sample texts, the toy signature
scheme, account ids of 32 bytes, signatures of 64 bytes and `TagBatch = 4`. -/
def sampleApi : ApiEnv where
  ValidateBytes := fun body =>
    if body = sessionBody ∨ body = transferBody then none else some ⟨"cannot parse JSON", []⟩
  ParseBytes := fun body =>
    if body = sessionBody then .ok sessionJson
    else if body = transferBody then .ok transferJson
    else .error ⟨"cannot parse JSON", []⟩
  Verify := fun publicKey message signature => decide (signature = toySign publicKey message)
  SizeAccountID := 32
  SizeSignature := 64
  TagBatch := 4

/-- The sample environment in which every symbol has two ascendants, so that each of the
three transactions passes the fast path once its parent is accepted. -/
def deepEnv : Env :=
  { sampleEnv with CountAscendants := fun _ limit => min 2 limit }

/-- A store in which `symA` and its child `symB` are accepted and `symC` is pending. -/
def chainStore : Store :=
  [(acceptedKey symB, [1]), (acceptedKey symA, [1]), (pendingKey symC, [0])]

/-- A store in which the whole chain `symA`, `symB`, `symC` is accepted. -/
def fullStore : Store :=
  [(acceptedKey symC, [1]), (acceptedKey symB, [1]), (acceptedKey symA, [1])]

/-- Bucket exclusivity by key: no symbol has a key in the accepted bucket and a key in the
pending bucket. -/
def KeyExclusive (st : Store) : Prop :=
  ∀ s, ¬ (st.Get (acceptedKey s) ≠ none ∧ InPending st s)

/-- A store whose only entry is the key of `symB` in the accepted bucket, holding the false
byte. -/
def falseStore : Store := [(acceptedKey symB, [0])]

/-! ## The two cache files, each translated on its own

To compare `lru.vm.go` with `lru.state.go`, each file is translated here separately,
declaration by declaration, with its own `objectInfo` struct and its own methods. The
standard `container/list` and the builtin map are the libraries both files use; a list is
written from front to back and a `*list.Element` carries its identity. -/

/-- A `*list.Element` of `container/list`: its identity and the `Value` it carries. -/
structure ListElement (α : Type) where
  ptr : Nat
  Value : α
deriving DecidableEq, Repr

/-- The element of the list a pointer refers to. -/
def list.deref {α : Type} (l : List (ListElement α)) (p : Nat) : Option (ListElement α) :=
  l.find? (fun el => el.ptr == p)

/-- The method `(*List).MoveToFront(e)`: the element moves to the front; the list is
unchanged when the element is not in it. -/
def list.MoveToFront {α : Type} (l : List (ListElement α)) (p : Nat) : List (ListElement α) :=
  match list.deref l p with
  | none => l
  | some el => el :: l.filter (fun x => decide (x.ptr ≠ p))

/-- The method `(*List).Remove(e)`. -/
def list.Remove {α : Type} (l : List (ListElement α)) (p : Nat) : List (ListElement α) :=
  l.filter (fun x => decide (x.ptr ≠ p))

/-- The method `(*List).PushFront(v)`: a new element, of identity `p`, at the front. -/
def list.PushFront {α : Type} (l : List (ListElement α)) (p : Nat) (v : α) :
    List (ListElement α) :=
  ⟨p, v⟩ :: l

namespace lru_state

/-- The struct `objectInfoState` of `lru.state.go`. -/
structure objectInfoState where
  key : Nat
  obj : Nat
deriving DecidableEq, Repr

/-- The struct `StateLRU` of `lru.state.go`: `elements` is the `map[uint64]*list.Element`,
`access` the list, `nextPtr` the identity of the next element allocated. -/
structure StateLRU where
  size : Int
  elements : List (Nat × Nat)
  access : List (ListElement objectInfoState)
  nextPtr : Nat
deriving DecidableEq, Repr

/-- The function `NewStateLRU` of `lru.state.go`. -/
def NewStateLRU (size : Int) : StateLRU := ⟨size, [], [], 0⟩

/-- The loop `for len(l.elements) > l.size` of `lru.state.go`, run on the access list read
from the back: `back := l.access.Back()`, `info := back.Value.(*objectInfoState)`,
`delete(l.elements, info.key)`, `l.access.Remove(back)`; on the empty list `back` is nil. -/
def evictLoop (size : Int) :
    List (Nat × Nat) → List (ListElement objectInfoState) →
      Except Fault (List (Nat × Nat) × List (ListElement objectInfoState))
  | elements, [] =>
    if (elements.length : Int) > size then .error .nilPointer else .ok (elements, [])
  | elements, back :: rest =>
    if (elements.length : Int) > size then
      evictLoop size (LRU.mapDelete elements back.Value.key) rest
    else .ok (elements, back :: rest)

/-- The assignment `elem.Value.(*objectInfoState).obj = val` of `lru.state.go`, through the
pointer `elem`. -/
def setObj (access : List (ListElement objectInfoState)) (elem : Nat) (val : Nat) :
    List (ListElement objectInfoState) :=
  access.map (fun el => if el.ptr = elem then ⟨el.ptr, ⟨el.Value.key, val⟩⟩ else el)

/-- The method `(*StateLRU).Load` of `lru.state.go`. -/
def StateLRU.Load (l : StateLRU) (key : Nat) : Except Fault (StateLRU × Option Nat × Bool) :=
  match LRU.mapGet l.elements key with
  | none => .ok (l, none, false)
  | some elem =>
    match list.deref l.access elem with
    | none => .error .strayPointer
    | some el =>
      .ok ({ l with access := list.MoveToFront l.access elem }, some el.Value.obj, true)

/-- The method `(*StateLRU).LoadOrPut` of `lru.state.go`. -/
def StateLRU.LoadOrPut (l : StateLRU) (key : Nat) (val : Nat) :
    Except Fault (StateLRU × Nat × Bool) :=
  match LRU.mapGet l.elements key with
  | some elem =>
    match list.deref l.access elem with
    | none => .error .strayPointer
    | some el => .ok ({ l with access := list.MoveToFront l.access elem }, el.Value.obj, true)
  | none =>
    match evictLoop l.size (LRU.mapSet l.elements key l.nextPtr)
        (list.PushFront l.access l.nextPtr ⟨key, val⟩).reverse with
    | .error f => .error f
    | .ok (elements, revAccess) =>
      .ok (⟨l.size, elements, revAccess.reverse, l.nextPtr + 1⟩, val, false)

/-- The method `(*StateLRU).Put` of `lru.state.go`. -/
def StateLRU.Put (l : StateLRU) (key : Nat) (val : Nat) : Except Fault StateLRU :=
  match LRU.mapGet l.elements key with
  | some elem =>
    match list.deref l.access elem with
    | none => .error .strayPointer
    | some _ =>
      .ok { l with access := list.MoveToFront (setObj l.access elem val) elem }
  | none =>
    match evictLoop l.size (LRU.mapSet l.elements key l.nextPtr)
        (list.PushFront l.access l.nextPtr ⟨key, val⟩).reverse with
    | .error f => .error f
    | .ok (elements, revAccess) => .ok ⟨l.size, elements, revAccess.reverse, l.nextPtr + 1⟩

/-- The method `(*StateLRU).Remove` of `lru.state.go`. -/
def StateLRU.Remove (l : StateLRU) (key : Nat) : StateLRU :=
  match LRU.mapGet l.elements key with
  | some elem =>
    { l with elements := LRU.mapDelete l.elements key, access := list.Remove l.access elem }
  | none => l

/-- One call on the state cache of `lru.state.go` and what it returns. -/
def StateLRU.call (l : StateLRU) : CacheOp Nat Nat → Except Fault (StateLRU × Reply Nat)
  | .load key =>
    match StateLRU.Load l key with
    | .error f => .error f
    | .ok r => .ok (r.1, .loaded r.2.1 r.2.2)
  | .loadOrPut key val =>
    match StateLRU.LoadOrPut l key val with
    | .error f => .error f
    | .ok r => .ok (r.1, .loadedOrPut r.2.1 r.2.2)
  | .put key val =>
    match StateLRU.Put l key val with
    | .error f => .error f
    | .ok l2 => .ok (l2, .done)
  | .remove key => .ok (StateLRU.Remove l key, .done)

/-- A sequence of calls on the state cache: the cache afterwards and the replies, or the
first failure. -/
def StateLRU.trace (l : StateLRU) :
    List (CacheOp Nat Nat) → Except Fault (StateLRU × List (Reply Nat))
  | [] => .ok (l, [])
  | op :: ops =>
    match StateLRU.call l op with
    | .error f => .error f
    | .ok (l2, r) =>
      match StateLRU.trace l2 ops with
      | .error f => .error f
      | .ok (l3, rs) => .ok (l3, r :: rs)

end lru_state

namespace lru_vm

/-- The struct `objectInfoVM` of `lru.vm.go`. -/
structure objectInfoVM where
  key : Bytes
  obj : Nat
deriving DecidableEq, Repr

/-- The struct `VMLRU` of `lru.vm.go`: `elements` is the `map[[32]byte]*list.Element`,
`access` the list, `nextPtr` the identity of the next element allocated. -/
structure VMLRU where
  size : Int
  elements : List (Bytes × Nat)
  access : List (ListElement objectInfoVM)
  nextPtr : Nat
deriving DecidableEq, Repr

/-- The function `NewVMLRU` of `lru.vm.go`. -/
def NewVMLRU (size : Int) : VMLRU := ⟨size, [], [], 0⟩

/-- The loop `for len(l.elements) > l.size` of `lru.vm.go`, run on the access list read
from the back: `back := l.access.Back()`, `info := back.Value.(*objectInfoVM)`,
`delete(l.elements, info.key)`, `l.access.Remove(back)`; on the empty list `back` is nil. -/
def evictLoop (size : Int) :
    List (Bytes × Nat) → List (ListElement objectInfoVM) →
      Except Fault (List (Bytes × Nat) × List (ListElement objectInfoVM))
  | elements, [] =>
    if (elements.length : Int) > size then .error .nilPointer else .ok (elements, [])
  | elements, back :: rest =>
    if (elements.length : Int) > size then
      evictLoop size (LRU.mapDelete elements back.Value.key) rest
    else .ok (elements, back :: rest)

/-- The assignment `elem.Value.(*objectInfoVM).obj = val` of `lru.vm.go`, through the
pointer `elem`. -/
def setObj (access : List (ListElement objectInfoVM)) (elem : Nat) (val : Nat) :
    List (ListElement objectInfoVM) :=
  access.map (fun el => if el.ptr = elem then ⟨el.ptr, ⟨el.Value.key, val⟩⟩ else el)

/-- The method `(*VMLRU).Load` of `lru.vm.go`. -/
def VMLRU.Load (l : VMLRU) (key : Bytes) : Except Fault (VMLRU × Option Nat × Bool) :=
  match LRU.mapGet l.elements key with
  | none => .ok (l, none, false)
  | some elem =>
    match list.deref l.access elem with
    | none => .error .strayPointer
    | some el =>
      .ok ({ l with access := list.MoveToFront l.access elem }, some el.Value.obj, true)

/-- The method `(*VMLRU).LoadOrPut` of `lru.vm.go`. -/
def VMLRU.LoadOrPut (l : VMLRU) (key : Bytes) (val : Nat) :
    Except Fault (VMLRU × Nat × Bool) :=
  match LRU.mapGet l.elements key with
  | some elem =>
    match list.deref l.access elem with
    | none => .error .strayPointer
    | some el => .ok ({ l with access := list.MoveToFront l.access elem }, el.Value.obj, true)
  | none =>
    match evictLoop l.size (LRU.mapSet l.elements key l.nextPtr)
        (list.PushFront l.access l.nextPtr ⟨key, val⟩).reverse with
    | .error f => .error f
    | .ok (elements, revAccess) =>
      .ok (⟨l.size, elements, revAccess.reverse, l.nextPtr + 1⟩, val, false)

/-- The method `(*VMLRU).Put` of `lru.vm.go`. -/
def VMLRU.Put (l : VMLRU) (key : Bytes) (val : Nat) : Except Fault VMLRU :=
  match LRU.mapGet l.elements key with
  | some elem =>
    match list.deref l.access elem with
    | none => .error .strayPointer
    | some _ =>
      .ok { l with access := list.MoveToFront (setObj l.access elem val) elem }
  | none =>
    match evictLoop l.size (LRU.mapSet l.elements key l.nextPtr)
        (list.PushFront l.access l.nextPtr ⟨key, val⟩).reverse with
    | .error f => .error f
    | .ok (elements, revAccess) => .ok ⟨l.size, elements, revAccess.reverse, l.nextPtr + 1⟩

/-- The method `(*VMLRU).Remove` of `lru.vm.go`. -/
def VMLRU.Remove (l : VMLRU) (key : Bytes) : VMLRU :=
  match LRU.mapGet l.elements key with
  | some elem =>
    { l with elements := LRU.mapDelete l.elements key, access := list.Remove l.access elem }
  | none => l

/-- One call on the VM cache of `lru.vm.go` and what it returns. -/
def VMLRU.call (l : VMLRU) : CacheOp Bytes Nat → Except Fault (VMLRU × Reply Nat)
  | .load key =>
    match VMLRU.Load l key with
    | .error f => .error f
    | .ok r => .ok (r.1, .loaded r.2.1 r.2.2)
  | .loadOrPut key val =>
    match VMLRU.LoadOrPut l key val with
    | .error f => .error f
    | .ok r => .ok (r.1, .loadedOrPut r.2.1 r.2.2)
  | .put key val =>
    match VMLRU.Put l key val with
    | .error f => .error f
    | .ok l2 => .ok (l2, .done)
  | .remove key => .ok (VMLRU.Remove l key, .done)

/-- A sequence of calls on the VM cache: the cache afterwards and the replies, or the first
failure. -/
def VMLRU.trace (l : VMLRU) :
    List (CacheOp Bytes Nat) → Except Fault (VMLRU × List (Reply Nat))
  | [] => .ok (l, [])
  | op :: ops =>
    match VMLRU.call l op with
    | .error f => .error f
    | .ok (l2, r) =>
      match VMLRU.trace l2 ops with
      | .error f => .error f
      | .ok (l3, rs) => .ok (l3, r :: rs)

end lru_vm

/-- The state cache of `lru.state.go` under a renaming `f` of its keys into keys of the VM
cache and `g` of its values: same size, same pointers, same order. -/
def renameStateToVM (f : Nat → Bytes) (g : Nat → Nat) (l : lru_state.StateLRU) :
    lru_vm.VMLRU :=
  ⟨l.size, l.elements.map (fun kv => (f kv.1, kv.2)),
    l.access.map (fun el => ⟨el.ptr, ⟨f el.Value.key, g el.Value.obj⟩⟩), l.nextPtr⟩

/-- The VM cache of `lru.vm.go` under a renaming `f` of its keys into keys of the state
cache and `g` of its values. -/
def renameVMToState (f : Bytes → Nat) (g : Nat → Nat) (l : lru_vm.VMLRU) :
    lru_state.StateLRU :=
  ⟨l.size, l.elements.map (fun kv => (f kv.1, kv.2)),
    l.access.map (fun el => ⟨el.ptr, ⟨f el.Value.key, g el.Value.obj⟩⟩), l.nextPtr⟩

/-- The outcome of a run on the state cache, renamed into an outcome on the VM cache. -/
def outcomeStateToVM (f : Nat → Bytes) (g : Nat → Nat) :
    Except Fault (lru_state.StateLRU × List (Reply Nat)) →
      Except Fault (lru_vm.VMLRU × List (Reply Nat))
  | .error fault => .error fault
  | .ok (l, rs) => .ok (renameStateToVM f g l, rs.map (Reply.rename g))

/-- The outcome of a run on the VM cache, renamed into an outcome on the state cache. -/
def outcomeVMToState (f : Bytes → Nat) (g : Nat → Nat) :
    Except Fault (lru_vm.VMLRU × List (Reply Nat)) →
      Except Fault (lru_state.StateLRU × List (Reply Nat))
  | .error fault => .error fault
  | .ok (l, rs) => .ok (renameVMToState f g l, rs.map (Reply.rename g))

/-- A list element of `lru.state.go` as an element of the common embedding `LRU Nat Nat`. -/
def stateElement (el : ListElement lru_state.objectInfoState) : Element Nat Nat :=
  ⟨el.ptr, el.Value.key, el.Value.obj⟩

/-- A list element of `lru.vm.go` as an element of the common embedding `LRU Bytes Nat`. -/
def vmElement (el : ListElement lru_vm.objectInfoVM) : Element Bytes Nat :=
  ⟨el.ptr, el.Value.key, el.Value.obj⟩

/-- A cache of `lru.state.go` as a cache of the common embedding. -/
def stateToLRU (l : lru_state.StateLRU) : StateLRU :=
  ⟨l.size, l.elements, l.access.map stateElement, l.nextPtr⟩

/-- A cache of `lru.vm.go` as a cache of the common embedding. -/
def vmToLRU (l : lru_vm.VMLRU) : VMLRU :=
  ⟨l.size, l.elements, l.access.map vmElement, l.nextPtr⟩

/-! ## The store -/

theorem Store.Get_Delete (st : Store) (k key : Bytes) :
    (st.Delete k).Get key = if k = key then none else st.Get key := by
  induction st with
  | nil => simp [Store.Delete, Store.Get]
  | cons kv rest ih =>
    obtain ⟨a, v⟩ := kv
    by_cases hak : a = k
    · subst hak
      have : Store.Delete ((a, v) :: rest) a = Store.Delete rest a := by
        simp [Store.Delete]
      rw [this, ih]
      by_cases h : a = key
      · simp [h]
      · simp [h, Store.Get]
    · have : Store.Delete ((a, v) :: rest) k = (a, v) :: Store.Delete rest k := by
        simp [Store.Delete, hak]
      rw [this]
      by_cases h : a = key
      · have hk : ¬ k = key := fun hk => hak (h.trans hk.symm)
        simp [Store.Get, h, hk]
      · simp [Store.Get, h, ih]

theorem Store.Get_Put (st : Store) (k v key : Bytes) :
    (st.Put k v).Get key = if k = key then some v else st.Get key := by
  by_cases h : k = key
  · simp [Store.Put, Store.Get, h]
  · simp [Store.Put, Store.Get, h, Store.Get_Delete]

theorem acceptedKey_inj {s t : Symbol} (h : acceptedKey s = acceptedKey t) : s = t := by
  simpa [acceptedKey, merge, writeBytes] using h

theorem pendingKey_inj {s t : Symbol} (h : pendingKey s = pendingKey t) : s = t := by
  simpa [pendingKey, merge, writeBytes] using h

theorem acceptedKey_ne_pendingKey (s t : Symbol) : acceptedKey s ≠ pendingKey t := by
  simp [acceptedKey, pendingKey, merge, writeBytes, BucketAccepted, BucketAcceptPending]

theorem startsWith_append (b s : Bytes) : startsWith b (b ++ s) = true := by
  induction b with
  | nil => cases s <;> rfl
  | cons x xs ih => simp [startsWith, ih]

theorem mem_bucketKeys (st : Store) (b s : Bytes) (h : st.Get (b ++ s) ≠ none) :
    s ∈ st.bucketKeys b := by
  induction st with
  | nil => simp [Store.Get] at h
  | cons kv rest ih =>
    obtain ⟨a, v⟩ := kv
    by_cases hak : a = b ++ s
    · subst hak
      simp [Store.bucketKeys, startsWith_append]
    · have h2 : Store.Get rest (b ++ s) ≠ none := by simpa [Store.Get, hak] using h
      have := ih h2
      simp only [Store.bucketKeys, List.mem_map, List.mem_filter] at this ⊢
      obtain ⟨kv, ⟨hmem, hp⟩, hd⟩ := this
      exact ⟨kv, ⟨List.mem_cons_of_mem _ hmem, hp⟩, hd⟩

theorem startsWith_eq_append : ∀ (b k : Bytes), startsWith b k = true → k = b ++ k.drop b.length
  | [], k, _ => by simp
  | _ :: _, [], h => by simp [startsWith] at h
  | x :: xs, y :: ys, h => by
    simp only [startsWith, Bool.and_eq_true, beq_iff_eq] at h
    have := startsWith_eq_append xs ys h.2
    simp only [List.length_cons, List.drop_succ_cons, List.cons_append, h.1]
    exact congrArg _ this

theorem Get_of_Size_zero (st : Store) (b s : Bytes) (h : st.Size b = 0) :
    st.Get (b ++ s) = none := by
  by_contra hne
  have hm := mem_bucketKeys st b s hne
  simp only [Store.bucketKeys, List.mem_map] at hm
  obtain ⟨kv, hkv, _⟩ := hm
  have : (st.filter (fun kv => startsWith b kv.1)).length ≠ 0 := by
    intro h0
    rw [List.length_eq_zero] at h0
    rw [h0] at hkv
    simp at hkv
  exact this h

theorem bucketKeys_of_Size_zero (st : Store) (b : Bytes) (h : st.Size b = 0) :
    st.bucketKeys b = [] := by
  simp only [Store.Size, List.length_eq_zero] at h
  simp [Store.bucketKeys, h]

theorem bucketKeys_Delete_of_Size_zero (st : Store) (b k : Bytes) (h : st.Size b = 0) :
    (st.Delete k).bucketKeys b = [] := by
  simp only [Store.Size, List.length_eq_zero, List.filter_eq_nil_iff] at h
  simp only [Store.bucketKeys, Store.Delete, List.map_eq_nil_iff, List.filter_eq_nil_iff,
    List.mem_filter]
  intro kv hkv
  exact h kv hkv.1

theorem bucketKeys_Put_of_Size_zero (st : Store) (b s v : Bytes) (h : st.Size b = 0) :
    (st.Put (b ++ s) v).bucketKeys b = [s] := by
  have h2 := bucketKeys_Delete_of_Size_zero st b (b ++ s) h
  simp only [Store.bucketKeys] at h2
  simp [Store.Put, Store.bucketKeys, startsWith_append, h2]

/-! ## Breadth-first traversal of `revertTransaction` -/

theorem unvisited_cons (e : Env) (v : List Symbol) (c : Symbol) (hc : c ∈ e.symbols)
    (hv : c ∉ v) : unvisited e (c :: v) + 1 = unvisited e v := by
  have hmem : c ∈ e.symbols.toFinset \ v.toFinset := by
    simp [Finset.mem_sdiff, hc, hv]
  have h1 : e.symbols.toFinset \ (c :: v).toFinset = (e.symbols.toFinset \ v.toFinset).erase c := by
    rw [List.toFinset_cons, Finset.sdiff_insert]
  have hpos : 0 < (e.symbols.toFinset \ v.toFinset).card := Finset.card_pos.mpr ⟨c, hmem⟩
  unfold unvisited
  rw [h1, Finset.card_erase_of_mem hmem]
  omega

theorem unvisited_nil_le (e : Env) : unvisited e [] ≤ e.symbols.length := by
  unfold unvisited
  simpa using List.toFinset_card_le e.symbols

theorem revertChildren_store (cs : List Symbol) (b : Bfs) :
    (revertChildren cs b).store = b.store := by
  induction cs generalizing b with
  | nil => rfl
  | cons c rest ih =>
    simp only [revertChildren]
    split
    · exact ih b
    · rw [ih]

theorem revertChildren_queue_mono (cs : List Symbol) (b : Bfs) :
    ∀ x ∈ b.queue, x ∈ (revertChildren cs b).queue := by
  induction cs generalizing b with
  | nil => intro x hx; exact hx
  | cons c rest ih =>
    intro x hx
    simp only [revertChildren]
    split
    · exact ih b x hx
    · exact ih _ x (by simp [hx])

theorem revertChildren_visited (cs : List Symbol) (b : Bfs) :
    ∀ x, x ∈ (revertChildren cs b).visited →
      x ∈ b.visited ∨ x ∈ (revertChildren cs b).queue := by
  induction cs generalizing b with
  | nil => intro x hx; exact Or.inl hx
  | cons c rest ih =>
    intro x hx
    simp only [revertChildren] at hx ⊢
    split at hx
    · rename_i hc
      simp only [hc, if_true]
      exact ih b x hx
    · rename_i hc
      simp only [hc, if_false]
      rcases ih _ x hx with h | h
      · simp only [List.mem_cons] at h
        rcases h with h | h
        · right
          exact revertChildren_queue_mono rest _ x (by simp [h])
        · exact Or.inl h
      · exact Or.inr h

theorem revertChildren_visited_mono (cs : List Symbol) (b : Bfs) :
    ∀ x ∈ b.visited, x ∈ (revertChildren cs b).visited := by
  induction cs generalizing b with
  | nil => intro x hx; exact hx
  | cons c rest ih =>
    intro x hx
    simp only [revertChildren]
    split
    · exact ih b x hx
    · exact ih _ x (by simp [hx])

theorem revertChildren_children_visited (cs : List Symbol) (b : Bfs) :
    ∀ x ∈ cs, x ∈ (revertChildren cs b).visited := by
  induction cs generalizing b with
  | nil => intro x hx; simp at hx
  | cons c rest ih =>
    intro x hx
    simp only [revertChildren]
    rcases List.mem_cons.mp hx with h | h
    · subst h
      split
      · rename_i hc
        exact revertChildren_visited_mono rest b x hc
      · exact revertChildren_visited_mono rest _ x (by simp)
    · split
      · exact ih b x h
      · exact ih _ x h

theorem revertChildren_measure (e : Env) (cs : List Symbol) (b : Bfs)
    (hcs : ∀ c ∈ cs, c ∈ e.symbols) :
    (revertChildren cs b).queue.length + unvisited e (revertChildren cs b).visited
      ≤ b.queue.length + unvisited e b.visited := by
  induction cs generalizing b with
  | nil => exact le_refl _
  | cons c rest ih =>
    have hrest : ∀ c ∈ rest, c ∈ e.symbols := fun x hx => hcs x (List.mem_cons_of_mem _ hx)
    simp only [revertChildren]
    split
    · exact ih b hrest
    · rename_i hc
      have h1 := ih ⟨b.store, b.queue ++ [c], c :: b.visited⟩ hrest
      have h2 := unvisited_cons e b.visited c (hcs c (List.mem_cons_self _ _)) hc
      simp only [List.length_append, List.length_singleton] at h1
      omega

theorem Reverted_revert_step (st : Store) (popped x : Symbol) (h : Reverted st x) :
    Reverted ((st.Delete (merge BucketAccepted (writeBytes popped))).Put
      (merge BucketAcceptPending (writeBytes popped)) [0]) x := by
  obtain ⟨ha, hp⟩ := h
  refine ⟨?_, ?_⟩
  · rw [Store.Get_Put, Store.Get_Delete]
    have hne : ¬ merge BucketAcceptPending (writeBytes popped) = acceptedKey x :=
      fun hh => acceptedKey_ne_pendingKey x popped hh.symm
    simp only [hne, if_false]
    split
    · rfl
    · exact ha
  · unfold InPending at hp ⊢
    rw [Store.Get_Put, Store.Get_Delete]
    have hne : ¬ merge BucketAccepted (writeBytes popped) = pendingKey x :=
      fun hh => acceptedKey_ne_pendingKey popped x hh
    simp only [hne, if_false]
    split
    · simp
    · exact hp

theorem Reverted_popped (st : Store) (popped : Symbol) :
    Reverted ((st.Delete (merge BucketAccepted (writeBytes popped))).Put
      (merge BucketAcceptPending (writeBytes popped)) [0]) popped := by
  refine ⟨?_, ?_⟩
  · rw [Store.Get_Put, Store.Get_Delete]
    have hne : ¬ merge BucketAcceptPending (writeBytes popped) = acceptedKey popped :=
      fun hh => acceptedKey_ne_pendingKey popped popped hh.symm
    have hne2 := hne
    simp only [acceptedKey] at hne2
    simp [hne2, acceptedKey]
  · unfold InPending
    rw [Store.Get_Put]
    simp [pendingKey]

theorem revertLoop_Reverted_mono (e : Env) (x : Symbol) :
    ∀ (fuel : Nat) (b : Bfs), Reverted b.store x → Reverted (revertLoop e fuel b).store x := by
  intro fuel
  induction fuel with
  | zero => intro b h; exact h
  | succ n ih =>
    intro b h
    obtain ⟨st, q, v⟩ := b
    cases q with
    | nil => exact h
    | cons popped rest =>
      simp only [revertLoop]
      cases hch : e.GetChildrenBySymbol popped with
      | error err =>
        exact ih _ (Reverted_revert_step st popped x h)
      | ok children =>
        apply ih
        rw [revertChildren_store]
        exact Reverted_revert_step st popped x h

theorem revertLoop_spec (e : Env) (hfin : FiniteGraph e) :
    ∀ (fuel : Nat) (b : Bfs), b.queue.length + unvisited e b.visited ≤ fuel →
      ∃ P : List Symbol,
        (∀ x ∈ b.queue, x ∈ P) ∧
        (∀ x ∈ P, Reverted (revertLoop e fuel b).store x) ∧
        (∀ x ∈ P, ∀ c, ChildOf e x c → c ∈ P ∨ c ∈ b.visited) ∧
        (∀ key, (∀ x ∈ P, key ≠ acceptedKey x ∧ key ≠ pendingKey x) →
          (revertLoop e fuel b).store.Get key = b.store.Get key) := by
  intro fuel
  induction fuel with
  | zero =>
    intro b hb
    have hq : b.queue = [] := List.length_eq_zero.mp (by omega)
    exact ⟨[], by simp [hq], by simp, by simp, fun _ _ => rfl⟩
  | succ n ih =>
    intro b hb
    obtain ⟨st, q, v⟩ := b
    cases q with
    | nil => exact ⟨[], by simp, by simp, by simp, fun _ _ => rfl⟩
    | cons popped rest =>
      simp only [List.length_cons] at hb
      have hframe : ∀ key, key ≠ acceptedKey popped ∧ key ≠ pendingKey popped →
          ((st.Delete (merge BucketAccepted (writeBytes popped))).Put
            (merge BucketAcceptPending (writeBytes popped)) [0]).Get key = st.Get key := by
        intro key hk
        rw [Store.Get_Put, Store.Get_Delete]
        have h1 : ¬ merge BucketAcceptPending (writeBytes popped) = key := fun hh => hk.2 hh.symm
        have h2 : ¬ merge BucketAccepted (writeBytes popped) = key := fun hh => hk.1 hh.symm
        simp [h1, h2]
      simp only [revertLoop]
      cases hch : e.GetChildrenBySymbol popped with
      | error err =>
        obtain ⟨P, hq, hrev, hcl, hfr⟩ := ih
          ⟨(st.Delete (merge BucketAccepted (writeBytes popped))).Put
            (merge BucketAcceptPending (writeBytes popped)) [0], rest, v⟩ (by simp only; omega)
        refine ⟨popped :: P, ?_, ?_, ?_, ?_⟩
        · intro x hx
          rcases List.mem_cons.mp hx with h | h
          · simp [h]
          · exact List.mem_cons_of_mem _ (hq x h)
        · intro x hx
          rcases List.mem_cons.mp hx with h | h
          · subst h
            exact revertLoop_Reverted_mono e x n _ (Reverted_popped st x)
          · exact hrev x h
        · intro x hx c hc
          rcases List.mem_cons.mp hx with h | h
          · subst h
            obtain ⟨cs, hcs, _⟩ := hc
            rw [hch] at hcs
            cases hcs
          · rcases hcl x h c hc with h2 | h2
            · exact Or.inl (List.mem_cons_of_mem _ h2)
            · exact Or.inr h2
        · intro key hk
          rw [hfr key (fun x hx => hk x (List.mem_cons_of_mem _ hx))]
          exact hframe key (hk popped (List.mem_cons_self _ _))
      | ok children =>
        have hmeas := revertChildren_measure e children
          ⟨(st.Delete (merge BucketAccepted (writeBytes popped))).Put
            (merge BucketAcceptPending (writeBytes popped)) [0], rest, v⟩
          (hfin popped children hch)
        obtain ⟨P, hq, hrev, hcl, hfr⟩ := ih
          (revertChildren children
            ⟨(st.Delete (merge BucketAccepted (writeBytes popped))).Put
              (merge BucketAcceptPending (writeBytes popped)) [0], rest, v⟩)
          (by simp only at hmeas ⊢; omega)
        refine ⟨popped :: P, ?_, ?_, ?_, ?_⟩
        · intro x hx
          rcases List.mem_cons.mp hx with h | h
          · simp [h]
          · exact List.mem_cons_of_mem _ (hq x (revertChildren_queue_mono children _ x h))
        · intro x hx
          rcases List.mem_cons.mp hx with h | h
          · subst h
            apply revertLoop_Reverted_mono
            rw [revertChildren_store]
            exact Reverted_popped st x
          · exact hrev x h
        · intro x hx c hc
          have hvis : ∀ y, y ∈ (revertChildren children
              ⟨(st.Delete (merge BucketAccepted (writeBytes popped))).Put
                (merge BucketAcceptPending (writeBytes popped)) [0], rest, v⟩).visited →
              y ∈ popped :: P ∨ y ∈ v := by
            intro y hy
            rcases revertChildren_visited children _ y hy with h2 | h2
            · exact Or.inr h2
            · exact Or.inl (List.mem_cons_of_mem _ (hq y h2))
          rcases List.mem_cons.mp hx with h | h
          · subst h
            obtain ⟨cs, hcs, hmem⟩ := hc
            rw [hch] at hcs
            cases hcs
            exact hvis c (revertChildren_children_visited _ _ c hmem)
          · rcases hcl x h c hc with h2 | h2
            · exact Or.inl (List.mem_cons_of_mem _ h2)
            · exact hvis c h2
        · intro key hk
          rw [hfr key (fun x hx => hk x (List.mem_cons_of_mem _ hx)), revertChildren_store]
          exact hframe key (hk popped (List.mem_cons_self _ _))

theorem revertTransaction_spec (e : Env) (hfin : FiniteGraph e) (st : Store) (s : Symbol) :
    ∃ P : List Symbol,
      s ∈ P ∧
      (∀ x ∈ P, Reverted (revertTransaction e st s) x) ∧
      (∀ x ∈ P, ∀ c, ChildOf e x c → c ∈ P) ∧
      (∀ key, (∀ x ∈ P, key ≠ acceptedKey x ∧ key ≠ pendingKey x) →
        (revertTransaction e st s).Get key = st.Get key) := by
  have hfuel : (Bfs.mk st [s] []).queue.length + unvisited e (Bfs.mk st [s] []).visited
      ≤ e.symbols.length + 1 := by
    have := unvisited_nil_le e
    simp only [List.length_singleton]
    omega
  obtain ⟨P, hq, hrev, hcl, hfr⟩ := revertLoop_spec e hfin _ ⟨st, [s], []⟩ hfuel
  refine ⟨P, hq s (by simp), hrev, ?_, hfr⟩
  intro x hx c hc
  rcases hcl x hx c hc with h | h
  · exact h
  · simp at h

theorem revertTransaction_Reverted_self (e : Env) (st : Store) (s : Symbol) :
    Reverted (revertTransaction e st s) s := by
  unfold revertTransaction
  simp only [revertLoop]
  cases hch : e.GetChildrenBySymbol s with
  | error err => exact revertLoop_Reverted_mono e s _ _ (Reverted_popped st s)
  | ok children =>
    apply revertLoop_Reverted_mono
    rw [revertChildren_store]
    exact Reverted_popped st s

theorem WasAccepted_of_Get_none (st : Store) (s : Symbol) (h : st.Get (acceptedKey s) = none) :
    WasAccepted st s = false := by
  have h2 : st.Get (merge BucketAccepted (writeBytes s)) = none := h
  simp [WasAccepted, h2, readBoolean]

theorem WasAccepted_congr (st st2 : Store) (s : Symbol)
    (h : st2.Get (acceptedKey s) = st.Get (acceptedKey s)) :
    WasAccepted st2 s = WasAccepted st s := by
  have h2 : st2.Get (merge BucketAccepted (writeBytes s))
      = st.Get (merge BucketAccepted (writeBytes s)) := h
  simp [WasAccepted, h2]

/-! ## Breadth-first traversal of `acceptTransaction` -/

theorem acceptChildren_accepted_frame (cs : List Symbol) (b : Bfs) (x : Symbol) :
    (acceptChildren cs b).store.Get (acceptedKey x) = b.store.Get (acceptedKey x) := by
  induction cs generalizing b with
  | nil => rfl
  | cons c rest ih =>
    simp only [acceptChildren]
    split
    · exact ih b
    · rw [ih]
      simp only
      split
      · rw [Store.Get_Put]
        have hne : ¬ merge BucketAcceptPending (writeBytes c) = acceptedKey x :=
          fun hh => acceptedKey_ne_pendingKey x c hh.symm
        simp [hne]
      · rfl

theorem acceptChildren_pending_frame (cs : List Symbol) (b : Bfs) (x : Symbol)
    (hx : WasAccepted b.store x = true) :
    (acceptChildren cs b).store.Get (pendingKey x) = b.store.Get (pendingKey x) := by
  induction cs generalizing b with
  | nil => rfl
  | cons c rest ih =>
    simp only [acceptChildren]
    split
    · exact ih b hx
    · by_cases hc : WasAccepted b.store c = true
      · simp only [hc, Bool.not_true, Bool.false_eq_true, if_false]
        exact ih _ hx
      · have hcx : c ≠ x := fun h => hc (h ▸ hx)
        have hne : ¬ merge BucketAcceptPending (writeBytes c) = pendingKey x :=
          fun hh => hcx (pendingKey_inj hh)
        simp only [Bool.not_eq_true] at hc
        simp only [hc, Bool.not_false, if_true]
        rw [ih]
        · simp only
          rw [Store.Get_Put]
          simp [hne]
        · simp only
          refine Eq.trans ?_ hx
          apply WasAccepted_congr
          rw [Store.Get_Put]
          have hne2 : ¬ merge BucketAcceptPending (writeBytes c) = acceptedKey x :=
            fun hh => acceptedKey_ne_pendingKey x c hh.symm
          simp [hne2]

theorem acceptLoop_accepted_frame (e : Env) (x : Symbol) :
    ∀ (fuel : Nat) (b : Bfs),
      (acceptLoop e fuel b).store.Get (acceptedKey x) = b.store.Get (acceptedKey x) := by
  intro fuel
  induction fuel with
  | zero => intro b; rfl
  | succ n ih =>
    intro b
    obtain ⟨st, q, v⟩ := b
    cases q with
    | nil => rfl
    | cons popped rest =>
      simp only [acceptLoop]
      cases hch : e.GetChildrenBySymbol popped with
      | error err => exact ih _
      | ok children =>
        simp only
        rw [ih, acceptChildren_accepted_frame]

theorem acceptLoop_pending_frame (e : Env) (x : Symbol) :
    ∀ (fuel : Nat) (b : Bfs), WasAccepted b.store x = true →
      (acceptLoop e fuel b).store.Get (pendingKey x) = b.store.Get (pendingKey x) := by
  intro fuel
  induction fuel with
  | zero => intro b _; rfl
  | succ n ih =>
    intro b hx
    obtain ⟨st, q, v⟩ := b
    cases q with
    | nil => rfl
    | cons popped rest =>
      simp only [acceptLoop]
      cases hch : e.GetChildrenBySymbol popped with
      | error err => exact ih _ hx
      | ok children =>
        have hx2 : WasAccepted (Bfs.mk st rest v).store x = true := hx
        have hx3 : WasAccepted (acceptChildren children ⟨st, rest, v⟩).store x = true :=
          (WasAccepted_congr _ _ _ (acceptChildren_accepted_frame _ _ _)).trans hx2
        rw [ih _ hx3, acceptChildren_pending_frame _ _ _ hx2]

theorem acceptTransaction_Get_accepted (e : Env) (st : Store) (s x : Symbol) :
    (acceptTransaction e st s).Get (acceptedKey x)
      = if x = s then some (writeBoolean true) else st.Get (acceptedKey x) := by
  unfold acceptTransaction
  simp only
  rw [acceptLoop_accepted_frame, Store.Get_Delete, Store.Get_Put]
  have hne : ¬ merge BucketAcceptPending (writeBytes s) = acceptedKey x :=
    fun hh => acceptedKey_ne_pendingKey x s hh.symm
  simp only [hne, if_false]
  by_cases hxs : x = s
  · subst hxs
    simp [acceptedKey]
  · have hne2 : ¬ merge BucketAccepted (writeBytes s) = acceptedKey x :=
      fun hh => hxs (acceptedKey_inj hh).symm
    simp [hne2, hxs]

theorem WasAccepted_acceptTransaction (e : Env) (st : Store) (s x : Symbol) :
    WasAccepted (acceptTransaction e st s) x = if x = s then true else WasAccepted st x := by
  have h := acceptTransaction_Get_accepted e st s x
  by_cases hxs : x = s
  · simp only [hxs, if_true] at h ⊢
    have h2 : (acceptTransaction e st s).Get (merge BucketAccepted (writeBytes s))
        = some (writeBoolean true) := h
    simp [WasAccepted, h2, writeBoolean, readBoolean]
  · simp only [hxs, if_false] at h ⊢
    exact WasAccepted_congr _ _ _ h

theorem acceptTransaction_Get_pending (e : Env) (st : Store) (s x : Symbol)
    (hx : WasAccepted (acceptTransaction e st s) x = true) :
    (acceptTransaction e st s).Get (pendingKey x)
      = if x = s then none else st.Get (pendingKey x) := by
  have hx2 : WasAccepted ((st.Put (merge BucketAccepted (writeBytes s)) (writeBoolean true)).Delete
      (merge BucketAcceptPending (writeBytes s))) x = true := by
    refine Eq.trans ?_ hx
    apply WasAccepted_congr
    unfold acceptTransaction
    simp only
    rw [acceptLoop_accepted_frame]
  unfold acceptTransaction
  simp only
  rw [acceptLoop_pending_frame e x _ _ hx2, Store.Get_Delete, Store.Get_Put]
  by_cases hxs : x = s
  · subst hxs
    simp [pendingKey]
  · have hne : ¬ merge BucketAcceptPending (writeBytes s) = pendingKey x :=
      fun hh => hxs (pendingKey_inj hh).symm
    have hne2 : ¬ merge BucketAccepted (writeBytes s) = pendingKey x :=
      fun hh => acceptedKey_ne_pendingKey s x hh
    simp [hne, hne2, hxs]

/-! ## The scan of the pending bucket -/

theorem parentsAccepted_iff (st : Store) (ps : List Symbol) :
    parentsAccepted st ps = true ↔ ∀ p ∈ ps, WasAccepted st p = true := by
  induction ps with
  | nil => simp [parentsAccepted]
  | cons p rest ih =>
    simp only [parentsAccepted, List.mem_cons, forall_eq_or_imp]
    cases hp : WasAccepted st p
    · simp
    · simpa using ih

/-- The two outcomes of the callback: the scan state is untouched, or every lookup
succeeded, both gates passed, the symbol was not accepted and it is accepted now. -/
theorem pendingCallback_cases (e : Env) (s : Scan) (k : Symbol) :
    pendingCallback e s k = (s, none) ∨
    ∃ tx set h,
      e.GetBySymbol k = .ok tx ∧ e.GetConflictSet tx.Sender tx.Nonce = .ok set ∧
      e.UnmarshalPb set.Transactions = .ok h ∧
      parentsAccepted s.store tx.Parents = true ∧
      (set.Count > e.Beta2 ∨
        (e.Cardinality h = 1 ∧ e.CountAscendants k (e.Beta1 + 1) > e.Beta1)) ∧
      WasAccepted s.store k = false ∧
      pendingCallback e s k
        = (⟨acceptTransaction e s.store k, s.acceptedList ++ [k]⟩, none) := by
  cases htx : e.GetBySymbol k with
  | error err => left; simp [pendingCallback, htx]
  | ok tx =>
    cases hset : e.GetConflictSet tx.Sender tx.Nonce with
    | error err => left; simp [pendingCallback, htx, hset]
    | ok set =>
      cases hh : e.UnmarshalPb set.Transactions with
      | error err => left; simp [pendingCallback, htx, hset, hh]
      | ok h =>
        by_cases hpa : parentsAccepted s.store tx.Parents = true
        · by_cases hgate : set.Count > e.Beta2 ∨
              (e.Cardinality h = 1 ∧ e.CountAscendants k (e.Beta1 + 1) > e.Beta1)
          · cases hwa : WasAccepted s.store k
            · right
              refine ⟨tx, set, h, rfl, hset, hh, hpa, hgate, rfl, ?_⟩
              have hg : (decide (set.Count > e.Beta2) ||
                  (!(!(e.Cardinality h == 1)) &&
                    decide (e.CountAscendants k (e.Beta1 + 1) > e.Beta1))) = true := by
                simpa using hgate
              simp only [pendingCallback, htx, hset, hh, hpa, hg, hwa, if_true, Bool.not_false]
            · left
              simp [pendingCallback, htx, hset, hh, hwa]
          · left
            have hg : (decide (set.Count > e.Beta2) ||
                (!(!(e.Cardinality h == 1)) &&
                  decide (e.CountAscendants k (e.Beta1 + 1) > e.Beta1))) = false := by
              rw [← Bool.not_eq_true]
              simpa using hgate
            simp only [pendingCallback, htx, hset, hh, hg]
            simp
        · left
          simp [pendingCallback, htx, hset, hh, hpa]

theorem pendingCallback_snd (e : Env) (s : Scan) (k : Symbol) :
    (pendingCallback e s k).2 = none := by
  rcases pendingCallback_cases e s k with h | ⟨_, _, _, _, _, _, _, _, _, h⟩ <;> rw [h]

theorem forEachKeyLoop_cons (e : Env) (k : Symbol) (ks : List Symbol) (s : Scan) :
    forEachKeyLoop (pendingCallback e) (k :: ks) s
      = forEachKeyLoop (pendingCallback e) ks (pendingCallback e s k).1 := by
  have h := pendingCallback_snd e s k
  simp only [forEachKeyLoop]
  cases hc : pendingCallback e s k with
  | mk s1 err =>
    rw [hc] at h
    simp only at h
    subst h
    rfl

theorem forEachKeyLoop_append (e : Env) (ks ks2 : List Symbol) (s : Scan) :
    forEachKeyLoop (pendingCallback e) (ks ++ ks2) s
      = forEachKeyLoop (pendingCallback e) ks2 (forEachKeyLoop (pendingCallback e) ks s).1 := by
  induction ks generalizing s with
  | nil => rfl
  | cons k rest ih =>
    rw [List.cons_append, forEachKeyLoop_cons, forEachKeyLoop_cons, ih]

/-- A property of the scan state kept by every run of the callback holds after the scan. -/
theorem scan_induct (e : Env) (I : Scan → Prop)
    (hstep : ∀ s k, I s → I (pendingCallback e s k).1) :
    ∀ (keys : List Symbol) (s : Scan), I s →
      I (forEachKeyLoop (pendingCallback e) keys s).1 := by
  intro keys
  induction keys with
  | nil => intro s hs; exact hs
  | cons k rest ih =>
    intro s hs
    rw [forEachKeyLoop_cons]
    exact ih _ (hstep s k hs)

/-- A store property kept by the bootstrap insertion and by every acceptance the callback
performs holds after a whole tick. -/
theorem tick_induct (e : Env) (I : Store → Prop)
    (hboot : ∀ (st : Store) (tx : Transaction), st.Size BucketAcceptPending = 0 → st.Size BucketAccepted = 0 →
      I st → I (st.Put (merge BucketAcceptPending (writeBytes tx.Id)) [0]))
    (hacc : ∀ (st : Store) (k : Symbol) (tx : Transaction), e.GetBySymbol k = .ok tx → parentsAccepted st tx.Parents = true →
      WasAccepted st k = false → I st → I (acceptTransaction e st k))
    (st : Store) (h : I st) : I (updatedAcceptedTransactions e st).store := by
  have hscan : ∀ st, I st → I (scanPending e st).store := by
    intro st hst
    unfold scanPending
    simp only
    apply scan_induct e (fun s => I s.store)
    · intro s k hs
      rcases pendingCallback_cases e s k with h | ⟨tx, _, _, htx, _, _, hpa, _, hwa, h⟩
      · rw [h]; exact hs
      · rw [h]; exact hacc s.store k tx htx hpa hwa hs
    · exact hst
  unfold updatedAcceptedTransactions
  split
  · rename_i hsz
    simp only [Bool.and_eq_true, beq_iff_eq] at hsz
    split
    · exact h
    · exact hscan _ (hboot st _ hsz.1 hsz.2 h)
  · exact hscan _ h

theorem WasAccepted_Put_pending (st : Store) (s x : Symbol) (v : Bytes) :
    WasAccepted (st.Put (merge BucketAcceptPending (writeBytes s)) v) x = WasAccepted st x := by
  apply WasAccepted_congr
  rw [Store.Get_Put]
  have hne : ¬ merge BucketAcceptPending (writeBytes s) = acceptedKey x :=
    fun hh => acceptedKey_ne_pendingKey x s hh.symm
  simp [hne]

theorem WasAccepted_of_Size_zero (st : Store) (x : Symbol) (h : st.Size BucketAccepted = 0) :
    WasAccepted st x = false :=
  WasAccepted_of_Get_none st x (Get_of_Size_zero st BucketAccepted x h)

/-! ## Facts about the sample ledger -/

theorem sampleEnv_ChildOf (p c : Symbol) :
    ChildOf sampleEnv p c ↔ (p = symA ∧ c = symB) ∨ (p = symB ∧ c = symC) := by
  unfold ChildOf
  simp only [sampleEnv]
  by_cases hA : p = symA
  · subst hA
    have : symA ≠ symB := by decide
    simp [this]
  · by_cases hB : p = symB
    · subst hB
      simp [hA]
    · simp [hA, hB]

theorem sampleEnv_ParentOf (c p : Symbol) :
    ParentOf sampleEnv c p ↔ (p = symA ∧ c = symB) ∨ (p = symB ∧ c = symC) := by
  unfold ParentOf
  simp only [sampleEnv]
  have hAB : symA ≠ symB := by decide
  have hBC : symB ≠ symC := by decide
  have hAC : symA ≠ symC := by decide
  by_cases hA : c = symA
  · subst hA
    simp [txA, hAB, hAC]
  · by_cases hB : c = symB
    · subst hB
      simp [hA, txB, hBC]
    · by_cases hC : c = symC
      · subst hC
        simp [hA, hB, txC]
      · simp [hA, hB, hC]

theorem sampleEnv_converse (p c : Symbol) : ChildOf sampleEnv p c ↔ ParentOf sampleEnv c p := by
  rw [sampleEnv_ChildOf, sampleEnv_ParentOf]

theorem sampleEnv_finite : FiniteGraph sampleEnv := by
  intro p cs h c hc
  have hch : ChildOf sampleEnv p c := ⟨cs, h, hc⟩
  rw [sampleEnv_ChildOf] at hch
  rcases hch with ⟨_, h2⟩ | ⟨_, h2⟩ <;> subst h2 <;> simp [sampleEnv]

theorem sampleStore_WasAccepted (s : Symbol) :
    WasAccepted sampleStore s = true ↔ s = symA := by
  have hne : ¬ pendingKey symB = merge BucketAccepted (writeBytes s) :=
    fun hh => acceptedKey_ne_pendingKey s symB hh.symm
  by_cases hs : s = symA
  · subst hs
    simp [WasAccepted, sampleStore, Store.Get, acceptedKey, readBoolean]
  · have hne2 : ¬ acceptedKey symA = merge BucketAccepted (writeBytes s) :=
      fun hh => hs (acceptedKey_inj hh).symm
    simp [WasAccepted, sampleStore, Store.Get, hne, hne2, hs, readBoolean]

theorem sampleStore_AncestorClosed : AncestorClosed sampleEnv sampleStore := by
  intro s p hs hp
  rw [sampleStore_WasAccepted] at hs
  subst hs
  rw [sampleEnv_ParentOf] at hp
  rcases hp with ⟨_, h⟩ | ⟨_, h⟩ <;> exact absurd h (by decide)

theorem sampleStore_InPending (s : Symbol) : InPending sampleStore s ↔ s = symB := by
  have hne : ¬ acceptedKey symA = pendingKey s := acceptedKey_ne_pendingKey symA s
  by_cases hs : s = symB
  · subst hs
    simp [InPending, sampleStore, Store.Get, hne]
  · have hne2 : ¬ pendingKey symB = pendingKey s := fun hh => hs (pendingKey_inj hh).symm
    simp [InPending, sampleStore, Store.Get, hne, hne2, hs]

theorem sampleStore_Exclusive : Exclusive sampleStore := by
  intro s hs
  rw [sampleStore_WasAccepted, sampleStore_InPending] at hs
  obtain ⟨h1, h2⟩ := hs
  subst h1
  exact absurd h2 (by decide)

/-! ## Invariants of the acceptance engine -/

theorem Exclusive_bootstrap (st : Store) (s : Symbol) (hacc : st.Size BucketAccepted = 0) :
    Exclusive (st.Put (merge BucketAcceptPending (writeBytes s)) [0]) := by
  intro x hx
  rw [WasAccepted_Put_pending, WasAccepted_of_Size_zero st x hacc] at hx
  exact absurd hx.1 (by simp)

theorem Exclusive_acceptTransaction (e : Env) (st : Store) (s : Symbol) (hex : Exclusive st) :
    Exclusive (acceptTransaction e st s) := by
  intro x hx
  obtain ⟨hwa, hp⟩ := hx
  unfold InPending at hp
  rw [acceptTransaction_Get_pending e st s x hwa] at hp
  rw [WasAccepted_acceptTransaction] at hwa
  by_cases hxs : x = s
  · simp [hxs] at hp
  · simp only [hxs, if_false] at hp hwa
    exact hex x ⟨hwa, hp⟩

theorem Exclusive_revert_step (st : Store) (popped : Symbol) (hex : Exclusive st) :
    Exclusive ((st.Delete (merge BucketAccepted (writeBytes popped))).Put
      (merge BucketAcceptPending (writeBytes popped)) [0]) := by
  intro x hx
  obtain ⟨hwa, hp⟩ := hx
  rw [WasAccepted_Put_pending] at hwa
  by_cases hxp : x = popped
  · subst hxp
    have hnone : (st.Delete (merge BucketAccepted (writeBytes x))).Get (acceptedKey x) = none := by
      rw [Store.Get_Delete]
      simp [acceptedKey]
    rw [WasAccepted_of_Get_none _ _ hnone] at hwa
    exact absurd hwa (by simp)
  · have hne : ¬ merge BucketAccepted (writeBytes popped) = acceptedKey x :=
      fun hh => hxp (acceptedKey_inj hh).symm
    have hne2 : ¬ merge BucketAcceptPending (writeBytes popped) = pendingKey x :=
      fun hh => hxp (pendingKey_inj hh).symm
    have hne3 : ¬ merge BucketAccepted (writeBytes popped) = pendingKey x :=
      fun hh => acceptedKey_ne_pendingKey popped x hh
    have h1 : WasAccepted st x = true := by
      refine Eq.trans (WasAccepted_congr _ _ _ ?_).symm hwa
      rw [Store.Get_Delete]
      simp [hne]
    apply hex x
    refine ⟨h1, ?_⟩
    unfold InPending at hp ⊢
    rw [Store.Get_Put, Store.Get_Delete] at hp
    simpa [hne2, hne3] using hp

theorem Exclusive_revertLoop (e : Env) :
    ∀ (fuel : Nat) (b : Bfs), Exclusive b.store → Exclusive (revertLoop e fuel b).store := by
  intro fuel
  induction fuel with
  | zero => intro b h; exact h
  | succ n ih =>
    intro b h
    obtain ⟨st, q, v⟩ := b
    cases q with
    | nil => exact h
    | cons popped rest =>
      simp only [revertLoop]
      cases hch : e.GetChildrenBySymbol popped with
      | error err => exact ih _ (Exclusive_revert_step st popped h)
      | ok children =>
        apply ih
        rw [revertChildren_store]
        exact Exclusive_revert_step st popped h

theorem AncestorClosed_acceptTransaction (e : Env) (st : Store) (k : Symbol) (tx : Transaction)
    (htx : e.GetBySymbol k = .ok tx) (hpa : parentsAccepted st tx.Parents = true)
    (hinv : AncestorClosed e st) : AncestorClosed e (acceptTransaction e st k) := by
  intro s p hs hp
  rw [WasAccepted_acceptTransaction] at hs ⊢
  have hst : WasAccepted st p = true := by
    by_cases hsk : s = k
    · subst hsk
      obtain ⟨tx2, htx2, hmem⟩ := hp
      rw [htx] at htx2
      cases htx2
      exact (parentsAccepted_iff st tx.Parents).mp hpa p hmem
    · simp only [hsk, if_false] at hs
      exact hinv s p hs hp
  split
  · rfl
  · exact hst

theorem AncestorClosed_revertTransaction (e : Env) (st : Store) (s : Symbol)
    (hfin : FiniteGraph e) (hconv : ∀ p c, ParentOf e c p → ChildOf e p c)
    (hinv : AncestorClosed e st) : AncestorClosed e (revertTransaction e st s) := by
  obtain ⟨P, _, hrev, hcl, hfr⟩ := revertTransaction_spec e hfin st s
  have hnot : ∀ y, WasAccepted (revertTransaction e st s) y = true → y ∉ P := by
    intro y hy hmem
    rw [WasAccepted_of_Get_none _ _ (hrev y hmem).1] at hy
    exact absurd hy (by simp)
  have hframe : ∀ y, y ∉ P →
      WasAccepted (revertTransaction e st s) y = WasAccepted st y := by
    intro y hy
    apply WasAccepted_congr
    apply hfr
    intro z hz
    exact ⟨fun hh => hy (acceptedKey_inj hh ▸ hz), acceptedKey_ne_pendingKey y z⟩
  intro x p hx hp
  have hxP := hnot x hx
  have hx2 : WasAccepted st x = true := (hframe x hxP).symm.trans hx
  have hp2 : WasAccepted st p = true := hinv x p hx2 hp
  have hpP : p ∉ P := fun hmem => hxP (hcl p hmem x (hconv p x hp))
  exact (hframe p hpP).trans hp2

/-- C1. Ancestor closure is an invariant of the acceptance engine: from a store in which
every accepted symbol has all its parents accepted, in a finite graph whose children
relation is the converse of its parents relation, the store after one acceptance tick and
the store after `revertTransaction` of any symbol again have every accepted symbol's
parents accepted. -/
theorem ancestor_closure_invariant (e : Env) (st : Store) (hfin : FiniteGraph e)
    (hconv : ∀ p c, ChildOf e p c ↔ ParentOf e c p) (hinv : AncestorClosed e st) :
    AncestorClosed e (updatedAcceptedTransactions e st).store ∧
    ∀ s, AncestorClosed e (revertTransaction e st s) := by
  refine ⟨?_, ?_⟩
  · refine tick_induct e (AncestorClosed e) ?_ ?_ st hinv
    · intro st2 tx _ _ h s p hs hp
      rw [WasAccepted_Put_pending] at hs ⊢
      exact h s p hs hp
    · intro st2 k tx htx hpa _ h
      exact AncestorClosed_acceptTransaction e st2 k tx htx hpa h
  · intro s
    exact AncestorClosed_revertTransaction e st s hfin (fun p c h => (hconv p c).mpr h) hinv

/-- C5. Revert reaches the transitive closure: in a finite graph, after
`revertTransaction(s)` the symbol `s` and every symbol reachable from `s` through the
children relation has no key in the accepted bucket and has a key in the pending bucket. -/
theorem revert_reaches_descendants (e : Env) (st : Store) (s x : Symbol)
    (hfin : FiniteGraph e) (hreach : Relation.ReflTransGen (ChildOf e) s x) :
    (revertTransaction e st s).Get (acceptedKey x) = none ∧
    WasAccepted (revertTransaction e st s) x = false ∧
    InPending (revertTransaction e st s) x := by
  obtain ⟨P, hs, hrev, hcl, _⟩ := revertTransaction_spec e hfin st s
  have hmem : x ∈ P := by
    induction hreach with
    | refl => exact hs
    | tail _ hstep ih => exact hcl _ ih _ hstep
  exact ⟨(hrev x hmem).1, WasAccepted_of_Get_none _ _ (hrev x hmem).1, (hrev x hmem).2⟩

/-- Witness of C5 on the sample ledger: reverting `symA` reverts its grandchild `symC`. -/
theorem revert_reaches_descendants_witness :
    FiniteGraph sampleEnv ∧ Relation.ReflTransGen (ChildOf sampleEnv) symA symC ∧
    (revertTransaction sampleEnv sampleStore symA).Get (acceptedKey symC) = none ∧
    WasAccepted (revertTransaction sampleEnv sampleStore symA) symC = false ∧
    InPending (revertTransaction sampleEnv sampleStore symA) symC :=
  have hreach : Relation.ReflTransGen (ChildOf sampleEnv) symA symC :=
    Relation.ReflTransGen.tail
      (Relation.ReflTransGen.single ((sampleEnv_ChildOf symA symB).mpr (Or.inl ⟨rfl, rfl⟩)))
      ((sampleEnv_ChildOf symB symC).mpr (Or.inr ⟨rfl, rfl⟩))
  ⟨sampleEnv_finite, hreach,
    revert_reaches_descendants sampleEnv sampleStore symA symC sampleEnv_finite hreach⟩

/-! ## Behaviour of the scan -/

theorem pendingCallback_accepts (e : Env) (s : Scan) (k : Symbol) (tx : Transaction)
    (set : ConflictSet) (h : Hll) (htx : e.GetBySymbol k = .ok tx)
    (hset : e.GetConflictSet tx.Sender tx.Nonce = .ok set)
    (hh : e.UnmarshalPb set.Transactions = .ok h)
    (hpa : parentsAccepted s.store tx.Parents = true)
    (hgate : set.Count > e.Beta2 ∨
      (e.Cardinality h = 1 ∧ e.CountAscendants k (e.Beta1 + 1) > e.Beta1))
    (hwa : WasAccepted s.store k = false) :
    pendingCallback e s k
      = (⟨acceptTransaction e s.store k, s.acceptedList ++ [k]⟩, none) := by
  have hg : (decide (set.Count > e.Beta2) ||
      (!(!(e.Cardinality h == 1)) &&
        decide (e.CountAscendants k (e.Beta1 + 1) > e.Beta1))) = true := by
    simpa using hgate
  simp only [pendingCallback, htx, hset, hh, hpa, hg, hwa, if_true, Bool.not_false]

theorem pendingCallback_blocked_by_parent (e : Env) (s : Scan) (k : Symbol) (tx : Transaction)
    (htx : e.GetBySymbol k = .ok tx) (hpa : parentsAccepted s.store tx.Parents = false) :
    pendingCallback e s k = (s, none) := by
  rcases pendingCallback_cases e s k with h | ⟨tx2, _, _, htx2, _, _, hpa2, _, _, _⟩
  · exact h
  · rw [htx] at htx2
    cases htx2
    rw [hpa] at hpa2
    exact absurd hpa2 (by simp)

theorem pendingCallback_blocked_by_confidence (e : Env) (s : Scan) (k : Symbol)
    (tx : Transaction) (set : ConflictSet) (h : Hll) (htx : e.GetBySymbol k = .ok tx)
    (hset : e.GetConflictSet tx.Sender tx.Nonce = .ok set)
    (hh : e.UnmarshalPb set.Transactions = .ok h)
    (hcard : e.Cardinality h ≠ 1) (hcount : set.Count ≤ e.Beta2) :
    pendingCallback e s k = (s, none) := by
  rcases pendingCallback_cases e s k with h1 | ⟨tx2, set2, h2, htx2, hset2, hh2, _, hg, _, _⟩
  · exact h1
  · rw [htx] at htx2
    cases htx2
    rw [hset] at hset2
    cases hset2
    rw [hh] at hh2
    cases hh2
    rcases hg with hg | hg
    · omega
    · exact absurd hg.1 hcard

theorem WasAccepted_acceptTransaction_mono (e : Env) (st : Store) (s x : Symbol)
    (h : WasAccepted st x = true) : WasAccepted (acceptTransaction e st s) x = true := by
  rw [WasAccepted_acceptTransaction]
  split
  · rfl
  · exact h

theorem WasAccepted_callback_mono (e : Env) (s : Scan) (k x : Symbol)
    (h : WasAccepted s.store x = true) :
    WasAccepted (pendingCallback e s k).1.store x = true := by
  rcases pendingCallback_cases e s k with h1 | ⟨_, _, _, _, _, _, _, _, _, h1⟩
  · rw [h1]; exact h
  · rw [h1]; exact WasAccepted_acceptTransaction_mono e _ _ _ h

/-- An acceptance tick never withdraws an acceptance. -/
theorem WasAccepted_tick_mono (e : Env) (st : Store) (x : Symbol)
    (h : WasAccepted st x = true) :
    WasAccepted (updatedAcceptedTransactions e st).store x = true := by
  refine tick_induct e (fun st2 => WasAccepted st2 x = true) ?_ ?_ st h
  · intro st2 tx _ _ h2
    rw [WasAccepted_Put_pending]
    exact h2
  · intro st2 k _ _ _ _ h2
    exact WasAccepted_acceptTransaction_mono e st2 k x h2

/-- What the scan accepts: every symbol of `acceptedList` passed the confidence gate, and a
symbol accepted after the scan was accepted before it or is in `acceptedList`. -/
theorem scan_accepted_sound (e : Env) (st0 : Store) (keys : List Symbol) (s : Scan)
    (h1 : ∀ k ∈ s.acceptedList, ConfidenceGate e k)
    (h2 : ∀ x, WasAccepted s.store x = true → WasAccepted st0 x = true ∨ x ∈ s.acceptedList) :
    (∀ k ∈ (forEachKeyLoop (pendingCallback e) keys s).1.acceptedList, ConfidenceGate e k) ∧
    (∀ x, WasAccepted (forEachKeyLoop (pendingCallback e) keys s).1.store x = true →
      WasAccepted st0 x = true ∨
        x ∈ (forEachKeyLoop (pendingCallback e) keys s).1.acceptedList) := by
  refine scan_induct e (fun s => (∀ k ∈ s.acceptedList, ConfidenceGate e k) ∧
      (∀ x, WasAccepted s.store x = true → WasAccepted st0 x = true ∨ x ∈ s.acceptedList))
    ?_ keys s ⟨h1, h2⟩
  intro s k hs
  rcases pendingCallback_cases e s k with h | ⟨tx, set, h, htx, hset, hh, _, hg, _, hcb⟩
  · rw [h]; exact hs
  · rw [hcb]
    refine ⟨?_, ?_⟩
    · intro y hy
      simp only [List.mem_append, List.mem_singleton] at hy
      rcases hy with hy | hy
      · exact hs.1 y hy
      · subst hy
        exact ⟨tx, set, h, htx, hset, hh, hg⟩
    · intro x hx
      simp only at hx
      rw [WasAccepted_acceptTransaction] at hx
      by_cases hxk : x = k
      · right
        simp [hxk]
      · simp only [hxk, if_false] at hx
        rcases hs.2 x hx with h3 | h3
        · exact Or.inl h3
        · right
          simp [h3]

theorem scanPending_accepted_sound (e : Env) (st : Store) :
    (∀ k ∈ (scanPending e st).acceptedList, ConfidenceGate e k) ∧
    (∀ x, WasAccepted (scanPending e st).store x = true →
      WasAccepted st x = true ∨ x ∈ (scanPending e st).acceptedList) := by
  have h := scan_accepted_sound e st (st.bucketKeys BucketAcceptPending) ⟨st, []⟩
    (by simp) (fun x hx => Or.inl hx)
  exact h

theorem tick_accepted_sound (e : Env) (st : Store) :
    (∀ k ∈ (updatedAcceptedTransactions e st).acceptedList, ConfidenceGate e k) ∧
    (∀ x, WasAccepted (updatedAcceptedTransactions e st).store x = true →
      WasAccepted st x = true ∨ x ∈ (updatedAcceptedTransactions e st).acceptedList) := by
  unfold updatedAcceptedTransactions
  split
  · split
    · exact ⟨by simp, fun x hx => Or.inl hx⟩
    · rename_i tx _
      have h := scanPending_accepted_sound e
        (st.Put (merge BucketAcceptPending (writeBytes tx.Id)) [0])
      refine ⟨h.1, ?_⟩
      intro x hx
      rcases h.2 x hx with h3 | h3
      · rw [WasAccepted_Put_pending] at h3
        exact Or.inl h3
      · exact Or.inr h3
  · exact scanPending_accepted_sound e st

/-! ## The safety hook -/

theorem ensureAccepted_ok (e : Env) (st : Store) (c : ConflictSet) (h : Hll)
    (hh : e.UnmarshalPb c.Transactions = .ok h) :
    ensureAccepted e st c =
      (if e.Cardinality h ≠ 1 ∧ WasAccepted st c.Preferred = true ∧ c.Count ≤ e.Beta2 then
        revertTransaction e st c.Preferred else st, none) := by
  simp only [ensureAccepted, hh]
  by_cases hcond : e.Cardinality h ≠ 1 ∧ WasAccepted st c.Preferred = true ∧ c.Count ≤ e.Beta2
  · have hb : (!(e.Cardinality h == 1) && WasAccepted st c.Preferred &&
        decide (c.Count ≤ e.Beta2)) = true := by
      simpa [Bool.and_assoc] using hcond
    rw [if_pos hcond, if_pos hb]
  · have hb : ¬ (!(e.Cardinality h == 1) && WasAccepted st c.Preferred &&
        decide (c.Count ≤ e.Beta2)) = true := by
      simpa [Bool.and_assoc] using hcond
    rw [if_neg hcond, if_neg hb]

theorem ensureAccepted_error (e : Env) (st : Store) (c : ConflictSet) (err : Error)
    (hh : e.UnmarshalPb c.Transactions = .error err) :
    ensureAccepted e st c = (st, some err) := by
  simp only [ensureAccepted, hh]

/-- C3. After the safety hook returns without error, the conflict set it read for
`(tx.Sender, tx.Nonce)` decodes and satisfies the safety invariant: when its sketch has
cardinality above 1 and its count is at most `Beta2`, its preferred symbol is not
accepted in the store the hook leaves. -/
theorem safety_hook_establishes_invariant (e : Env) (st st2 : Store) (index : Nat)
    (tx : Transaction) (hret : ensureSafeCommittable e st index tx = (st2, none)) :
    ∃ c h, e.GetConflictSet tx.Sender tx.Nonce = .ok c ∧
      e.UnmarshalPb c.Transactions = .ok h ∧
      (e.Cardinality h > 1 → c.Count ≤ e.Beta2 → WasAccepted st2 c.Preferred = false) := by
  unfold ensureSafeCommittable at hret
  cases hset : e.GetConflictSet tx.Sender tx.Nonce with
  | error err =>
    rw [hset] at hret
    simp at hret
  | ok c =>
    rw [hset] at hret
    simp only at hret
    cases hh : e.UnmarshalPb c.Transactions with
    | error err =>
      rw [ensureAccepted_error e st c err hh] at hret
      simp at hret
    | ok h =>
      refine ⟨c, h, rfl, hh, ?_⟩
      intro hcard hcount
      rw [ensureAccepted_ok e st c h hh] at hret
      have hst : st2 = if e.Cardinality h ≠ 1 ∧ WasAccepted st c.Preferred = true ∧
          c.Count ≤ e.Beta2 then revertTransaction e st c.Preferred else st :=
        (congrArg Prod.fst hret).symm
      by_cases hwa : WasAccepted st c.Preferred = true
      · have hcond : e.Cardinality h ≠ 1 ∧ WasAccepted st c.Preferred = true ∧
            c.Count ≤ e.Beta2 := ⟨by omega, hwa, hcount⟩
        rw [if_pos hcond] at hst
        rw [hst]
        exact WasAccepted_of_Get_none _ _ (revertTransaction_Reverted_self e st c.Preferred).1
      · have hcond : ¬ (e.Cardinality h ≠ 1 ∧ WasAccepted st c.Preferred = true ∧
            c.Count ≤ e.Beta2) := fun hc => hwa hc.2.1
        rw [if_neg hcond] at hst
        rw [hst]
        simpa using hwa

/-- C4, as amended. For every conflict set that decodes, `ensureAccepted` returns no error
and leaves the store of `revertTransaction(set.Preferred)` exactly when the cardinality of
the sketch differs from 1, the preferred symbol was accepted and the count is at most
`Beta2`; in every other case the store is unchanged. -/
theorem ensureAccepted_reverts_iff_conflicting (e : Env) (st : Store) (c : ConflictSet)
    (h : Hll) (hh : e.UnmarshalPb c.Transactions = .ok h) :
    ensureAccepted e st c =
      (if e.Cardinality h ≠ 1 ∧ WasAccepted st c.Preferred = true ∧ c.Count ≤ e.Beta2 then
        revertTransaction e st c.Preferred else st, none) :=
  ensureAccepted_ok e st c h hh

/-- Witness of C3: in `conflictEnv` the conflict set of `symA` has cardinality 2 and count 2,
`symA` is accepted in `sampleStore`, and the hook returns without error. -/
theorem safety_hook_establishes_invariant_witness :
    ensureSafeCommittable conflictEnv sampleStore 3 txA
      = (revertTransaction conflictEnv sampleStore symA, none) ∧
    ∃ c h, conflictEnv.GetConflictSet txA.Sender txA.Nonce = .ok c ∧
      conflictEnv.UnmarshalPb c.Transactions = .ok h ∧
      (conflictEnv.Cardinality h > 1 → c.Count ≤ conflictEnv.Beta2 →
        WasAccepted (revertTransaction conflictEnv sampleStore symA) c.Preferred = false) :=
  ⟨by decide,
    safety_hook_establishes_invariant conflictEnv sampleStore
      (revertTransaction conflictEnv sampleStore symA) 3 txA (by decide)⟩

/-- C4, counterexample to the claim as stated: a conflict set whose sketch has cardinality 0
(so not above 1), whose preferred symbol `symA` is accepted and whose count is at most
`Beta2`; `ensureAccepted` reverts `symA` although the claim says the buckets stay
unchanged. -/
theorem ensureAccepted_cardinality_zero_reverts :
    sampleEnv.UnmarshalPb (ConflictSet.mk symA 0 []).Transactions = .ok ⟨[]⟩ ∧
    sampleEnv.Cardinality ⟨[]⟩ = 0 ∧
    WasAccepted sampleStore symA = true ∧
    (ensureAccepted sampleEnv sampleStore ⟨symA, 0, []⟩).1
      = revertTransaction sampleEnv sampleStore symA ∧
    (ensureAccepted sampleEnv sampleStore ⟨symA, 0, []⟩).1 ≠ sampleStore ∧
    WasAccepted (ensureAccepted sampleEnv sampleStore ⟨symA, 0, []⟩).1 symA = false :=
  ⟨rfl, rfl, by decide, by decide, by decide, by decide⟩

/-- Witness of C4 as amended, on the conflict set with an empty sketch. -/
theorem ensureAccepted_reverts_iff_conflicting_witness :
    sampleEnv.UnmarshalPb (ConflictSet.mk symA 0 []).Transactions = .ok ⟨[]⟩ ∧
    ensureAccepted sampleEnv sampleStore ⟨symA, 0, []⟩ =
      (if sampleEnv.Cardinality ⟨[]⟩ ≠ 1 ∧ WasAccepted sampleStore symA = true ∧
          (ConflictSet.mk symA 0 []).Count ≤ sampleEnv.Beta2 then
        revertTransaction sampleEnv sampleStore symA else sampleStore, none) :=
  ⟨rfl, ensureAccepted_reverts_iff_conflicting sampleEnv sampleStore ⟨symA, 0, []⟩ ⟨[]⟩ rfl⟩

/-! ## The gates of the acceptance tick -/

/-- C6. Ancestor gate: when the scan reaches a pending symbol `k` (after the keys `before`)
and some parent of its transaction is not accepted at that moment, the evaluation of `k`
leaves the store and `acceptedList` as they are, so `k` is not accepted by it and stays
pending, and the scan goes on with the remaining keys; a transaction without parents
passes the gate. -/
theorem ancestor_gate_blocks (e : Env) (s0 : Scan) (before after : List Symbol)
    (k p : Symbol) (tx : Transaction) (htx : e.GetBySymbol k = .ok tx) (hp : p ∈ tx.Parents)
    (hna : WasAccepted (forEachKeyLoop (pendingCallback e) before s0).1.store p = false) :
    pendingCallback e (forEachKeyLoop (pendingCallback e) before s0).1 k
      = ((forEachKeyLoop (pendingCallback e) before s0).1, none) ∧
    forEachKeyLoop (pendingCallback e) (before ++ k :: after) s0
      = forEachKeyLoop (pendingCallback e) after (forEachKeyLoop (pendingCallback e) before s0).1 ∧
    (InPending (forEachKeyLoop (pendingCallback e) before s0).1.store k →
      InPending (pendingCallback e (forEachKeyLoop (pendingCallback e) before s0).1 k).1.store k) ∧
    (∀ st, parentsAccepted st [] = true) := by
  have hpa : parentsAccepted (forEachKeyLoop (pendingCallback e) before s0).1.store tx.Parents
      = false := by
    rw [← Bool.not_eq_true, parentsAccepted_iff]
    intro hall
    rw [hall p hp] at hna
    exact absurd hna (by simp)
  have hcb := pendingCallback_blocked_by_parent e _ k tx htx hpa
  refine ⟨hcb, ?_, ?_, fun _ => rfl⟩
  · rw [forEachKeyLoop_append, forEachKeyLoop_cons, hcb]
  · intro h
    rw [hcb]
    exact h

/-- Witness of C6: `symB` and `symA` are pending, `symB` is evaluated first and its parent
`symA` is not accepted. -/
theorem ancestor_gate_blocks_witness :
    sampleEnv.GetBySymbol symB = .ok txB ∧ symA ∈ txB.Parents ∧
    WasAccepted (forEachKeyLoop (pendingCallback sampleEnv) [] ⟨pendingStore, []⟩).1.store symA
      = false ∧
    pendingCallback sampleEnv ⟨pendingStore, []⟩ symB = (⟨pendingStore, []⟩, none) :=
  ⟨rfl, by decide, by decide,
    (ancestor_gate_blocks sampleEnv ⟨pendingStore, []⟩ [] [symA] symB symA txB rfl
      (by decide) (by decide)).1⟩

/-- C7. Confidence gate is necessary: every symbol an acceptance tick newly accepts (it is
in `acceptedList`, or it was not accepted before the tick and is accepted after it) passed
the strong path or the fast path; a symbol whose conflict set has a cardinality other
than 1 and a count of at most `Beta2` is not accepted by the tick. -/
theorem confidence_gate_necessary (e : Env) (st : Store) :
    (∀ k, k ∈ (updatedAcceptedTransactions e st).acceptedList → ConfidenceGate e k) ∧
    (∀ k, WasAccepted st k = false →
      WasAccepted (updatedAcceptedTransactions e st).store k = true → ConfidenceGate e k) ∧
    (∀ k tx set h, e.GetBySymbol k = .ok tx →
      e.GetConflictSet tx.Sender tx.Nonce = .ok set →
      e.UnmarshalPb set.Transactions = .ok h →
      e.Cardinality h ≠ 1 → set.Count ≤ e.Beta2 →
      k ∉ (updatedAcceptedTransactions e st).acceptedList ∧
      (WasAccepted st k = false →
        WasAccepted (updatedAcceptedTransactions e st).store k = false)) := by
  obtain ⟨h1, h2⟩ := tick_accepted_sound e st
  have hnew : ∀ k, WasAccepted st k = false →
      WasAccepted (updatedAcceptedTransactions e st).store k = true →
      k ∈ (updatedAcceptedTransactions e st).acceptedList := by
    intro k hb ha
    rcases h2 k ha with h3 | h3
    · rw [hb] at h3
      exact absurd h3 (by simp)
    · exact h3
  have hblock : ∀ k tx set h, e.GetBySymbol k = .ok tx →
      e.GetConflictSet tx.Sender tx.Nonce = .ok set →
      e.UnmarshalPb set.Transactions = .ok h →
      e.Cardinality h ≠ 1 → set.Count ≤ e.Beta2 → ¬ ConfidenceGate e k := by
    intro k tx set h htx hset hh hcard hcount hg
    obtain ⟨tx2, set2, h2, htx2, hset2, hh2, hgate⟩ := hg
    rw [htx] at htx2
    cases htx2
    rw [hset] at hset2
    cases hset2
    rw [hh] at hh2
    cases hh2
    rcases hgate with hgate | hgate
    · omega
    · exact hcard hgate.1
  refine ⟨h1, fun k hb ha => h1 k (hnew k hb ha), ?_⟩
  intro k tx set h htx hset hh hcard hcount
  have hng := hblock k tx set h htx hset hh hcard hcount
  refine ⟨fun hmem => hng (h1 k hmem), ?_⟩
  intro hb
  rw [← Bool.not_eq_true]
  intro ha
  exact hng (h1 k (hnew k hb ha))

/-- Witness of C7: from the empty store the tick accepts `symA` in the sample ledger (fast
path), and does not accept it in `conflictEnv`, where its conflict set has cardinality 2
and count 2. -/
theorem confidence_gate_necessary_witness :
    symA ∈ (updatedAcceptedTransactions sampleEnv []).acceptedList ∧
    ConfidenceGate sampleEnv symA ∧
    symA ∉ (updatedAcceptedTransactions conflictEnv []).acceptedList ∧
    WasAccepted (updatedAcceptedTransactions conflictEnv []).store symA = false :=
  ⟨by decide,
    (confidence_gate_necessary sampleEnv []).1 symA (by decide),
    ((confidence_gate_necessary conflictEnv []).2.2 symA txA ⟨symA, 2, [7, 8]⟩ ⟨[7, 8]⟩
      rfl rfl rfl (by decide) (by decide)).1,
    ((confidence_gate_necessary conflictEnv []).2.2 symA txA ⟨symA, 2, [7, 8]⟩ ⟨[7, 8]⟩
      rfl rfl rfl (by decide) (by decide)).2 (by decide)⟩

theorem Size_ne_zero_of_InPending (st : Store) (k : Symbol) (h : InPending st k) :
    st.Size BucketAcceptPending ≠ 0 := by
  intro h0
  exact h (Get_of_Size_zero st BucketAcceptPending k h0)

theorem mem_bucketKeys_of_InPending (st : Store) (k : Symbol) (h : InPending st k) :
    k ∈ st.bucketKeys BucketAcceptPending :=
  mem_bucketKeys st BucketAcceptPending k h

theorem updatedAcceptedTransactions_of_pending (e : Env) (st : Store)
    (h : st.Size BucketAcceptPending ≠ 0) :
    updatedAcceptedTransactions e st = scanPending e st := by
  unfold updatedAcceptedTransactions
  have hb : (st.Size BucketAcceptPending == 0 && st.Size BucketAccepted == 0) = false := by
    simp [h]
  simp [hb]

theorem accepted_not_pending_after_accept (e : Env) (st : Store) (k2 k : Symbol)
    (h : WasAccepted st k = true ∧ ¬ InPending st k) :
    WasAccepted (acceptTransaction e st k2) k = true ∧
      ¬ InPending (acceptTransaction e st k2) k := by
  have hwa := WasAccepted_acceptTransaction_mono e st k2 k h.1
  refine ⟨hwa, ?_⟩
  unfold InPending at h ⊢
  rw [acceptTransaction_Get_pending e st k2 k hwa]
  split
  · simp
  · exact h.2

theorem accepted_not_pending_self (e : Env) (st : Store) (k : Symbol) :
    WasAccepted (acceptTransaction e st k) k = true ∧
      ¬ InPending (acceptTransaction e st k) k := by
  have hwa : WasAccepted (acceptTransaction e st k) k = true := by
    rw [WasAccepted_acceptTransaction]
    simp
  refine ⟨hwa, ?_⟩
  unfold InPending
  rw [acceptTransaction_Get_pending e st k k hwa]
  simp

/-- A key of the scan whose lookups succeed, whose parents are accepted and which passes the
confidence gate is accepted and not pending once the scan is over. -/
theorem scan_accepts (e : Env) (k : Symbol) (tx : Transaction) (set : ConflictSet) (h : Hll)
    (htx : e.GetBySymbol k = .ok tx) (hset : e.GetConflictSet tx.Sender tx.Nonce = .ok set)
    (hh : e.UnmarshalPb set.Transactions = .ok h)
    (hgate : set.Count > e.Beta2 ∨
      (e.Cardinality h = 1 ∧ e.CountAscendants k (e.Beta1 + 1) > e.Beta1)) :
    ∀ (keys : List Symbol) (s : Scan),
      (∀ p ∈ tx.Parents, WasAccepted s.store p = true) →
      ((WasAccepted s.store k = true ∧ ¬ InPending s.store k) ∨
        (WasAccepted s.store k = false ∧ k ∈ keys)) →
      WasAccepted (forEachKeyLoop (pendingCallback e) keys s).1.store k = true ∧
        ¬ InPending (forEachKeyLoop (pendingCallback e) keys s).1.store k := by
  intro keys
  induction keys with
  | nil =>
    intro s _ hk
    rcases hk with hk | hk
    · exact hk
    · simp at hk
  | cons k2 rest ih =>
    intro s hpar hk
    rw [forEachKeyLoop_cons]
    apply ih
    · intro p hp
      exact WasAccepted_callback_mono e s k2 p (hpar p hp)
    · rcases hk with hk | hk
      · left
        rcases pendingCallback_cases e s k2 with h1 | ⟨_, _, _, _, _, _, _, _, _, h1⟩
        · rw [h1]; exact hk
        · rw [h1]; exact accepted_not_pending_after_accept e s.store k2 k hk
      · by_cases hk2 : k2 = k
        · left
          subst hk2
          rw [pendingCallback_accepts e s k2 tx set h htx hset hh
            ((parentsAccepted_iff _ _).mpr hpar) hgate hk.1]
          exact accepted_not_pending_self e s.store k2
        · right
          have hmem : k ∈ rest := by
            rcases List.mem_cons.mp hk.2 with h2 | h2
            · exact absurd h2.symm hk2
            · exact h2
          refine ⟨?_, hmem⟩
          rcases pendingCallback_cases e s k2 with h1 | ⟨_, _, _, _, _, _, _, _, _, h1⟩
          · rw [h1]; exact hk.1
          · rw [h1]
            simp only
            rw [WasAccepted_acceptTransaction]
            have hne : ¬ k = k2 := fun hh2 => hk2 hh2.symm
            simp only [hne, if_false]
            exact hk.1

/-- C8. Strong path is sufficient under conflict: a pending, not yet accepted symbol whose
transaction, conflict set and sketch lookups succeed, whose parents are all accepted and
whose conflict set has a count above `Beta2` is accepted by the acceptance tick, whatever
the cardinality of its sketch and whatever `CountAscendants` returns: afterwards
`WasAccepted` is true and the symbol is not pending. -/
theorem strong_path_accepts (e : Env) (st : Store) (k : Symbol) (tx : Transaction)
    (set : ConflictSet) (h : Hll) (hpend : InPending st k)
    (htx : e.GetBySymbol k = .ok tx) (hset : e.GetConflictSet tx.Sender tx.Nonce = .ok set)
    (hh : e.UnmarshalPb set.Transactions = .ok h)
    (hpar : ∀ p ∈ tx.Parents, WasAccepted st p = true)
    (hna : WasAccepted st k = false) (hcount : set.Count > e.Beta2) :
    WasAccepted (updatedAcceptedTransactions e st).store k = true ∧
      ¬ InPending (updatedAcceptedTransactions e st).store k := by
  rw [updatedAcceptedTransactions_of_pending e st (Size_ne_zero_of_InPending st k hpend)]
  exact scan_accepts e k tx set h htx hset hh (Or.inl hcount)
    (st.bucketKeys BucketAcceptPending) ⟨st, []⟩ hpar
    (Or.inr ⟨hna, mem_bucketKeys_of_InPending st k hpend⟩)

/-- Witness of C8: in `strongEnv` the conflict set of the pending `symB` has cardinality 2
and count `Beta2 + 1`, and its parent `symA` is accepted. -/
theorem strong_path_accepts_witness :
    InPending sampleStore symB ∧
    strongEnv.Cardinality ⟨[7, 8]⟩ = 2 ∧ (11 : Nat) = strongEnv.Beta2 + 1 ∧
    strongEnv.CountAscendants symB (strongEnv.Beta1 + 1) ≤ strongEnv.Beta1 ∧
    WasAccepted (updatedAcceptedTransactions strongEnv sampleStore).store symB = true ∧
    ¬ InPending (updatedAcceptedTransactions strongEnv sampleStore).store symB :=
  ⟨(sampleStore_InPending symB).mpr rfl, rfl, rfl, by decide,
    strong_path_accepts strongEnv sampleStore symB txB ⟨symB, 11, [7, 8]⟩ ⟨[7, 8]⟩
      ((sampleStore_InPending symB).mpr rfl) rfl rfl rfl (by decide) (by decide) (by decide)⟩

/-! ## Bootstrap -/

/-- C9. Bootstrap step: when both buckets are empty and the transaction at graph index 0 is
read, the tick is the scan of the store into which the id of that transaction has been put
as a pending key, and that scan visits exactly this id; when reading index 0 fails the tick
returns with the store unchanged; when a bucket is not empty the tick is the scan of the
store as it is, without insertion. -/
theorem bootstrap_step (e : Env) (st : Store) :
    (∀ tx, st.Size BucketAcceptPending = 0 → st.Size BucketAccepted = 0 →
      e.GetByIndex 0 = .ok tx →
      updatedAcceptedTransactions e st
        = scanPending e (st.Put (merge BucketAcceptPending (writeBytes tx.Id)) [0]) ∧
      InPending (st.Put (merge BucketAcceptPending (writeBytes tx.Id)) [0]) tx.Id ∧
      (st.Put (merge BucketAcceptPending (writeBytes tx.Id)) [0]).bucketKeys
        BucketAcceptPending = [tx.Id]) ∧
    (∀ err, st.Size BucketAcceptPending = 0 → st.Size BucketAccepted = 0 →
      e.GetByIndex 0 = .error err →
      updatedAcceptedTransactions e st = ⟨st, [], some []⟩) ∧
    ((st.Size BucketAcceptPending ≠ 0 ∨ st.Size BucketAccepted ≠ 0) →
      updatedAcceptedTransactions e st = scanPending e st) := by
  refine ⟨?_, ?_, ?_⟩
  · intro tx hp ha hidx
    refine ⟨?_, ?_, ?_⟩
    · simp [updatedAcceptedTransactions, hp, ha, hidx]
    · unfold InPending
      rw [Store.Get_Put]
      simp [pendingKey]
    · exact bucketKeys_Put_of_Size_zero st BucketAcceptPending tx.Id [0] hp
  · intro err hp ha hidx
    simp [updatedAcceptedTransactions, hp, ha, hidx]
  · intro hne
    unfold updatedAcceptedTransactions
    have hb : (st.Size BucketAcceptPending == 0 && st.Size BucketAccepted == 0) = false := by
      rcases hne with h | h <;> simp [h]
    simp [hb]

/-- Witness of C9: the empty store bootstraps with the genesis `symA` of the sample ledger,
and the store with `symA` accepted does not bootstrap. -/
theorem bootstrap_step_witness :
    Store.Size [] BucketAcceptPending = 0 ∧ Store.Size [] BucketAccepted = 0 ∧
    sampleEnv.GetByIndex 0 = .ok txA ∧
    updatedAcceptedTransactions sampleEnv []
      = scanPending sampleEnv (Store.Put [] (merge BucketAcceptPending (writeBytes txA.Id)) [0]) ∧
    updatedAcceptedTransactions sampleEnv sampleStore = scanPending sampleEnv sampleStore :=
  ⟨rfl, rfl, rfl, ((bootstrap_step sampleEnv []).1 txA rfl rfl rfl).1,
    (bootstrap_step sampleEnv sampleStore).2.2 (Or.inl (by decide))⟩

/-- C10, counterexample to the claim as stated: in the sample ledger the genesis `symA` has
`CountAscendants(symA, Beta1 + 1) > Beta1` and a conflict set of cardinality 1, and after
one tick from the empty store `symA` is accepted and no longer pending, where the claim has
it pending and not yet accepted. -/
theorem bootstrap_first_tick_accepts_genesis :
    sampleEnv.GetByIndex 0 = .ok txA ∧ txA.Id = symA ∧
    sampleEnv.GetConflictSet txA.Sender txA.Nonce = .ok ⟨symA, 0, [7]⟩ ∧
    sampleEnv.UnmarshalPb [7] = .ok ⟨[7]⟩ ∧ sampleEnv.Cardinality ⟨[7]⟩ = 1 ∧
    sampleEnv.CountAscendants symA (sampleEnv.Beta1 + 1) > sampleEnv.Beta1 ∧
    WasAccepted (updatedAcceptedTransactions sampleEnv []).store symA = true ∧
    ¬ InPending (updatedAcceptedTransactions sampleEnv []).store symA :=
  ⟨rfl, rfl, rfl, rfl, rfl, by decide, by decide, by decide⟩

/-- C10, as amended. Bootstrap scenario: from a store with both buckets empty, in a graph
whose index-0 transaction has symbol `g`, where the transaction of `g` is found and has no
parents, `CountAscendants(g, Beta1 + 1) > Beta1` and the conflict set of `g` has
cardinality 1, the first acceptance tick already accepts `g` (it is accepted and no longer
pending after one tick), and `g` is still accepted after a second tick. -/
theorem bootstrap_scenario (e : Env) (st : Store) (g : Symbol) (tx0 tx : Transaction)
    (set : ConflictSet) (h : Hll)
    (hp : st.Size BucketAcceptPending = 0) (ha : st.Size BucketAccepted = 0)
    (hidx : e.GetByIndex 0 = .ok tx0) (hid : tx0.Id = g)
    (htx : e.GetBySymbol g = .ok tx) (hpar : tx.Parents = [])
    (hset : e.GetConflictSet tx.Sender tx.Nonce = .ok set)
    (hh : e.UnmarshalPb set.Transactions = .ok h) (hcard : e.Cardinality h = 1)
    (hasc : e.CountAscendants g (e.Beta1 + 1) > e.Beta1) :
    WasAccepted (updatedAcceptedTransactions e st).store g = true ∧
    ¬ InPending (updatedAcceptedTransactions e st).store g ∧
    WasAccepted
      (updatedAcceptedTransactions e (updatedAcceptedTransactions e st).store).store g
        = true := by
  have htick : updatedAcceptedTransactions e st
      = scanPending e (st.Put (merge BucketAcceptPending (writeBytes tx0.Id)) [0]) := by
    simp [updatedAcceptedTransactions, hp, ha, hidx]
  have hpend : InPending (st.Put (merge BucketAcceptPending (writeBytes tx0.Id)) [0]) g := by
    unfold InPending
    rw [Store.Get_Put]
    simp [pendingKey, hid]
  have hna : WasAccepted (st.Put (merge BucketAcceptPending (writeBytes tx0.Id)) [0]) g
      = false := by
    rw [WasAccepted_Put_pending]
    exact WasAccepted_of_Size_zero st g ha
  have hfirst := scan_accepts e g tx set h htx hset hh (Or.inr ⟨hcard, hasc⟩)
    ((st.Put (merge BucketAcceptPending (writeBytes tx0.Id)) [0]).bucketKeys
      BucketAcceptPending)
    ⟨st.Put (merge BucketAcceptPending (writeBytes tx0.Id)) [0], []⟩
    (by rw [hpar]; simp)
    (Or.inr ⟨hna, mem_bucketKeys_of_InPending _ g hpend⟩)
  have hfirst2 : WasAccepted (updatedAcceptedTransactions e st).store g = true ∧
      ¬ InPending (updatedAcceptedTransactions e st).store g := by
    rw [htick]
    exact hfirst
  exact ⟨hfirst2.1, hfirst2.2, WasAccepted_tick_mono e _ g hfirst2.1⟩

/-- Witness of C10 as amended: the sample ledger from the empty store. -/
theorem bootstrap_scenario_witness :
    Store.Size [] BucketAcceptPending = 0 ∧ Store.Size [] BucketAccepted = 0 ∧
    sampleEnv.GetByIndex 0 = .ok txA ∧ sampleEnv.Cardinality ⟨[7]⟩ = 1 ∧
    sampleEnv.CountAscendants symA (sampleEnv.Beta1 + 1) > sampleEnv.Beta1 ∧
    WasAccepted (updatedAcceptedTransactions sampleEnv []).store symA = true ∧
    ¬ InPending (updatedAcceptedTransactions sampleEnv []).store symA ∧
    WasAccepted (updatedAcceptedTransactions sampleEnv
      (updatedAcceptedTransactions sampleEnv []).store).store symA = true :=
  ⟨rfl, rfl, rfl, rfl, by decide,
    bootstrap_scenario sampleEnv [] symA txA txA ⟨symA, 0, [7]⟩ ⟨[7]⟩ rfl rfl rfl rfl rfl rfl
      rfl rfl rfl (by decide)⟩

/-! ## Adequacy of the traversal fuel

In a finite graph the `e.symbols.length + 1` pops granted to a traversal are enough: both
loops stop because their queue is empty. -/

theorem acceptChildren_measure (e : Env) (cs : List Symbol) (b : Bfs)
    (hcs : ∀ c ∈ cs, c ∈ e.symbols) :
    (acceptChildren cs b).queue.length + unvisited e (acceptChildren cs b).visited
      ≤ b.queue.length + unvisited e b.visited := by
  induction cs generalizing b with
  | nil => exact le_refl _
  | cons c rest ih =>
    have hrest : ∀ c ∈ rest, c ∈ e.symbols := fun x hx => hcs x (List.mem_cons_of_mem _ hx)
    simp only [acceptChildren]
    split
    · exact ih b hrest
    · rename_i hc
      have h1 := ih ⟨if (!WasAccepted b.store c) = true then
          b.store.Put (merge BucketAcceptPending (writeBytes c)) [0] else b.store,
        b.queue ++ [c], c :: b.visited⟩ hrest
      have h2 := unvisited_cons e b.visited c (hcs c (List.mem_cons_self _ _)) hc
      simp only [List.length_append, List.length_singleton] at h1
      omega

theorem revertLoop_queue_empty (e : Env) (hfin : FiniteGraph e) :
    ∀ (fuel : Nat) (b : Bfs), b.queue.length + unvisited e b.visited ≤ fuel →
      (revertLoop e fuel b).queue = [] := by
  intro fuel
  induction fuel with
  | zero =>
    intro b hb
    exact List.length_eq_zero.mp (by simp only [revertLoop]; omega)
  | succ n ih =>
    intro b hb
    obtain ⟨st, q, v⟩ := b
    cases q with
    | nil => rfl
    | cons popped rest =>
      simp only [List.length_cons] at hb
      simp only [revertLoop]
      cases hch : e.GetChildrenBySymbol popped with
      | error err => exact ih _ (by simp only; omega)
      | ok children =>
        have hmeas := revertChildren_measure e children
          ⟨(st.Delete (merge BucketAccepted (writeBytes popped))).Put
            (merge BucketAcceptPending (writeBytes popped)) [0], rest, v⟩
          (hfin popped children hch)
        exact ih _ (by simp only at hmeas ⊢; omega)

theorem acceptLoop_queue_empty (e : Env) (hfin : FiniteGraph e) :
    ∀ (fuel : Nat) (b : Bfs), b.queue.length + unvisited e b.visited ≤ fuel →
      (acceptLoop e fuel b).queue = [] := by
  intro fuel
  induction fuel with
  | zero =>
    intro b hb
    exact List.length_eq_zero.mp (by simp only [acceptLoop]; omega)
  | succ n ih =>
    intro b hb
    obtain ⟨st, q, v⟩ := b
    cases q with
    | nil => rfl
    | cons popped rest =>
      simp only [List.length_cons] at hb
      simp only [acceptLoop]
      cases hch : e.GetChildrenBySymbol popped with
      | error err => exact ih _ (by simp only; omega)
      | ok children =>
        have hmeas := acceptChildren_measure e children ⟨st, rest, v⟩
          (hfin popped children hch)
        exact ih _ (by simp only at hmeas ⊢; omega)

theorem revertTransaction_fuel_suffices (e : Env) (hfin : FiniteGraph e) (st : Store)
    (s : Symbol) : (revertLoop e (e.symbols.length + 1) ⟨st, [s], []⟩).queue = [] := by
  apply revertLoop_queue_empty e hfin
  have := unvisited_nil_le e
  simp only [List.length_singleton]
  omega

theorem acceptTransaction_fuel_suffices (e : Env) (hfin : FiniteGraph e) (st : Store)
    (s : Symbol) : (acceptLoop e (e.symbols.length + 1) ⟨st, [s], []⟩).queue = [] := by
  apply acceptLoop_queue_empty e hfin
  have := unvisited_nil_le e
  simp only [List.length_singleton]
  omega

/-! ## Membership by key and by value

The accepted bucket only ever receives the true byte, so on the stores the engine produces
"has a key in the accepted bucket" and `WasAccepted` agree. -/

theorem WasAccepted_iff_key (st : Store) (h : AcceptedValuesTrue st) (s : Symbol) :
    WasAccepted st s = true ↔ st.Get (acceptedKey s) ≠ none := by
  have hkey : st.Get (merge BucketAccepted (writeBytes s)) = st.Get (acceptedKey s) := rfl
  constructor
  · intro hwa hnone
    rw [WasAccepted_of_Get_none st s hnone] at hwa
    exact absurd hwa (by simp)
  · intro hne
    cases hget : st.Get (acceptedKey s) with
    | none => exact absurd hget hne
    | some v =>
      have := h s v hget
      simp [WasAccepted, hkey, hget, this]

theorem Exclusive_iff_keys (st : Store) (h : AcceptedValuesTrue st) :
    Exclusive st ↔ ∀ s, ¬ (st.Get (acceptedKey s) ≠ none ∧ InPending st s) := by
  unfold Exclusive
  constructor
  · intro hex s hs
    exact hex s ⟨(WasAccepted_iff_key st h s).mpr hs.1, hs.2⟩
  · intro hex s hs
    exact hex s ⟨(WasAccepted_iff_key st h s).mp hs.1, hs.2⟩

theorem AcceptedValuesTrue_acceptTransaction (e : Env) (st : Store) (k : Symbol)
    (h : AcceptedValuesTrue st) : AcceptedValuesTrue (acceptTransaction e st k) := by
  intro s v hv
  rw [acceptTransaction_Get_accepted] at hv
  split at hv
  · cases hv
    rfl
  · exact h s v hv

theorem revertLoop_Get_accepted (e : Env) (x : Symbol) :
    ∀ (fuel : Nat) (b : Bfs),
      (revertLoop e fuel b).store.Get (acceptedKey x) = none ∨
      (revertLoop e fuel b).store.Get (acceptedKey x) = b.store.Get (acceptedKey x) := by
  intro fuel
  induction fuel with
  | zero => intro b; exact Or.inr rfl
  | succ n ih =>
    intro b
    obtain ⟨st, q, v⟩ := b
    cases q with
    | nil => exact Or.inr rfl
    | cons popped rest =>
      have hstep : ((st.Delete (merge BucketAccepted (writeBytes popped))).Put
          (merge BucketAcceptPending (writeBytes popped)) [0]).Get (acceptedKey x) = none ∨
          ((st.Delete (merge BucketAccepted (writeBytes popped))).Put
          (merge BucketAcceptPending (writeBytes popped)) [0]).Get (acceptedKey x)
            = st.Get (acceptedKey x) := by
        rw [Store.Get_Put, Store.Get_Delete]
        have hne : ¬ merge BucketAcceptPending (writeBytes popped) = acceptedKey x :=
          fun hh => acceptedKey_ne_pendingKey x popped hh.symm
        simp only [hne, if_false]
        split
        · exact Or.inl rfl
        · exact Or.inr rfl
      simp only [revertLoop]
      cases hch : e.GetChildrenBySymbol popped with
      | error err =>
        rcases ih ⟨(st.Delete (merge BucketAccepted (writeBytes popped))).Put
          (merge BucketAcceptPending (writeBytes popped)) [0], rest, v⟩ with h1 | h1
        · exact Or.inl h1
        · rcases hstep with h2 | h2
          · exact Or.inl (h1.trans h2)
          · exact Or.inr (h1.trans h2)
      | ok children =>
        rcases ih (revertChildren children
          ⟨(st.Delete (merge BucketAccepted (writeBytes popped))).Put
            (merge BucketAcceptPending (writeBytes popped)) [0], rest, v⟩) with h1 | h1
        · exact Or.inl h1
        · rw [revertChildren_store] at h1
          rcases hstep with h2 | h2
          · exact Or.inl (h1.trans h2)
          · exact Or.inr (h1.trans h2)

theorem AcceptedValuesTrue_revertTransaction (e : Env) (st : Store) (k : Symbol)
    (h : AcceptedValuesTrue st) : AcceptedValuesTrue (revertTransaction e st k) := by
  intro s v hv
  unfold revertTransaction at hv
  rcases revertLoop_Get_accepted e s (e.symbols.length + 1) ⟨st, [k], []⟩ with h1 | h1
  · rw [h1] at hv
    cases hv
  · rw [h1] at hv
    exact h s v hv

theorem AcceptedValuesTrue_tick (e : Env) (st : Store) (h : AcceptedValuesTrue st) :
    AcceptedValuesTrue (updatedAcceptedTransactions e st).store := by
  refine tick_induct e AcceptedValuesTrue ?_ ?_ st h
  · intro st2 tx _ _ h2 s v hv
    rw [Store.Get_Put] at hv
    have hne : ¬ merge BucketAcceptPending (writeBytes tx.Id) = acceptedKey s :=
      fun hh => acceptedKey_ne_pendingKey s tx.Id hh.symm
    simp only [hne, if_false] at hv
    exact h2 s v hv
  · intro st2 k _ _ _ _ h2
    exact AcceptedValuesTrue_acceptTransaction e st2 k h2

/-! ## Accept, revert and the acceptance query -/

/-- C11. After `acceptTransaction(s)` the key of `s` in the accepted bucket holds the
boolean true, which reads back as true, so `WasAccepted(s)` is true, and `s` has no key
in the pending bucket. -/
theorem accept_marks_accepted (e : Env) (st : Store) (s : Symbol) :
    (acceptTransaction e st s).Get (acceptedKey s) = some (writeBoolean true) ∧
    readBoolean (writeBoolean true) = true ∧
    WasAccepted (acceptTransaction e st s) s = true ∧
    (acceptTransaction e st s).Get (pendingKey s) = none := by
  have hget := acceptTransaction_Get_accepted e st s s
  simp only [if_true] at hget
  have hself := accepted_not_pending_self e st s
  refine ⟨hget, rfl, hself.1, ?_⟩
  have h2 := hself.2
  unfold InPending at h2
  exact not_not.mp h2

/-- C13. Accept followed by revert returns a symbol to pending: after
`acceptTransaction(s)` the symbol is accepted, and after `revertTransaction(s)` run right
after it the symbol has no key in the accepted bucket, has a key in the pending bucket and
`WasAccepted(s)` is false. -/
theorem revert_after_accept (e : Env) (st : Store) (s : Symbol) :
    WasAccepted (acceptTransaction e st s) s = true ∧
    (revertTransaction e (acceptTransaction e st s) s).Get (acceptedKey s) = none ∧
    InPending (revertTransaction e (acceptTransaction e st s) s) s ∧
    WasAccepted (revertTransaction e (acceptTransaction e st s) s) s = false := by
  have hrev := revertTransaction_Reverted_self e (acceptTransaction e st s) s
  exact ⟨(accepted_not_pending_self e st s).1, hrev.1, hrev.2,
    WasAccepted_of_Get_none _ _ hrev.1⟩

/-- C14. `WasAccepted` is total and reflects the stored verdict: it is the boolean read
from the bytes found under the accepted key of the symbol (no bytes when the read fails),
it is true exactly when a value is stored under that key and reads as true, and it is
false when the key is absent or the read fails. -/
theorem WasAccepted_reflects_store (st : Store) (s : Symbol) :
    WasAccepted st s = readBoolean ((st.Get (acceptedKey s)).getD []) ∧
    (WasAccepted st s = true ↔ ∃ v, st.Get (acceptedKey s) = some v ∧ readBoolean v = true) ∧
    (st.Get (acceptedKey s) = none → WasAccepted st s = false) := by
  have hdef : WasAccepted st s = readBoolean ((st.Get (acceptedKey s)).getD []) := rfl
  refine ⟨hdef, ?_, WasAccepted_of_Get_none st s⟩
  rw [hdef]
  cases hget : st.Get (acceptedKey s) with
  | none => simp [readBoolean]
  | some v => simp

/-- Witness of C14: in `sampleStore` the key of `symA` holds the true byte and `symB` has
no key in the accepted bucket. -/
theorem WasAccepted_reflects_store_witness :
    Store.Get sampleStore (acceptedKey symA) = some [1] ∧ WasAccepted sampleStore symA = true ∧
    Store.Get sampleStore (acceptedKey symB) = none ∧ WasAccepted sampleStore symB = false :=
  ⟨by decide,
    (WasAccepted_reflects_store sampleStore symA).2.1.mpr ⟨[1], by decide, rfl⟩,
    by decide, (WasAccepted_reflects_store sampleStore symB).2.2 (by decide)⟩

theorem InPending_Put (st : Store) (key v : Bytes) (x : Symbol) (h : InPending st x) :
    InPending (st.Put key v) x := by
  unfold InPending at h ⊢
  rw [Store.Get_Put]
  split
  · simp
  · exact h

theorem acceptChildren_pending_mono (cs : List Symbol) (b : Bfs) (x : Symbol)
    (h : InPending b.store x) : InPending (acceptChildren cs b).store x := by
  induction cs generalizing b with
  | nil => exact h
  | cons c rest ih =>
    simp only [acceptChildren]
    split
    · exact ih b h
    · apply ih
      simp only
      split
      · exact InPending_Put _ _ _ _ h
      · exact h

theorem acceptLoop_pending_mono (e : Env) (x : Symbol) :
    ∀ (fuel : Nat) (b : Bfs), InPending b.store x → InPending (acceptLoop e fuel b).store x := by
  intro fuel
  induction fuel with
  | zero => intro b h; exact h
  | succ n ih =>
    intro b h
    obtain ⟨st, q, v⟩ := b
    cases q with
    | nil => exact h
    | cons popped rest =>
      simp only [acceptLoop]
      cases hch : e.GetChildrenBySymbol popped with
      | error err => exact ih _ h
      | ok children => exact ih _ (acceptChildren_pending_mono children ⟨st, rest, v⟩ x h)

theorem InPending_acceptTransaction_of_ne (e : Env) (st : Store) (s x : Symbol)
    (h : InPending st x) (hne : x ≠ s) : InPending (acceptTransaction e st s) x := by
  unfold acceptTransaction
  apply acceptLoop_pending_mono
  simp only
  unfold InPending at h ⊢
  rw [Store.Get_Delete, Store.Get_Put]
  have h1 : ¬ merge BucketAcceptPending (writeBytes s) = pendingKey x :=
    fun hh => hne (pendingKey_inj hh).symm
  have h2 : ¬ merge BucketAccepted (writeBytes s) = pendingKey x :=
    fun hh => acceptedKey_ne_pendingKey s x hh
  simpa [h1, h2] using h

/-- A symbol that does not pass the confidence gate stays pending through a tick. -/
theorem tick_keeps_pending (e : Env) (st : Store) (k : Symbol) (hng : ¬ ConfidenceGate e k)
    (h : InPending st k) : InPending (updatedAcceptedTransactions e st).store k := by
  have hscan : ∀ st2, InPending st2 k → InPending (scanPending e st2).store k := by
    intro st2 h2
    unfold scanPending
    simp only
    apply scan_induct e (fun s => InPending s.store k)
    · intro s k2 hs
      rcases pendingCallback_cases e s k2 with h1 | ⟨tx, set, hl, htx, hset, hh, _, hg, _, h1⟩
      · rw [h1]; exact hs
      · rw [h1]
        have hne : k ≠ k2 := by
          intro hkk
          subst hkk
          exact hng ⟨tx, set, hl, htx, hset, hh, hg⟩
        exact InPending_acceptTransaction_of_ne e s.store k2 k hs hne
    · exact h2
  unfold updatedAcceptedTransactions
  split
  · split
    · exact h
    · exact hscan _ (InPending_Put _ _ _ _ h)
  · exact hscan _ h

/-! ## Error handling -/

/-- C15. Safety-hook error handling: `ensureSafeCommittable` returns an error exactly when
the conflict-set lookup fails or the sketch bytes of the set fail to decode; in both cases
the error is the one of the failing call and the store is unchanged; otherwise it returns
no error. -/
theorem safety_hook_errors (e : Env) (st : Store) (index : Nat) (tx : Transaction) :
    (∀ err, e.GetConflictSet tx.Sender tx.Nonce = .error err →
      ensureSafeCommittable e st index tx = (st, some err)) ∧
    (∀ c err, e.GetConflictSet tx.Sender tx.Nonce = .ok c →
      e.UnmarshalPb c.Transactions = .error err →
      ensureSafeCommittable e st index tx = (st, some err)) ∧
    (∀ c h, e.GetConflictSet tx.Sender tx.Nonce = .ok c →
      e.UnmarshalPb c.Transactions = .ok h →
      (ensureSafeCommittable e st index tx).2 = none) ∧
    ((ensureSafeCommittable e st index tx).2 ≠ none ↔
      ((∃ err, e.GetConflictSet tx.Sender tx.Nonce = .error err) ∨
        ∃ c err, e.GetConflictSet tx.Sender tx.Nonce = .ok c ∧
          e.UnmarshalPb c.Transactions = .error err)) := by
  have h1 : ∀ err, e.GetConflictSet tx.Sender tx.Nonce = .error err →
      ensureSafeCommittable e st index tx = (st, some err) := by
    intro err hset
    simp only [ensureSafeCommittable, hset]
  have h2 : ∀ c err, e.GetConflictSet tx.Sender tx.Nonce = .ok c →
      e.UnmarshalPb c.Transactions = .error err →
      ensureSafeCommittable e st index tx = (st, some err) := by
    intro c err hset hh
    simp only [ensureSafeCommittable, hset]
    exact ensureAccepted_error e st c err hh
  have h3 : ∀ c h, e.GetConflictSet tx.Sender tx.Nonce = .ok c →
      e.UnmarshalPb c.Transactions = .ok h →
      (ensureSafeCommittable e st index tx).2 = none := by
    intro c h hset hh
    simp only [ensureSafeCommittable, hset]
    rw [ensureAccepted_ok e st c h hh]
  refine ⟨h1, h2, h3, ?_⟩
  constructor
  · intro hne
    cases hset : e.GetConflictSet tx.Sender tx.Nonce with
    | error err => exact Or.inl ⟨err, rfl⟩
    | ok c =>
      cases hh : e.UnmarshalPb c.Transactions with
      | error err => exact Or.inr ⟨c, err, rfl, hh⟩
      | ok h => exact absurd (h3 c h hset hh) hne
  · intro hcase
    rcases hcase with ⟨err, hset⟩ | ⟨c, err, hset, hh⟩
    · rw [h1 err hset]; simp
    · rw [h2 c err hset hh]; simp

/-- Witness of C15: in the sample ledger the sender `[9]` has no conflict set, and the
bytes `[255]` do not decode. -/
theorem safety_hook_errors_witness :
    sampleEnv.GetConflictSet [9] 0 = .error ⟨404⟩ ∧
    ensureSafeCommittable sampleEnv sampleStore 0 ⟨symA, [9], 0, []⟩
      = (sampleStore, some ⟨404⟩) ∧
    sampleEnv.UnmarshalPb [255] = .error ⟨400⟩ ∧
    ensureAccepted sampleEnv sampleStore ⟨symA, 0, [255]⟩ = (sampleStore, some ⟨400⟩) ∧
    (ensureSafeCommittable sampleEnv sampleStore 0 txA).2 = none :=
  ⟨rfl,
    (safety_hook_errors sampleEnv sampleStore 0 ⟨symA, [9], 0, []⟩).1 ⟨404⟩ rfl,
    rfl, by decide,
    (safety_hook_errors sampleEnv sampleStore 0 txA).2.2.1 ⟨symA, 0, [7]⟩ ⟨[7]⟩ rfl rfl⟩

/-- C16. Scan errors are swallowed per symbol: when the transaction lookup, the
conflict-set lookup or the decoding of the sketch fails for a key `k` of the scan, the
callback leaves the scan state (store and `acceptedList`) unchanged and reports no error,
the scan goes on with the remaining keys, and over the whole tick `k` is not accepted and,
if it was pending, stays pending. -/
theorem scan_swallows_lookup_errors (e : Env) (st : Store) (s0 : Scan)
    (before after : List Symbol) (k : Symbol)
    (hfail : (∃ err, e.GetBySymbol k = .error err) ∨
      (∃ tx err, e.GetBySymbol k = .ok tx ∧
        e.GetConflictSet tx.Sender tx.Nonce = .error err) ∨
      (∃ tx set err, e.GetBySymbol k = .ok tx ∧
        e.GetConflictSet tx.Sender tx.Nonce = .ok set ∧
        e.UnmarshalPb set.Transactions = .error err)) :
    pendingCallback e (forEachKeyLoop (pendingCallback e) before s0).1 k
      = ((forEachKeyLoop (pendingCallback e) before s0).1, none) ∧
    forEachKeyLoop (pendingCallback e) (before ++ k :: after) s0
      = forEachKeyLoop (pendingCallback e) after (forEachKeyLoop (pendingCallback e) before s0).1 ∧
    k ∉ (updatedAcceptedTransactions e st).acceptedList ∧
    (WasAccepted st k = false →
      WasAccepted (updatedAcceptedTransactions e st).store k = false) ∧
    (InPending st k → InPending (updatedAcceptedTransactions e st).store k) := by
  have hng : ¬ ConfidenceGate e k := by
    rintro ⟨tx, set, h, htx, hset, hh, _⟩
    rcases hfail with ⟨err, h1⟩ | ⟨tx2, err, h1, h2⟩ | ⟨tx2, set2, err, h1, h2, h3⟩
    · rw [htx] at h1; cases h1
    · rw [htx] at h1; cases h1
      rw [hset] at h2; cases h2
    · rw [htx] at h1; cases h1
      rw [hset] at h2; cases h2
      rw [hh] at h3; cases h3
  have hcb : ∀ s : Scan, pendingCallback e s k = (s, none) := by
    intro s
    rcases pendingCallback_cases e s k with h1 | ⟨tx, set, h, htx, hset, hh, _, hg, _, _⟩
    · exact h1
    · exact absurd ⟨tx, set, h, htx, hset, hh, hg⟩ hng
  obtain ⟨hsound1, hsound2⟩ := tick_accepted_sound e st
  refine ⟨hcb _, ?_, fun hmem => hng (hsound1 k hmem), ?_, tick_keeps_pending e st k hng⟩
  · rw [forEachKeyLoop_append, forEachKeyLoop_cons, hcb]
  · intro hb
    rw [← Bool.not_eq_true]
    intro ha
    rcases hsound2 k ha with h3 | h3
    · rw [hb] at h3
      exact absurd h3 (by simp)
    · exact hng (hsound1 k h3)

/-- C17. Revert tolerates a missing-children error: when the children lookup of the popped
symbol `p` fails, the loop goes on with the rest of the queue and the same visited set (no
child of `p` is enqueued, nothing is reported), in a store from which the accepted key of
`p` has been deleted and into which its pending key has been put; `p` is reverted in that
store and in the store the traversal ends with. -/
theorem revert_skips_missing_children (e : Env) (fuel : Nat) (st : Store) (p : Symbol)
    (rest visited : List Symbol) (err : Error)
    (hch : e.GetChildrenBySymbol p = .error err) :
    revertLoop e (fuel + 1) ⟨st, p :: rest, visited⟩
      = revertLoop e fuel
          ⟨(st.Delete (merge BucketAccepted (writeBytes p))).Put
            (merge BucketAcceptPending (writeBytes p)) [0], rest, visited⟩ ∧
    Reverted ((st.Delete (merge BucketAccepted (writeBytes p))).Put
      (merge BucketAcceptPending (writeBytes p)) [0]) p ∧
    Reverted (revertLoop e (fuel + 1) ⟨st, p :: rest, visited⟩).store p := by
  have hstep : revertLoop e (fuel + 1) ⟨st, p :: rest, visited⟩
      = revertLoop e fuel
          ⟨(st.Delete (merge BucketAccepted (writeBytes p))).Put
            (merge BucketAcceptPending (writeBytes p)) [0], rest, visited⟩ := by
    simp only [revertLoop, hch]
  refine ⟨hstep, Reverted_popped st p, ?_⟩
  rw [hstep]
  exact revertLoop_Reverted_mono e p fuel _ (Reverted_popped st p)

/-- Witness of C17: in the sample ledger `symC` has no children entry; it is popped with
`symA` still in the queue. -/
theorem revert_skips_missing_children_witness :
    sampleEnv.GetChildrenBySymbol symC = .error ⟨404⟩ ∧
    revertLoop sampleEnv 3 ⟨sampleStore, [symC, symA], []⟩
      = revertLoop sampleEnv 2
          ⟨(Store.Delete sampleStore (merge BucketAccepted (writeBytes symC))).Put
            (merge BucketAcceptPending (writeBytes symC)) [0], [symA], []⟩ :=
  ⟨rfl, (revert_skips_missing_children sampleEnv 2 sampleStore symC [symA] [] ⟨404⟩ rfl).1⟩

/-! ## Completeness of the traversal of `acceptTransaction` -/

theorem acceptChildren_queue_mono (cs : List Symbol) (b : Bfs) :
    ∀ x ∈ b.queue, x ∈ (acceptChildren cs b).queue := by
  induction cs generalizing b with
  | nil => intro x hx; exact hx
  | cons c rest ih =>
    intro x hx
    simp only [acceptChildren]
    split
    · exact ih b x hx
    · exact ih _ x (by simp [hx])

theorem acceptChildren_visited_mono (cs : List Symbol) (b : Bfs) :
    ∀ x ∈ b.visited, x ∈ (acceptChildren cs b).visited := by
  induction cs generalizing b with
  | nil => intro x hx; exact hx
  | cons c rest ih =>
    intro x hx
    simp only [acceptChildren]
    split
    · exact ih b x hx
    · exact ih _ x (by simp [hx])

theorem acceptChildren_children_visited (cs : List Symbol) (b : Bfs) :
    ∀ x ∈ cs, x ∈ (acceptChildren cs b).visited := by
  induction cs generalizing b with
  | nil => intro x hx; simp at hx
  | cons c rest ih =>
    intro x hx
    simp only [acceptChildren]
    rcases List.mem_cons.mp hx with h | h
    · subst h
      split
      · rename_i hc
        exact acceptChildren_visited_mono rest b x hc
      · exact acceptChildren_visited_mono rest _ x (by simp)
    · split
      · exact ih b x h
      · exact ih _ x h

theorem WasAccepted_acceptChildren (cs : List Symbol) (b : Bfs) (x : Symbol) :
    WasAccepted (acceptChildren cs b).store x = WasAccepted b.store x :=
  WasAccepted_congr _ _ _ (acceptChildren_accepted_frame cs b x)

theorem WasAccepted_acceptLoop (e : Env) (fuel : Nat) (b : Bfs) (x : Symbol) :
    WasAccepted (acceptLoop e fuel b).store x = WasAccepted b.store x :=
  WasAccepted_congr _ _ _ (acceptLoop_accepted_frame e x fuel b)

/-- Every symbol the children loop newly marks as visited is enqueued, and is pending
afterwards unless it is accepted. -/
theorem acceptChildren_new (cs : List Symbol) (b : Bfs) :
    ∀ c, c ∈ (acceptChildren cs b).visited →
      c ∈ b.visited ∨
        (c ∈ (acceptChildren cs b).queue ∧
          (WasAccepted b.store c = false → InPending (acceptChildren cs b).store c)) := by
  induction cs generalizing b with
  | nil => intro c hc; exact Or.inl hc
  | cons d rest ih =>
    intro c hc
    simp only [acceptChildren] at hc ⊢
    split at hc
    · rename_i hd
      simp only [hd, if_true]
      exact ih b c hc
    · rename_i hd
      simp only [hd, if_false]
      rcases ih _ c hc with h | ⟨hq, hp⟩
      · simp only [List.mem_cons] at h
        rcases h with h | h
        · right
          subst h
          refine ⟨acceptChildren_queue_mono rest _ c (by simp), ?_⟩
          intro hna
          apply acceptChildren_pending_mono
          simp only [hna, Bool.not_false, if_true]
          unfold InPending
          rw [Store.Get_Put]
          simp [pendingKey]
        · exact Or.inl h
      · right
        refine ⟨hq, ?_⟩
        intro hna
        apply hp
        simp only
        split
        · rw [WasAccepted_Put_pending]
          exact hna
        · exact hna

/-- The traversal of `acceptTransaction` in a finite graph: the popped symbols `P` contain
the queue, and every child of a popped symbol was visited before or is popped too and is
pending at the end unless it is accepted. -/
theorem acceptLoop_spec (e : Env) (hfin : FiniteGraph e) :
    ∀ (fuel : Nat) (b : Bfs), b.queue.length + unvisited e b.visited ≤ fuel →
      ∃ P : List Symbol,
        (∀ x ∈ b.queue, x ∈ P) ∧
        (∀ x ∈ P, ∀ c, ChildOf e x c → c ∈ b.visited ∨
          (c ∈ P ∧ (WasAccepted b.store c = false → InPending (acceptLoop e fuel b).store c))) := by
  intro fuel
  induction fuel with
  | zero =>
    intro b hb
    have hq : b.queue = [] := List.length_eq_zero.mp (by omega)
    exact ⟨[], by simp [hq], by simp⟩
  | succ n ih =>
    intro b hb
    obtain ⟨st, q, v⟩ := b
    cases q with
    | nil => exact ⟨[], by simp, by simp⟩
    | cons popped rest =>
      simp only [List.length_cons] at hb
      simp only [acceptLoop]
      cases hch : e.GetChildrenBySymbol popped with
      | error err =>
        obtain ⟨P, hq, hcl⟩ := ih ⟨st, rest, v⟩ (by simp only; omega)
        refine ⟨popped :: P, ?_, ?_⟩
        · intro x hx
          rcases List.mem_cons.mp hx with h | h
          · simp [h]
          · exact List.mem_cons_of_mem _ (hq x h)
        · intro x hx c hc
          rcases List.mem_cons.mp hx with h | h
          · subst h
            obtain ⟨cs, hcs, _⟩ := hc
            rw [hch] at hcs
            cases hcs
          · rcases hcl x h c hc with h2 | ⟨h2, h3⟩
            · exact Or.inl h2
            · exact Or.inr ⟨List.mem_cons_of_mem _ h2, h3⟩
      | ok children =>
        have hmeas := acceptChildren_measure e children ⟨st, rest, v⟩
          (hfin popped children hch)
        obtain ⟨P, hq, hcl⟩ := ih (acceptChildren children ⟨st, rest, v⟩)
          (by simp only at hmeas ⊢; omega)
        have hvis : ∀ c, c ∈ (acceptChildren children ⟨st, rest, v⟩).visited →
            c ∈ v ∨ (c ∈ popped :: P ∧ (WasAccepted st c = false →
              InPending (acceptLoop e n (acceptChildren children ⟨st, rest, v⟩)).store c)) := by
          intro c hc
          rcases acceptChildren_new children ⟨st, rest, v⟩ c hc with h2 | ⟨h2, h3⟩
          · exact Or.inl h2
          · right
            refine ⟨List.mem_cons_of_mem _ (hq c h2), ?_⟩
            intro hna
            exact acceptLoop_pending_mono e c n _ (h3 hna)
        refine ⟨popped :: P, ?_, ?_⟩
        · intro x hx
          rcases List.mem_cons.mp hx with h | h
          · simp [h]
          · exact List.mem_cons_of_mem _ (hq x (acceptChildren_queue_mono children _ x h))
        · intro x hx c hc
          rcases List.mem_cons.mp hx with h | h
          · subst h
            obtain ⟨cs, hcs, hmem⟩ := hc
            rw [hch] at hcs
            cases hcs
            exact hvis c (acceptChildren_children_visited _ _ c hmem)
          · rcases hcl x h c hc with h2 | ⟨h2, h3⟩
            · exact hvis c h2
            · right
              refine ⟨List.mem_cons_of_mem _ h2, ?_⟩
              intro hna
              apply h3
              rw [WasAccepted_acceptChildren]
              exact hna

/-- C12. In a finite graph, after `acceptTransaction(s)` every transitive descendant of `s`
(reachable through one or more children lookups) that is not accepted has a key in the
pending bucket, and a symbol that was already accepted is not inserted into the pending
bucket: its pending entry is what it was before (none for `s` itself). -/
theorem accept_marks_descendants_pending (e : Env) (st : Store) (s : Symbol)
    (hfin : FiniteGraph e) :
    (∀ x, Relation.TransGen (ChildOf e) s x →
      WasAccepted (acceptTransaction e st s) x = false →
      InPending (acceptTransaction e st s) x) ∧
    (∀ x, WasAccepted st x = true →
      (acceptTransaction e st s).Get (pendingKey x)
        = if x = s then none else st.Get (pendingKey x)) := by
  refine ⟨?_, ?_⟩
  · have hfuel : (Bfs.mk ((st.Put (merge BucketAccepted (writeBytes s)) (writeBoolean true)).Delete
        (merge BucketAcceptPending (writeBytes s))) [s] []).queue.length
        + unvisited e (Bfs.mk ((st.Put (merge BucketAccepted (writeBytes s))
          (writeBoolean true)).Delete (merge BucketAcceptPending (writeBytes s))) [s] []).visited
        ≤ e.symbols.length + 1 := by
      have := unvisited_nil_le e
      simp only [List.length_singleton]
      omega
    obtain ⟨P, hq, hcl⟩ := acceptLoop_spec e hfin _ _ hfuel
    have hs : s ∈ P := hq s (by simp)
    have hstep : ∀ x ∈ P, ∀ c, ChildOf e x c →
        c ∈ P ∧ (WasAccepted (acceptTransaction e st s) c = false →
          InPending (acceptTransaction e st s) c) := by
      intro x hx c hc
      rcases hcl x hx c hc with h | ⟨h1, h2⟩
      · simp at h
      · refine ⟨h1, ?_⟩
        intro hna
        apply h2
        rw [← hna]
        unfold acceptTransaction
        simp only
        rw [WasAccepted_acceptLoop]
    intro x hreach
    have hboth : x ∈ P ∧ (WasAccepted (acceptTransaction e st s) x = false →
        InPending (acceptTransaction e st s) x) := by
      induction hreach with
      | single h => exact hstep s hs _ h
      | tail _ h ih => exact hstep _ ih.1 _ h
    exact hboth.2
  · intro x hx
    exact acceptTransaction_Get_pending e st s x (WasAccepted_acceptTransaction_mono e st s x hx)

/-- Witness of C12 on the sample ledger: accepting `symA` in the store where only `symB` is
pending makes the grandchild `symC` pending. -/
theorem accept_marks_descendants_pending_witness :
    FiniteGraph sampleEnv ∧ Relation.TransGen (ChildOf sampleEnv) symA symC ∧
    WasAccepted (acceptTransaction sampleEnv sampleStore symA) symC = false ∧
    ¬ InPending sampleStore symC ∧
    InPending (acceptTransaction sampleEnv sampleStore symA) symC :=
  have hreach : Relation.TransGen (ChildOf sampleEnv) symA symC :=
    Relation.TransGen.tail
      (Relation.TransGen.single ((sampleEnv_ChildOf symA symB).mpr (Or.inl ⟨rfl, rfl⟩)))
      ((sampleEnv_ChildOf symB symC).mpr (Or.inr ⟨rfl, rfl⟩))
  ⟨sampleEnv_finite, hreach, by decide, by decide,
    (accept_marks_descendants_pending sampleEnv sampleStore symA sampleEnv_finite).1 symC
      hreach (by decide)⟩

/-! ## Termination of the traversals -/

theorem revertChildren_pushes (cs : List Symbol) (b : Bfs) :
    ∃ pushed, (revertChildren cs b).queue = b.queue ++ pushed ∧
      (revertChildren cs b).visited = pushed.reverse ++ b.visited := by
  induction cs generalizing b with
  | nil => exact ⟨[], by simp [revertChildren], by simp [revertChildren]⟩
  | cons c rest ih =>
    simp only [revertChildren]
    split
    · exact ih b
    · obtain ⟨pushed, hq, hv⟩ := ih ⟨b.store, b.queue ++ [c], c :: b.visited⟩
      exact ⟨c :: pushed, by simp [hq], by simp [hv]⟩

theorem acceptChildren_pushes (cs : List Symbol) (b : Bfs) :
    ∃ pushed, (acceptChildren cs b).queue = b.queue ++ pushed ∧
      (acceptChildren cs b).visited = pushed.reverse ++ b.visited := by
  induction cs generalizing b with
  | nil => exact ⟨[], by simp [acceptChildren], by simp [acceptChildren]⟩
  | cons c rest ih =>
    simp only [acceptChildren]
    split
    · exact ih b
    · obtain ⟨pushed, hq, hv⟩ := ih ⟨if (!WasAccepted b.store c) = true then
          b.store.Put (merge BucketAcceptPending (writeBytes c)) [0] else b.store,
        b.queue ++ [c], c :: b.visited⟩
      refine ⟨c :: pushed, ?_, ?_⟩
      · rw [hq]
        simp
      · rw [hv]
        simp

theorem revertChildren_visited_nodup (cs : List Symbol) (b : Bfs) (h : b.visited.Nodup) :
    (revertChildren cs b).visited.Nodup := by
  induction cs generalizing b with
  | nil => exact h
  | cons c rest ih =>
    simp only [revertChildren]
    split
    · exact ih b h
    · rename_i hc
      exact ih _ (List.nodup_cons.mpr ⟨hc, h⟩)

theorem acceptChildren_visited_nodup (cs : List Symbol) (b : Bfs) (h : b.visited.Nodup) :
    (acceptChildren cs b).visited.Nodup := by
  induction cs generalizing b with
  | nil => exact h
  | cons c rest ih =>
    simp only [acceptChildren]
    split
    · exact ih b h
    · rename_i hc
      exact ih _ (List.nodup_cons.mpr ⟨hc, h⟩)

theorem revertLoop_visited_nodup (e : Env) :
    ∀ (fuel : Nat) (b : Bfs), b.visited.Nodup → (revertLoop e fuel b).visited.Nodup := by
  intro fuel
  induction fuel with
  | zero => intro b h; exact h
  | succ n ih =>
    intro b h
    obtain ⟨st, q, v⟩ := b
    cases q with
    | nil => exact h
    | cons popped rest =>
      simp only [revertLoop]
      cases hch : e.GetChildrenBySymbol popped with
      | error err => exact ih _ h
      | ok children => exact ih _ (revertChildren_visited_nodup children _ h)

theorem acceptLoop_visited_nodup (e : Env) :
    ∀ (fuel : Nat) (b : Bfs), b.visited.Nodup → (acceptLoop e fuel b).visited.Nodup := by
  intro fuel
  induction fuel with
  | zero => intro b h; exact h
  | succ n ih =>
    intro b h
    obtain ⟨st, q, v⟩ := b
    cases q with
    | nil => exact h
    | cons popped rest =>
      simp only [acceptLoop]
      cases hch : e.GetChildrenBySymbol popped with
      | error err => exact ih _ h
      | ok children => exact ih _ (acceptChildren_visited_nodup children _ h)

/-- With enough fuel the pops of `revertLoop` are its queue followed by the symbols it
marks as visited, in the order in which they are enqueued. -/
theorem revertLoop_pops (e : Env) (hfin : FiniteGraph e) :
    ∀ (fuel : Nat) (b : Bfs), b.queue.length + unvisited e b.visited ≤ fuel →
      ∃ N, (revertLoop e fuel b).visited = N ++ b.visited ∧
        revertPops e fuel b = b.queue ++ N.reverse := by
  intro fuel
  induction fuel with
  | zero =>
    intro b hb
    have hq : b.queue = [] := List.length_eq_zero.mp (by omega)
    exact ⟨[], by simp [revertLoop], by simp [revertPops, hq]⟩
  | succ n ih =>
    intro b hb
    obtain ⟨st, q, v⟩ := b
    cases q with
    | nil => exact ⟨[], by simp [revertLoop], by simp [revertPops]⟩
    | cons popped rest =>
      simp only [List.length_cons] at hb
      simp only [revertLoop, revertPops]
      cases hch : e.GetChildrenBySymbol popped with
      | error err =>
        obtain ⟨N, hv, hp⟩ := ih
          ⟨(st.Delete (merge BucketAccepted (writeBytes popped))).Put
            (merge BucketAcceptPending (writeBytes popped)) [0], rest, v⟩ (by simp only; omega)
        exact ⟨N, hv, by simp only [hp, List.cons_append]⟩
      | ok children =>
        have hmeas := revertChildren_measure e children
          ⟨(st.Delete (merge BucketAccepted (writeBytes popped))).Put
            (merge BucketAcceptPending (writeBytes popped)) [0], rest, v⟩
          (hfin popped children hch)
        obtain ⟨pushed, hq2, hv2⟩ := revertChildren_pushes children
          ⟨(st.Delete (merge BucketAccepted (writeBytes popped))).Put
            (merge BucketAcceptPending (writeBytes popped)) [0], rest, v⟩
        obtain ⟨N, hv, hp⟩ := ih (revertChildren children
          ⟨(st.Delete (merge BucketAccepted (writeBytes popped))).Put
            (merge BucketAcceptPending (writeBytes popped)) [0], rest, v⟩)
          (by simp only at hmeas ⊢; omega)
        refine ⟨N ++ pushed.reverse, ?_, ?_⟩
        · simp only at hv ⊢
          rw [hv, hv2, List.append_assoc]
        · simp only at hp ⊢
          rw [hp, hq2]
          simp

/-- With enough fuel the pops of `acceptLoop` are its queue followed by the symbols it
marks as visited, in the order in which they are enqueued. -/
theorem acceptLoop_pops (e : Env) (hfin : FiniteGraph e) :
    ∀ (fuel : Nat) (b : Bfs), b.queue.length + unvisited e b.visited ≤ fuel →
      ∃ N, (acceptLoop e fuel b).visited = N ++ b.visited ∧
        acceptPops e fuel b = b.queue ++ N.reverse := by
  intro fuel
  induction fuel with
  | zero =>
    intro b hb
    have hq : b.queue = [] := List.length_eq_zero.mp (by omega)
    exact ⟨[], by simp [acceptLoop], by simp [acceptPops, hq]⟩
  | succ n ih =>
    intro b hb
    obtain ⟨st, q, v⟩ := b
    cases q with
    | nil => exact ⟨[], by simp [acceptLoop], by simp [acceptPops]⟩
    | cons popped rest =>
      simp only [List.length_cons] at hb
      simp only [acceptLoop, acceptPops]
      cases hch : e.GetChildrenBySymbol popped with
      | error err =>
        obtain ⟨N, hv, hp⟩ := ih ⟨st, rest, v⟩ (by simp only; omega)
        exact ⟨N, hv, by simp only [hp, List.cons_append]⟩
      | ok children =>
        have hmeas := acceptChildren_measure e children ⟨st, rest, v⟩
          (hfin popped children hch)
        obtain ⟨pushed, hq2, hv2⟩ := acceptChildren_pushes children ⟨st, rest, v⟩
        obtain ⟨N, hv, hp⟩ := ih (acceptChildren children ⟨st, rest, v⟩)
          (by simp only at hmeas ⊢; omega)
        refine ⟨N ++ pushed.reverse, ?_, ?_⟩
        · simp only at hv ⊢
          rw [hv, hv2, List.append_assoc]
        · simp only at hp ⊢
          rw [hp, hq2]
          simp

theorem revertLoop_fuel_stable (e : Env) :
    ∀ (fuel : Nat) (b : Bfs) (k : Nat), (revertLoop e fuel b).queue = [] →
      revertLoop e (fuel + k) b = revertLoop e fuel b := by
  intro fuel
  induction fuel with
  | zero =>
    intro b k h
    simp only [revertLoop] at h
    cases k with
    | zero => rfl
    | succ k =>
      obtain ⟨st, q, v⟩ := b
      simp only at h
      subst h
      simp [revertLoop]
  | succ n ih =>
    intro b k h
    obtain ⟨st, q, v⟩ := b
    have hk : n + 1 + k = (n + k) + 1 := by omega
    rw [hk]
    cases q with
    | nil => simp [revertLoop]
    | cons popped rest =>
      simp only [revertLoop] at h ⊢
      cases hch : e.GetChildrenBySymbol popped with
      | error err =>
        rw [hch] at h
        exact ih _ k h
      | ok children =>
        rw [hch] at h
        exact ih _ k h

theorem acceptLoop_fuel_stable (e : Env) :
    ∀ (fuel : Nat) (b : Bfs) (k : Nat), (acceptLoop e fuel b).queue = [] →
      acceptLoop e (fuel + k) b = acceptLoop e fuel b := by
  intro fuel
  induction fuel with
  | zero =>
    intro b k h
    simp only [acceptLoop] at h
    cases k with
    | zero => rfl
    | succ k =>
      obtain ⟨st, q, v⟩ := b
      simp only at h
      subst h
      simp [acceptLoop]
  | succ n ih =>
    intro b k h
    obtain ⟨st, q, v⟩ := b
    have hk : n + 1 + k = (n + k) + 1 := by omega
    rw [hk]
    cases q with
    | nil => simp [acceptLoop]
    | cons popped rest =>
      simp only [acceptLoop] at h ⊢
      cases hch : e.GetChildrenBySymbol popped with
      | error err =>
        rw [hch] at h
        exact ih _ k h
      | ok children =>
        rw [hch] at h
        exact ih _ k h

theorem count_pops_le_one (s x : Symbol) (V : List Symbol) (hV : V.Nodup) (hx : x ≠ s) :
    (s :: V.reverse).countP (fun y => decide (y = x)) ≤ 1 := by
  have hsx : ¬ s = x := fun h => hx h.symm
  have h1 : (s :: V.reverse).countP (fun y => decide (y = x))
      = V.reverse.countP (fun y => decide (y = x)) := by
    simp [List.countP_cons, hsx]
  have h2 : V.reverse.countP (fun y => decide (y = x))
      = @List.count Symbol instBEqOfDecidableEq x V.reverse := by
    unfold List.count
    congr 1
  rw [h1, h2]
  exact List.nodup_iff_count_le_one.mp (List.nodup_reverse.mpr hV) x

theorem revert_traversal_terminates (e : Env) (hfin : FiniteGraph e) (st : Store) (s : Symbol)
    (fuel : Nat) (hfuel : e.symbols.length + 1 ≤ fuel) :
    (revertLoop e fuel ⟨st, [s], []⟩).queue = [] ∧
    revertLoop e fuel ⟨st, [s], []⟩ = revertLoop e (e.symbols.length + 1) ⟨st, [s], []⟩ ∧
    revertPops e fuel ⟨st, [s], []⟩ = s :: (revertLoop e fuel ⟨st, [s], []⟩).visited.reverse ∧
    (revertLoop e fuel ⟨st, [s], []⟩).visited.Nodup := by
  have hm : (Bfs.mk st [s] []).queue.length + unvisited e (Bfs.mk st [s] []).visited ≤ fuel := by
    have := unvisited_nil_le e
    simp only [List.length_singleton]
    omega
  obtain ⟨N, hv, hp⟩ := revertLoop_pops e hfin fuel ⟨st, [s], []⟩ hm
  refine ⟨revertLoop_queue_empty e hfin fuel _ hm, ?_, ?_,
    revertLoop_visited_nodup e fuel ⟨st, [s], []⟩ List.nodup_nil⟩
  · obtain ⟨k, hk⟩ := Nat.exists_eq_add_of_le hfuel
    rw [hk]
    exact revertLoop_fuel_stable e _ _ k (revertTransaction_fuel_suffices e hfin st s)
  · simp only [List.append_nil] at hv
    rw [hp, hv]
    rfl

theorem accept_traversal_terminates (e : Env) (hfin : FiniteGraph e) (st : Store) (s : Symbol)
    (fuel : Nat) (hfuel : e.symbols.length + 1 ≤ fuel) :
    (acceptLoop e fuel ⟨st, [s], []⟩).queue = [] ∧
    acceptLoop e fuel ⟨st, [s], []⟩ = acceptLoop e (e.symbols.length + 1) ⟨st, [s], []⟩ ∧
    acceptPops e fuel ⟨st, [s], []⟩ = s :: (acceptLoop e fuel ⟨st, [s], []⟩).visited.reverse ∧
    (acceptLoop e fuel ⟨st, [s], []⟩).visited.Nodup := by
  have hm : (Bfs.mk st [s] []).queue.length + unvisited e (Bfs.mk st [s] []).visited ≤ fuel := by
    have := unvisited_nil_le e
    simp only [List.length_singleton]
    omega
  obtain ⟨N, hv, hp⟩ := acceptLoop_pops e hfin fuel ⟨st, [s], []⟩ hm
  refine ⟨acceptLoop_queue_empty e hfin fuel _ hm, ?_, ?_,
    acceptLoop_visited_nodup e fuel ⟨st, [s], []⟩ List.nodup_nil⟩
  · obtain ⟨k, hk⟩ := Nat.exists_eq_add_of_le hfuel
    rw [hk]
    exact acceptLoop_fuel_stable e _ _ k (acceptTransaction_fuel_suffices e hfin st s)
  · simp only [List.append_nil] at hv
    rw [hp, hv]
    rfl

/-- C19. The traversals terminate on malformed input: in a finite graph, cycles included,
the loops of `revertTransaction(s)` and `acceptTransaction(s)` end with an empty queue
after at most `e.symbols.length + 1` pops, more fuel does not change their result, and the
symbols they pop are the start symbol followed by the symbols they enqueue, none of them
twice: every symbol other than the start symbol is popped, hence enqueued, at most
once. -/
theorem bfs_terminates (e : Env) (hfin : FiniteGraph e) (st : Store) (s : Symbol)
    (fuel : Nat) (hfuel : e.symbols.length + 1 ≤ fuel) :
    ((revertLoop e fuel ⟨st, [s], []⟩).queue = [] ∧
      revertLoop e fuel ⟨st, [s], []⟩ = revertLoop e (e.symbols.length + 1) ⟨st, [s], []⟩ ∧
      revertPops e fuel ⟨st, [s], []⟩
        = s :: (revertLoop e fuel ⟨st, [s], []⟩).visited.reverse ∧
      (revertLoop e fuel ⟨st, [s], []⟩).visited.Nodup ∧
      ∀ x, x ≠ s → (revertPops e fuel ⟨st, [s], []⟩).countP (fun y => decide (y = x)) ≤ 1) ∧
    ((acceptLoop e fuel ⟨st, [s], []⟩).queue = [] ∧
      acceptLoop e fuel ⟨st, [s], []⟩ = acceptLoop e (e.symbols.length + 1) ⟨st, [s], []⟩ ∧
      acceptPops e fuel ⟨st, [s], []⟩
        = s :: (acceptLoop e fuel ⟨st, [s], []⟩).visited.reverse ∧
      (acceptLoop e fuel ⟨st, [s], []⟩).visited.Nodup ∧
      ∀ x, x ≠ s → (acceptPops e fuel ⟨st, [s], []⟩).countP (fun y => decide (y = x)) ≤ 1) := by
  obtain ⟨r1, r2, r3, r4⟩ := revert_traversal_terminates e hfin st s fuel hfuel
  obtain ⟨a1, a2, a3, a4⟩ := accept_traversal_terminates e hfin st s fuel hfuel
  refine ⟨⟨r1, r2, r3, r4, ?_⟩, ⟨a1, a2, a3, a4, ?_⟩⟩
  · intro x hx
    rw [r3]
    exact count_pops_le_one s x _ r4 hx
  · intro x hx
    rw [a3]
    exact count_pops_le_one s x _ a4 hx

theorem cycleEnv_finite : FiniteGraph cycleEnv := by
  intro p cs h c hc
  simp only [cycleEnv] at h
  by_cases hA : p = symA
  · simp only [hA, if_true, Except.ok.injEq] at h
    subst h
    simp only [List.mem_singleton] at hc
    subst hc
    simp [cycleEnv]
  · by_cases hB : p = symB
    · subst hB
      have hBA : symB ≠ symA := by decide
      simp only [hBA, if_false, if_true, Except.ok.injEq] at h
      subst h
      simp only [List.mem_cons, List.mem_singleton, List.not_mem_nil, or_false] at hc
      rcases hc with hc | hc <;> subst hc <;> simp [cycleEnv]
    · simp [hA, hB] at h

/-- Witness of C19 on the cyclic graph `a → b → a`, `b → b`: from `symA` the traversals pop
`symA`, `symB` and `symA` again (the start symbol comes back once through the cycle), and
stop. -/
theorem bfs_terminates_witness :
    FiniteGraph cycleEnv ∧
    revertPops cycleEnv 3 ⟨sampleStore, [symA], []⟩ = [symA, symB, symA] ∧
    acceptPops cycleEnv 3 ⟨sampleStore, [symA], []⟩ = [symA, symB, symA] ∧
    (revertLoop cycleEnv 3 ⟨sampleStore, [symA], []⟩).queue = [] ∧
    (acceptLoop cycleEnv 3 ⟨sampleStore, [symA], []⟩).queue = [] ∧
    (revertPops cycleEnv 3 ⟨sampleStore, [symA], []⟩).countP (fun y => decide (y = symB)) ≤ 1 :=
  ⟨cycleEnv_finite, by decide, by decide,
    (bfs_terminates cycleEnv cycleEnv_finite sampleStore symA 3 (by decide)).1.1,
    (bfs_terminates cycleEnv cycleEnv_finite sampleStore symA 3 (by decide)).2.1,
    (bfs_terminates cycleEnv cycleEnv_finite sampleStore symA 3 (by decide)).1.2.2.2.2 symB
      (by decide)⟩

/-- Witness of C16: `symD` is pending but unknown to the sample graph, so its transaction
lookup fails. -/
theorem scan_swallows_lookup_errors_witness :
    sampleEnv.GetBySymbol symD = .error ⟨404⟩ ∧
    pendingCallback sampleEnv ⟨[(pendingKey symD, [0])], []⟩ symD
      = (⟨[(pendingKey symD, [0])], []⟩, none) ∧
    InPending (updatedAcceptedTransactions sampleEnv [(pendingKey symD, [0])]).store symD :=
  ⟨rfl,
    (scan_swallows_lookup_errors sampleEnv [(pendingKey symD, [0])]
      ⟨[(pendingKey symD, [0])], []⟩ [] [] symD (Or.inl ⟨⟨404⟩, rfl⟩)).1,
    (scan_swallows_lookup_errors sampleEnv [(pendingKey symD, [0])]
      ⟨[(pendingKey symD, [0])], []⟩ [] [] symD (Or.inl ⟨⟨404⟩, rfl⟩)).2.2.2.2 (by decide)⟩

/-! ## The tick loop -/

theorem tickLoopStep_kill (e : Env) (l : TickLoop) : tickLoopStep e l .kill = l := by
  unfold tickLoopStep
  split <;> rfl

theorem tickLoopStep_timerStopped (e : Env) (l : TickLoop) (c : SelectCase)
    (h : l.timerStopped = false) : (tickLoopStep e l c).timerStopped = false := by
  unfold tickLoopStep
  split
  · cases c with
    | kill => exact h
    | timer =>
      simp only
      split <;> exact h
  · exact h

theorem foldl_tickLoopStep_timerStopped (e : Env) (cases : List SelectCase) :
    ∀ l : TickLoop, l.timerStopped = false →
      (cases.foldl (tickLoopStep e) l).timerStopped = false := by
  induction cases with
  | nil => intro l h; exact h
  | cons c rest ih =>
    intro l h
    exact ih _ (tickLoopStep_timerStopped e l c h)

/-- The loop never reaches `timer.Stop()`, whatever cases its `select` statements take. -/
theorem UpdateAcceptedTransactions_never_stops_timer (e : Env) (st : Store)
    (cases : List SelectCase) :
    (UpdateAcceptedTransactions e st cases).timerStopped = false :=
  foldl_tickLoopStep_timerStopped e cases _ rfl

/-- A kill case anywhere in the run changes nothing: the run is the run without it. -/
theorem UpdateAcceptedTransactions_kill_ignored (e : Env) (st : Store)
    (before after : List SelectCase) :
    UpdateAcceptedTransactions e st (before ++ SelectCase.kill :: after)
      = UpdateAcceptedTransactions e st (before ++ after) := by
  unfold UpdateAcceptedTransactions
  rw [List.foldl_append, List.foldl_append, List.foldl_cons, tickLoopStep_kill]

/-- C18, evaluation of the code where the claim fails: on the sample ledger, after the
`select` took the kill case the loop is still running and `timer.Stop()` has not been
executed, and when the timer fires next an acceptance tick runs and changes the store. -/
theorem tick_loop_runs_after_kill :
    (UpdateAcceptedTransactions sampleEnv [] [SelectCase.kill]).inLoop = true ∧
    (UpdateAcceptedTransactions sampleEnv [] [SelectCase.kill]).timerStopped = false ∧
    (UpdateAcceptedTransactions sampleEnv [] [SelectCase.kill, SelectCase.timer]).ticks = 1 ∧
    WasAccepted
      (UpdateAcceptedTransactions sampleEnv [] [SelectCase.kill, SelectCase.timer]).store symA
        = true := by
  decide

/-! ## The bounded caches: representation invariant -/

theorem LRU.mapGet_some {K : Type} [DecidableEq K] (m : List (K × Nat)) (key : K) (p : Nat)
    (h : LRU.mapGet m key = some p) : (key, p) ∈ m := by
  induction m with
  | nil => simp [LRU.mapGet] at h
  | cons kv rest ih =>
    obtain ⟨k, q⟩ := kv
    by_cases hk : k = key
    · simp only [LRU.mapGet, hk, if_true, Option.some.injEq] at h
      subst h
      simp [hk]
    · simp only [LRU.mapGet, hk, if_false] at h
      exact List.mem_cons_of_mem _ (ih h)

theorem LRU.mapGet_none {K : Type} [DecidableEq K] (m : List (K × Nat)) (key : K)
    (h : LRU.mapGet m key = none) : ∀ kv ∈ m, kv.1 ≠ key := by
  induction m with
  | nil => intro kv hkv; simp at hkv
  | cons a rest ih =>
    obtain ⟨k, q⟩ := a
    by_cases hk : k = key
    · simp [LRU.mapGet, hk] at h
    · simp only [LRU.mapGet, hk, if_false] at h
      intro kv hkv
      rcases List.mem_cons.mp hkv with h1 | h1
      · rw [h1]; exact hk
      · exact ih h kv h1

theorem LRU.mapDelete_of_none {K : Type} [DecidableEq K] (m : List (K × Nat)) (key : K)
    (h : LRU.mapGet m key = none) : LRU.mapDelete m key = m := by
  unfold LRU.mapDelete
  rw [List.filter_eq_self]
  intro kv hkv
  simpa using LRU.mapGet_none m key h kv hkv

theorem LRU.deref_of_mem {K V : Type} (access : List (Element K V)) (p : Nat)
    (h : ∃ el ∈ access, el.ptr = p) :
    ∃ el, LRU.deref access p = some el ∧ el ∈ access ∧ el.ptr = p := by
  unfold LRU.deref
  cases hf : access.find? (fun el => el.ptr == p) with
  | none =>
    obtain ⟨el, hel, hp⟩ := h
    have := List.find?_eq_none.mp hf el hel
    simp [hp] at this
  | some el =>
    refine ⟨el, rfl, List.mem_of_find?_eq_some hf, ?_⟩
    have := List.find?_some hf
    simpa using this

theorem LRU.deref_some {K V : Type} (access : List (Element K V)) (p : Nat) (el : Element K V)
    (h : LRU.deref access p = some el) : el ∈ access ∧ el.ptr = p := by
  unfold LRU.deref at h
  refine ⟨List.mem_of_find?_eq_some h, ?_⟩
  have := List.find?_some h
  simpa using this

theorem LRU.perm_front {K V : Type} (access : List (Element K V)) (el : Element K V)
    (hnd : (access.map (fun x => x.ptr)).Nodup) (hel : el ∈ access) :
    access.Perm (el :: access.filter (fun x => decide (x.ptr ≠ el.ptr))) := by
  induction access with
  | nil => simp at hel
  | cons a rest ih =>
    simp only [List.map_cons, List.nodup_cons, List.mem_map, not_exists, not_and] at hnd
    obtain ⟨ha, hrest⟩ := hnd
    rcases List.mem_cons.mp hel with h | h
    · subst h
      have hfil : (el :: rest).filter (fun x => decide (x.ptr ≠ el.ptr)) = rest := by
        rw [List.filter_cons]
        simp only [ne_eq, not_true_eq_false, decide_False, Bool.false_eq_true, if_false]
        rw [List.filter_eq_self]
        intro x hx
        simpa using ha x hx
      rw [hfil]
    · have hne : a.ptr ≠ el.ptr := fun heq => ha el h heq.symm
      have hfil : (a :: rest).filter (fun x => decide (x.ptr ≠ el.ptr))
          = a :: rest.filter (fun x => decide (x.ptr ≠ el.ptr)) := by
        rw [List.filter_cons]
        simp [hne]
      rw [hfil]
      exact ((ih hrest h).cons a).trans (List.Perm.swap el a _)

theorem LRU.perm_MoveToFront {K V : Type} (access : List (Element K V)) (p : Nat)
    (hnd : (access.map (fun x => x.ptr)).Nodup) :
    (LRU.MoveToFront access p).Perm access := by
  unfold LRU.MoveToFront
  cases hd : LRU.deref access p with
  | none => exact List.Perm.refl _
  | some el =>
    obtain ⟨hel, hp⟩ := LRU.deref_some access p el hd
    subst hp
    exact (LRU.perm_front access el hnd hel).symm

theorem LRU.Inv_of_perm {K V : Type} (l : LRU K V) (access : List (Element K V))
    (hperm : access.Perm l.access) (h : l.Inv) : LRU.Inv { l with access := access } := by
  obtain ⟨h1, h2, h3, h4⟩ := h
  refine ⟨?_, ?_, ?_, ?_⟩
  · exact h1.trans (hperm.map _).symm
  · exact ((hperm.map _).nodup_iff).mpr h2
  · exact ((hperm.map _).nodup_iff).mpr h3
  · intro el hel
    exact h4 el (hperm.mem_iff.mp hel)

theorem LRU.Inv_New {K V : Type} (size : Int) : (LRU.New size : LRU K V).Inv := by
  refine ⟨?_, ?_, ?_, ?_⟩ <;> simp [LRU.New]

theorem LRU.setObj_map_pair {K V : Type} (access : List (Element K V)) (p : Nat) (val : V) :
    (LRU.setObj access p val).map (fun el => (el.key, el.ptr))
      = access.map (fun el => (el.key, el.ptr)) := by
  unfold LRU.setObj
  rw [List.map_map]
  apply List.map_congr_left
  intro el _
  simp only [Function.comp]
  split <;> rfl

theorem LRU.setObj_map_key {K V : Type} (access : List (Element K V)) (p : Nat) (val : V) :
    (LRU.setObj access p val).map (fun el => el.key) = access.map (fun el => el.key) := by
  unfold LRU.setObj
  rw [List.map_map]
  apply List.map_congr_left
  intro el _
  simp only [Function.comp]
  split <;> rfl

theorem LRU.setObj_map_ptr {K V : Type} (access : List (Element K V)) (p : Nat) (val : V) :
    (LRU.setObj access p val).map (fun el => el.ptr) = access.map (fun el => el.ptr) := by
  unfold LRU.setObj
  rw [List.map_map]
  apply List.map_congr_left
  intro el _
  simp only [Function.comp]
  split <;> rfl

theorem LRU.Inv_setObj {K V : Type} (l : LRU K V) (p : Nat) (val : V) (h : l.Inv) :
    LRU.Inv { l with access := LRU.setObj l.access p val } := by
  obtain ⟨h1, h2, h3, h4⟩ := h
  refine ⟨?_, ?_, ?_, ?_⟩
  · simp only
    rw [LRU.setObj_map_pair]
    exact h1
  · simp only
    rw [LRU.setObj_map_key]
    exact h2
  · simp only
    rw [LRU.setObj_map_ptr]
    exact h3
  · intro el hel
    simp only [LRU.setObj, List.mem_map] at hel
    obtain ⟨el0, hel0, heq⟩ := hel
    have := h4 el0 hel0
    split at heq <;> (rw [← heq]; exact this)

theorem LRU.filter_pairs_back {K V : Type} [DecidableEq K] (back : Element K V)
    (rest : List (Element K V))
    (hnd : ((back :: rest).map (fun el => el.key)).Nodup) :
    ((back :: rest).map (fun el => (el.key, el.ptr))).filter
        (fun kv => decide (kv.1 ≠ back.key))
      = rest.map (fun el => (el.key, el.ptr)) := by
  simp only [List.map_cons, List.nodup_cons, List.mem_map, not_exists, not_and] at hnd
  rw [List.map_cons, List.filter_cons]
  simp only [ne_eq, not_true_eq_false, decide_False, Bool.false_eq_true, if_false]
  rw [List.filter_eq_self]
  intro kv hkv
  simp only [List.mem_map] at hkv
  obtain ⟨el, hel, heq⟩ := hkv
  rw [← heq]
  simpa using hnd.1 el hel

/-- The eviction loop with a non-negative bound: it ends without failure, removes elements
from the back only, keeps the key map in step with the list and leaves at most `size`
keys. -/
theorem LRU.evictLoop_ok {K V : Type} [DecidableEq K] (size : Int) (hsize : 0 ≤ size) :
    ∀ (ra : List (Element K V)) (m : List (K × Nat)),
      m.Perm (ra.map (fun el => (el.key, el.ptr))) →
      (ra.map (fun el => el.key)).Nodup →
      ∃ m2 ra2, LRU.evictLoop size m ra = .ok (m2, ra2) ∧
        m2.Perm (ra2.map (fun el => (el.key, el.ptr))) ∧
        (∃ dropped, ra = dropped ++ ra2) ∧ (m2.length : Int) ≤ size := by
  intro ra
  induction ra with
  | nil =>
    intro m hperm _
    have hm : m = [] := List.Perm.eq_nil hperm
    subst hm
    refine ⟨[], [], ?_, List.Perm.refl _, ⟨[], rfl⟩, by simpa using hsize⟩
    have : ¬ ((([] : List (K × Nat)).length : Int) > size) := by simpa using hsize
    simp only [LRU.evictLoop, this, if_false]
  | cons back rest ih =>
    intro m hperm hnd
    by_cases hlen : (m.length : Int) > size
    · have hperm2 : (LRU.mapDelete m back.key).Perm (rest.map (fun el => (el.key, el.ptr))) := by
        have h1 := hperm.filter (fun kv => decide (kv.1 ≠ back.key))
        rw [LRU.filter_pairs_back back rest hnd] at h1
        exact h1
      have hnd2 : (rest.map (fun el => el.key)).Nodup := by
        simp only [List.map_cons, List.nodup_cons] at hnd
        exact hnd.2
      obtain ⟨m2, ra2, hev, hp, ⟨dropped, hd⟩, hl⟩ := ih _ hperm2 hnd2
      refine ⟨m2, ra2, ?_, hp, ⟨back :: dropped, by rw [hd]; rfl⟩, hl⟩
      simp only [LRU.evictLoop, hlen, if_true]
      exact hev
    · refine ⟨m, back :: rest, ?_, hperm, ⟨[], rfl⟩, by omega⟩
      simp only [LRU.evictLoop, hlen, if_false]

theorem LRU.not_mem_keys_of_mapGet_none {K V : Type} [DecidableEq K] (l : LRU K V) (key : K)
    (h : l.Inv) (hget : LRU.mapGet l.elements key = none) :
    key ∉ l.access.map (fun el => el.key) := by
  intro hmem
  simp only [List.mem_map] at hmem
  obtain ⟨el, hel, hk⟩ := hmem
  have hpair : (el.key, el.ptr) ∈ l.elements := by
    rw [h.1.mem_iff]
    exact List.mem_map.mpr ⟨el, hel, rfl⟩
  exact LRU.mapGet_none l.elements key hget _ hpair hk

/-- Inserting an absent key into a cache with a non-negative bound succeeds, keeps the
invariant and leaves at most `size` keys. -/
theorem LRU.insertAndEvict_ok {K V : Type} [DecidableEq K] (l : LRU K V) (key : K) (val : V)
    (hsize : 0 ≤ l.size) (h : l.Inv) (hget : LRU.mapGet l.elements key = none) :
    ∃ l2, LRU.insertAndEvict l key val = .ok l2 ∧ l2.Inv ∧ l2.size = l.size ∧
      (l2.elements.length : Int) ≤ l2.size := by
  obtain ⟨h1, h2, h3, h4⟩ := h
  have hkey := LRU.not_mem_keys_of_mapGet_none l key ⟨h1, h2, h3, h4⟩ hget
  have hptr : l.nextPtr ∉ l.access.map (fun el => el.ptr) := by
    intro hmem
    simp only [List.mem_map] at hmem
    obtain ⟨el, hel, hp⟩ := hmem
    have := h4 el hel
    omega
  have hperm0 : (LRU.mapSet l.elements key l.nextPtr).Perm
      (((⟨l.nextPtr, key, val⟩ : Element K V) :: l.access).reverse.map
        (fun el => (el.key, el.ptr))) := by
    unfold LRU.mapSet
    rw [LRU.mapDelete_of_none l.elements key hget, List.map_reverse]
    exact (h1.cons (key, l.nextPtr)).trans (List.reverse_perm _).symm
  have hnd0 : (((⟨l.nextPtr, key, val⟩ : Element K V) :: l.access).reverse.map
      (fun el => el.key)).Nodup := by
    rw [List.map_reverse, List.nodup_reverse, List.map_cons, List.nodup_cons]
    exact ⟨hkey, h2⟩
  obtain ⟨m2, ra2, hev, hp, ⟨dropped, hd⟩, hl⟩ :=
    LRU.evictLoop_ok l.size hsize _ _ hperm0 hnd0
  have hacc : (⟨l.nextPtr, key, val⟩ : Element K V) :: l.access
      = ra2.reverse ++ dropped.reverse := by
    have := congrArg List.reverse hd
    rw [List.reverse_reverse, List.reverse_append] at this
    exact this
  have hsub : ra2.reverse.Sublist ((⟨l.nextPtr, key, val⟩ : Element K V) :: l.access) := by
    rw [hacc]
    exact List.sublist_append_left _ _
  refine ⟨⟨l.size, m2, ra2.reverse, l.nextPtr + 1⟩, ?_, ⟨?_, ?_, ?_, ?_⟩, rfl, hl⟩
  · simp only [LRU.insertAndEvict, hev]
  · simp only
    rw [List.map_reverse]
    exact hp.trans (List.reverse_perm _).symm
  · simp only
    have hnd : (((⟨l.nextPtr, key, val⟩ : Element K V) :: l.access).map
        (fun el => el.key)).Nodup := by
      rw [List.map_cons, List.nodup_cons]
      exact ⟨hkey, h2⟩
    exact hnd.sublist (hsub.map _)
  · simp only
    have hnd : (((⟨l.nextPtr, key, val⟩ : Element K V) :: l.access).map
        (fun el => el.ptr)).Nodup := by
      rw [List.map_cons, List.nodup_cons]
      exact ⟨hptr, h3⟩
    exact hnd.sublist (hsub.map _)
  · intro el hel
    simp only at hel ⊢
    have hmem := hsub.subset hel
    rcases List.mem_cons.mp hmem with h5 | h5
    · rw [h5]
      simp
    · have := h4 el h5
      omega

theorem LRU.Remove_Inv {K V : Type} [DecidableEq K] (l : LRU K V) (key : K) (h : l.Inv) :
    (LRU.Remove l key).Inv ∧ (LRU.Remove l key).size = l.size ∧
      (LRU.Remove l key).elements.length ≤ l.elements.length := by
  unfold LRU.Remove
  cases hget : LRU.mapGet l.elements key with
  | none => exact ⟨h, rfl, le_refl _⟩
  | some p =>
    obtain ⟨h1, h2, h3, h4⟩ := h
    have hpair : (key, p) ∈ l.access.map (fun el => (el.key, el.ptr)) := by
      rw [← h1.mem_iff]
      exact LRU.mapGet_some l.elements key p hget
    simp only [List.mem_map, Prod.mk.injEq] at hpair
    obtain ⟨el, hel, hk, hp⟩ := hpair
    have hfil : l.access.filter (fun x => decide (x.key ≠ key)) = LRU.listRemove l.access p := by
      unfold LRU.listRemove
      apply List.filter_congr
      intro x hx
      have hiff : x.key = key ↔ x.ptr = p := by
        constructor
        · intro hxk
          have : x = el := List.inj_on_of_nodup_map h2 hx hel (hxk.trans hk.symm)
          rw [this]; exact hp
        · intro hxp
          have : x = el := List.inj_on_of_nodup_map h3 hx hel (hxp.trans hp.symm)
          rw [this]; exact hk
      by_cases hxk : x.key = key
      · simp [hxk, hiff.mp hxk]
      · have : ¬ x.ptr = p := fun hh => hxk (hiff.mpr hh)
        simp [hxk, this]
    refine ⟨⟨?_, ?_, ?_, ?_⟩, rfl, ?_⟩
    · simp only
      have h5 := h1.filter (fun kv => decide (kv.1 ≠ key))
      rw [List.filter_map] at h5
      have h6 : l.access.filter ((fun kv : K × Nat => decide (kv.1 ≠ key)) ∘
          (fun el : Element K V => (el.key, el.ptr)))
          = l.access.filter (fun x => decide (x.key ≠ key)) := rfl
      rw [h6, hfil] at h5
      exact h5
    · exact h2.sublist ((List.filter_sublist _).map _)
    · exact h3.sublist ((List.filter_sublist _).map _)
    · intro x hx
      exact h4 x (List.mem_of_mem_filter hx)
    · exact List.length_filter_le _ _

theorem LRU.deref_of_mapGet {K V : Type} [DecidableEq K] (l : LRU K V) (key : K) (p : Nat)
    (h : l.Inv) (hget : LRU.mapGet l.elements key = some p) :
    ∃ el, LRU.deref l.access p = some el ∧ el ∈ l.access ∧ el.ptr = p := by
  have hpair : (key, p) ∈ l.access.map (fun el => (el.key, el.ptr)) := by
    rw [← h.1.mem_iff]
    exact LRU.mapGet_some l.elements key p hget
  simp only [List.mem_map, Prod.mk.injEq] at hpair
  obtain ⟨el, hel, _, hp⟩ := hpair
  exact LRU.deref_of_mem l.access p ⟨el, hel, hp⟩

theorem LRU.Inv_MoveToFront {K V : Type} (l : LRU K V) (p : Nat) (h : l.Inv) :
    LRU.Inv { l with access := LRU.MoveToFront l.access p } :=
  LRU.Inv_of_perm l _ (LRU.perm_MoveToFront l.access p h.2.2.1) h

/-- One call on a cache with a non-negative bound that satisfies the invariant and holds at
most `size` keys: the call succeeds and leaves such a cache. -/
theorem LRU.step_ok {K V : Type} [DecidableEq K] (l : LRU K V) (op : CacheOp K V)
    (hsize : 0 ≤ l.size) (h : l.Inv) (hlen : (l.elements.length : Int) ≤ l.size) :
    ∃ l2, LRU.step l op = .ok l2 ∧ l2.Inv ∧ l2.size = l.size ∧
      (l2.elements.length : Int) ≤ l2.size := by
  cases op with
  | load key =>
    cases hget : LRU.mapGet l.elements key with
    | none =>
      refine ⟨l, ?_, h, rfl, hlen⟩
      simp only [LRU.step, LRU.Load, hget]
    | some p =>
      obtain ⟨el, hd, _, _⟩ := LRU.deref_of_mapGet l key p h hget
      refine ⟨{ l with access := LRU.MoveToFront l.access p }, ?_,
        LRU.Inv_MoveToFront l p h, rfl, hlen⟩
      simp only [LRU.step, LRU.Load, hget, hd]
  | loadOrPut key val =>
    cases hget : LRU.mapGet l.elements key with
    | none =>
      obtain ⟨l2, hins, hinv, hsz, hl⟩ := LRU.insertAndEvict_ok l key val hsize h hget
      refine ⟨l2, ?_, hinv, hsz, hl⟩
      simp only [LRU.step, LRU.LoadOrPut, hget, hins]
    | some p =>
      obtain ⟨el, hd, _, _⟩ := LRU.deref_of_mapGet l key p h hget
      refine ⟨{ l with access := LRU.MoveToFront l.access p }, ?_,
        LRU.Inv_MoveToFront l p h, rfl, hlen⟩
      simp only [LRU.step, LRU.LoadOrPut, hget, hd]
  | put key val =>
    cases hget : LRU.mapGet l.elements key with
    | none =>
      obtain ⟨l2, hins, hinv, hsz, hl⟩ := LRU.insertAndEvict_ok l key val hsize h hget
      refine ⟨l2, ?_, hinv, hsz, hl⟩
      simp only [LRU.step, LRU.Put, hget, hins]
    | some p =>
      obtain ⟨el, hd, _, _⟩ := LRU.deref_of_mapGet l key p h hget
      refine ⟨{ l with access := LRU.MoveToFront (LRU.setObj l.access p val) p }, ?_,
        LRU.Inv_MoveToFront { l with access := LRU.setObj l.access p val } p
          (LRU.Inv_setObj l p val h), rfl, hlen⟩
      simp only [LRU.step, LRU.Put, hget, hd]
  | remove key =>
    obtain ⟨hinv, hsz, hl⟩ := LRU.Remove_Inv l key h
    refine ⟨LRU.Remove l key, rfl, hinv, hsz, ?_⟩
    rw [hsz]
    omega

/-- Any sequence of calls on such a cache succeeds and leaves such a cache. -/
theorem LRU.run_ok {K V : Type} [DecidableEq K] (ops : List (CacheOp K V)) :
    ∀ (l : LRU K V), 0 ≤ l.size → l.Inv → (l.elements.length : Int) ≤ l.size →
      ∃ l2, LRU.run l ops = .ok l2 ∧ l2.Inv ∧ l2.size = l.size ∧
        (l2.elements.length : Int) ≤ l2.size := by
  induction ops with
  | nil => intro l _ h hlen; exact ⟨l, rfl, h, rfl, hlen⟩
  | cons op rest ih =>
    intro l hsize h hlen
    obtain ⟨l1, hstep, hinv1, hsz1, hl1⟩ := LRU.step_ok l op hsize h hlen
    obtain ⟨l2, hrun, hinv2, hsz2, hl2⟩ := ih l1 (by rw [hsz1]; exact hsize) hinv1 hl1
    refine ⟨l2, ?_, hinv2, hsz2.trans hsz1, hl2⟩
    simp only [LRU.run, hstep]
    exact hrun

theorem LRU.Inv_length {K V : Type} (l : LRU K V) (h : l.Inv) :
    l.access.length = l.elements.length := by
  have := h.1.length_eq
  rw [List.length_map] at this
  exact this.symm

theorem LRU.run_New_bound {K V : Type} [DecidableEq K] (size : Int) (hsize : 0 ≤ size)
    (ops : List (CacheOp K V)) :
    ∃ l, LRU.run (LRU.New size : LRU K V) ops = .ok l ∧
      (l.elements.length : Int) ≤ size ∧ (l.access.length : Int) ≤ size := by
  obtain ⟨l, hrun, hinv, hsz, hl⟩ := LRU.run_ok ops (LRU.New size : LRU K V) hsize
    (LRU.Inv_New size) (by simpa [LRU.New] using hsize)
  have hsz2 : l.size = size := hsz
  rw [hsz2] at hl
  refine ⟨l, hrun, hl, ?_⟩
  rw [LRU.Inv_length l hinv]
  exact hl

/-- C20, counterexample to the claim as stated: a state cache created with size -1 holds 0
entries after a `Load`, which is more than its size; and a `Put` on it fails in the
eviction loop. -/
theorem lru_negative_size_exceeds_bound :
    LRU.run (NewStateLRU (-1)) [CacheOp.load 7] = .ok (NewStateLRU (-1)) ∧
    ¬ (((NewStateLRU (-1)).elements.length : Int) ≤ -1) ∧
    ¬ (((NewStateLRU (-1)).access.length : Int) ≤ -1) ∧
    LRU.run (NewStateLRU (-1)) [CacheOp.put 7 1] = .error Fault.nilPointer :=
  ⟨rfl, by decide, by decide, rfl⟩

/-- C20, as amended. LRU size bound: for every cache created by `NewStateLRU(size)` or
`NewVMLRU(size)` with a non-negative size and every finite sequence of `Load`, `LoadOrPut`,
`Put` and `Remove` calls, every call completes and the key map and the access list both
hold at most `size` entries afterwards (the sequence being arbitrary, this holds after
every call of it). -/
theorem lru_size_bound (size : Int) (hsize : 0 ≤ size) :
    (∀ ops : List (CacheOp Nat Nat), ∃ l, LRU.run (NewStateLRU size) ops = .ok l ∧
      (l.elements.length : Int) ≤ size ∧ (l.access.length : Int) ≤ size) ∧
    (∀ ops : List (CacheOp Bytes Nat), ∃ l, LRU.run (NewVMLRU size) ops = .ok l ∧
      (l.elements.length : Int) ≤ size ∧ (l.access.length : Int) ≤ size) :=
  ⟨fun ops => LRU.run_New_bound size hsize ops, fun ops => LRU.run_New_bound size hsize ops⟩

/-- Witness of C20 as amended: a state cache of size 2 after `Put(1)`, `Put(2)`, `Load(1)`,
`Put(3)` holds the keys 3 and 1. -/
theorem lru_size_bound_witness :
    (0 : Int) ≤ 2 ∧
    LRU.run (NewStateLRU 2)
        [CacheOp.put 1 10, CacheOp.put 2 20, CacheOp.load 1, CacheOp.put 3 30]
      = .ok ⟨2, [(3, 2), (1, 0)], [⟨2, 3, 30⟩, ⟨0, 1, 10⟩], 3⟩ ∧
    ∃ l, LRU.run (NewStateLRU 2)
        [CacheOp.put 1 10, CacheOp.put 2 20, CacheOp.load 1, CacheOp.put 3 30] = .ok l ∧
      (l.elements.length : Int) ≤ 2 ∧ (l.access.length : Int) ≤ 2 :=
  ⟨by decide, rfl,
    (lru_size_bound 2 (by decide)).1
      [CacheOp.put 1 10, CacheOp.put 2 20, CacheOp.load 1, CacheOp.put 3 30]⟩

/-! ## The bounded caches: what each call does -/

theorem LRU.filter_ptr_eq_filter_key {K V : Type} [DecidableEq K] (access : List (Element K V))
    (el : Element K V) (hk : (access.map (fun x => x.key)).Nodup)
    (hp : (access.map (fun x => x.ptr)).Nodup) (hel : el ∈ access) :
    access.filter (fun x => decide (x.ptr ≠ el.ptr))
      = access.filter (fun x => decide (x.key ≠ el.key)) := by
  apply List.filter_congr
  intro x hx
  have hiff : x.key = el.key ↔ x.ptr = el.ptr := by
    constructor
    · intro hxk
      rw [List.inj_on_of_nodup_map hk hx hel hxk]
    · intro hxp
      rw [List.inj_on_of_nodup_map hp hx hel hxp]
  by_cases hxk : x.key = el.key
  · simp [hxk, hiff.mp hxk]
  · have : ¬ x.ptr = el.ptr := fun hh => hxk (hiff.mpr hh)
    simp [hxk, this]

/-- A key of the map of a cache has its element in the access list. -/
theorem LRU.present {K V : Type} [DecidableEq K] (l : LRU K V) (key : K) (p : Nat)
    (h : l.Inv) (hget : LRU.mapGet l.elements key = some p) :
    ∃ el, LRU.deref l.access p = some el ∧ el ∈ l.access ∧ el.key = key ∧ el.ptr = p := by
  have hpair : (key, p) ∈ l.access.map (fun el => (el.key, el.ptr)) := by
    rw [← h.1.mem_iff]
    exact LRU.mapGet_some l.elements key p hget
  simp only [List.mem_map, Prod.mk.injEq] at hpair
  obtain ⟨el, hel, hk, hp⟩ := hpair
  obtain ⟨el2, hd, hel2, hp2⟩ := LRU.deref_of_mem l.access p ⟨el, hel, hp⟩
  have heq : el2 = el := List.inj_on_of_nodup_map h.2.2.1 hel2 hel (hp2.trans hp.symm)
  subst heq
  exact ⟨el2, hd, hel2, hk, hp2⟩

theorem LRU.MoveToFront_present {K V : Type} [DecidableEq K] (l : LRU K V) (p : Nat)
    (el : Element K V) (h : l.Inv) (hd : LRU.deref l.access p = some el) :
    LRU.MoveToFront l.access p
      = el :: l.access.filter (fun x => decide (x.key ≠ el.key)) := by
  obtain ⟨hel, hp⟩ := LRU.deref_some l.access p el hd
  unfold LRU.MoveToFront
  rw [hd]
  simp only
  rw [← hp, LRU.filter_ptr_eq_filter_key l.access el h.2.1 h.2.2.1 hel]

theorem LRU.elements_nodup {K V : Type} (l : LRU K V) (h : l.Inv) :
    (l.elements.map (fun kv => kv.1)).Nodup := by
  have hperm := h.1.map (fun kv : K × Nat => kv.1)
  rw [List.map_map] at hperm
  exact (hperm.nodup_iff).mpr h.2.1

theorem LRU.mapGet_of_mem {K : Type} [DecidableEq K] (m : List (K × Nat)) (key : K) (p : Nat)
    (hnd : (m.map (fun kv => kv.1)).Nodup) (hmem : (key, p) ∈ m) :
    LRU.mapGet m key = some p := by
  induction m with
  | nil => simp at hmem
  | cons kv rest ih =>
    obtain ⟨k, q⟩ := kv
    simp only [List.map_cons, List.nodup_cons, List.mem_map, not_exists, not_and] at hnd
    rcases List.mem_cons.mp hmem with h | h
    · simp only [Prod.mk.injEq] at h
      simp [LRU.mapGet, h.1, h.2]
    · have hne : ¬ k = key := by
        intro hk
        exact hnd.1 (key, p) h hk.symm
      simp only [LRU.mapGet, hne, if_false]
      exact ih hnd.2 h

theorem LRU.mapGet_mapDelete_self {K : Type} [DecidableEq K] (m : List (K × Nat)) (key : K) :
    LRU.mapGet (LRU.mapDelete m key) key = none := by
  induction m with
  | nil => rfl
  | cons kv rest ih =>
    obtain ⟨k, q⟩ := kv
    by_cases hk : k = key
    · have : LRU.mapDelete ((k, q) :: rest) key = LRU.mapDelete rest key := by
        simp [LRU.mapDelete, hk]
      rw [this]
      exact ih
    · have : LRU.mapDelete ((k, q) :: rest) key = (k, q) :: LRU.mapDelete rest key := by
        simp [LRU.mapDelete, hk]
      rw [this]
      simp only [LRU.mapGet, hk, if_false]
      exact ih

theorem LRU.valueOf_of_mem {K V : Type} [DecidableEq K] (l : LRU K V) (el : Element K V)
    (hk : (l.access.map (fun x => x.key)).Nodup) (hel : el ∈ l.access) :
    LRU.valueOf l el.key = some el.obj := by
  unfold LRU.valueOf
  cases hf : l.access.find? (fun x => decide (x.key = el.key)) with
  | none =>
    have := List.find?_eq_none.mp hf el hel
    simp at this
  | some el2 =>
    have hmem := List.mem_of_find?_eq_some hf
    have hkey : el2.key = el.key := by simpa using List.find?_some hf
    have heq : el2 = el := List.inj_on_of_nodup_map hk hmem hel hkey
    rw [heq]
    rfl

theorem LRU.valueOf_none {K V : Type} [DecidableEq K] (l : LRU K V) (key : K) (h : l.Inv)
    (hget : LRU.mapGet l.elements key = none) : LRU.valueOf l key = none := by
  unfold LRU.valueOf
  cases hf : l.access.find? (fun x => decide (x.key = key)) with
  | none => rfl
  | some el =>
    have hmem := List.mem_of_find?_eq_some hf
    have hkey : el.key = key := by simpa using List.find?_some hf
    exact absurd (List.mem_map.mpr ⟨el, hmem, hkey⟩)
      (LRU.not_mem_keys_of_mapGet_none l key h hget)

/-- `Load` of a present key: the stored value, a hit, and the element moved to the front of
an otherwise unchanged list. -/
theorem LRU.Load_present {K V : Type} [DecidableEq K] (l : LRU K V) (key : K) (p : Nat)
    (h : l.Inv) (hget : LRU.mapGet l.elements key = some p) :
    ∃ el, el ∈ l.access ∧ el.key = key ∧ el.ptr = p ∧
      LRU.Load l key
        = .ok (⟨l.size, l.elements, el :: l.access.filter (fun x => decide (x.key ≠ key)),
            l.nextPtr⟩, some el.obj, true) := by
  obtain ⟨el, hd, hel, hk, hp⟩ := LRU.present l key p h hget
  refine ⟨el, hel, hk, hp, ?_⟩
  simp only [LRU.Load, hget, hd]
  rw [LRU.MoveToFront_present l p el h hd, hk]

/-- `LoadOrPut` of a present key: the stored value, `true`, and the element moved to the front
of an otherwise unchanged list. -/
theorem LRU.LoadOrPut_present {K V : Type} [DecidableEq K] (l : LRU K V) (key : K) (val : V)
    (p : Nat) (h : l.Inv) (hget : LRU.mapGet l.elements key = some p) :
    ∃ el, el ∈ l.access ∧ el.key = key ∧ el.ptr = p ∧
      LRU.LoadOrPut l key val
        = .ok (⟨l.size, l.elements, el :: l.access.filter (fun x => decide (x.key ≠ key)),
            l.nextPtr⟩, el.obj, true) := by
  obtain ⟨el, hd, hel, hk, hp⟩ := LRU.present l key p h hget
  refine ⟨el, hel, hk, hp, ?_⟩
  simp only [LRU.LoadOrPut, hget, hd]
  rw [LRU.MoveToFront_present l p el h hd, hk]

theorem LRU.deref_setObj {K V : Type} (access : List (Element K V)) (p : Nat) (val : V)
    (el : Element K V) (hd : LRU.deref access p = some el) :
    LRU.deref (LRU.setObj access p val) p = some ⟨el.ptr, el.key, val⟩ := by
  have hp := (LRU.deref_some access p el hd).2
  unfold LRU.deref at hd ⊢
  unfold LRU.setObj
  rw [List.find?_map]
  have hcomp : ((fun x : Element K V => x.ptr == p) ∘
      (fun x : Element K V => if x.ptr = p then { x with obj := val } else x))
      = (fun x : Element K V => x.ptr == p) := by
    funext x
    simp only [Function.comp]
    split <;> rfl
  rw [hcomp, hd]
  simp [hp]

theorem LRU.setObj_filter {K V : Type} [DecidableEq K] (l : LRU K V) (p : Nat) (val : V)
    (el : Element K V) (h : l.Inv) (hel : el ∈ l.access) (hp : el.ptr = p) :
    (LRU.setObj l.access p val).filter (fun x => decide (x.key ≠ el.key))
      = l.access.filter (fun x => decide (x.key ≠ el.key)) := by
  unfold LRU.setObj
  rw [List.filter_map]
  have hcomp : ((fun x : Element K V => decide (x.key ≠ el.key)) ∘
      (fun x : Element K V => if x.ptr = p then { x with obj := val } else x))
      = (fun x : Element K V => decide (x.key ≠ el.key)) := by
    funext x
    simp only [Function.comp]
    split <;> rfl
  rw [hcomp]
  have hid : ∀ x ∈ l.access.filter (fun x => decide (x.key ≠ el.key)),
      (if x.ptr = p then { x with obj := val } else x) = x := by
    intro x hx
    have hxmem := List.mem_of_mem_filter hx
    have hxk : x.key ≠ el.key := by simpa using (List.mem_filter.mp hx).2
    have hxp : ¬ x.ptr = p := by
      intro hh
      exact hxk (by rw [List.inj_on_of_nodup_map h.2.2.1 hxmem hel (hh.trans hp.symm)])
    simp [hxp]
  calc List.map (fun x : Element K V => if x.ptr = p then { x with obj := val } else x)
        (l.access.filter (fun x => decide (x.key ≠ el.key)))
      = List.map id (l.access.filter (fun x => decide (x.key ≠ el.key))) :=
        List.map_congr_left hid
    _ = l.access.filter (fun x => decide (x.key ≠ el.key)) := List.map_id _

/-- `Put` of a present key: its element carries the new value and is moved to the front of
an otherwise unchanged list; the key map is unchanged. -/
theorem LRU.Put_present {K V : Type} [DecidableEq K] (l : LRU K V) (key : K) (val : V)
    (p : Nat) (h : l.Inv) (hget : LRU.mapGet l.elements key = some p) :
    LRU.Put l key val
      = .ok ⟨l.size, l.elements,
          ⟨p, key, val⟩ :: l.access.filter (fun x => decide (x.key ≠ key)), l.nextPtr⟩ := by
  obtain ⟨el, hd, hel, hk, hp⟩ := LRU.present l key p h hget
  have hd2 := LRU.deref_setObj l.access p val el hd
  have hinv2 := LRU.Inv_setObj l p val h
  have hmove := LRU.MoveToFront_present { l with access := LRU.setObj l.access p val } p
    ⟨el.ptr, el.key, val⟩ hinv2 hd2
  simp only at hmove
  rw [LRU.setObj_filter l p val el h hel hp] at hmove
  simp only [LRU.Put, hget, hd]
  rw [hmove, hk, hp]

theorem LRU.evictLoop_negative {K V : Type} [DecidableEq K] (size : Int) (hsize : size < 0) :
    ∀ (ra : List (Element K V)) (m : List (K × Nat)),
      LRU.evictLoop size m ra = .error Fault.nilPointer := by
  intro ra
  induction ra with
  | nil =>
    intro m
    have : (m.length : Int) > size := by omega
    simp only [LRU.evictLoop, this, if_true]
  | cons back rest ih =>
    intro m
    have : (m.length : Int) > size := by omega
    simp only [LRU.evictLoop, this, if_true]
    exact ih _

/-- On a cache with a negative size the insertion of a key fails: the eviction loop
empties the list and then reads the back of the empty list. -/
theorem LRU.insertAndEvict_negative {K V : Type} [DecidableEq K] (l : LRU K V) (key : K)
    (val : V) (hsize : l.size < 0) :
    LRU.insertAndEvict l key val = .error Fault.nilPointer := by
  simp only [LRU.insertAndEvict, LRU.evictLoop_negative l.size hsize]

theorem LRU.take_length_sub {α : Type} (l : List α) (n : Nat) :
    l.take (l.length - (l.length - n)) = l.take n := by
  rw [List.take_eq_take]
  omega

/-- The eviction loop with a non-negative bound keeps the `size` elements nearest to the
front (it drops the others from the back). -/
theorem LRU.evictLoop_take {K V : Type} [DecidableEq K] (size : Int) (hsize : 0 ≤ size) :
    ∀ (ra : List (Element K V)) (m : List (K × Nat)),
      m.Perm (ra.map (fun el => (el.key, el.ptr))) →
      (ra.map (fun el => el.key)).Nodup →
      ∃ m2, LRU.evictLoop size m ra = .ok (m2, ra.drop (ra.length - size.toNat)) := by
  intro ra
  induction ra with
  | nil =>
    intro m hperm _
    have hm : m = [] := List.Perm.eq_nil hperm
    subst hm
    have : ¬ ((([] : List (K × Nat)).length : Int) > size) := by simpa using hsize
    exact ⟨[], by simp only [LRU.evictLoop, this, if_false, List.drop_nil]⟩
  | cons back rest ih =>
    intro m hperm hnd
    have hlenm : m.length = rest.length + 1 := by
      have := hperm.length_eq
      simpa using this
    by_cases hlen : (m.length : Int) > size
    · have hperm2 : (LRU.mapDelete m back.key).Perm (rest.map (fun el => (el.key, el.ptr))) := by
        have h1 := hperm.filter (fun kv => decide (kv.1 ≠ back.key))
        rw [LRU.filter_pairs_back back rest hnd] at h1
        exact h1
      have hnd2 : (rest.map (fun el => el.key)).Nodup := by
        simp only [List.map_cons, List.nodup_cons] at hnd
        exact hnd.2
      obtain ⟨m2, hev⟩ := ih _ hperm2 hnd2
      refine ⟨m2, ?_⟩
      simp only [LRU.evictLoop, hlen, if_true]
      rw [hev]
      have hn : (back :: rest).length - size.toNat = (rest.length - size.toNat) + 1 := by
        simp only [List.length_cons]
        omega
      rw [hn, List.drop_succ_cons]
    · refine ⟨m, ?_⟩
      simp only [LRU.evictLoop, hlen, if_false]
      have hn : (back :: rest).length - size.toNat = 0 := by
        simp only [List.length_cons]
        omega
      rw [hn, List.drop_zero]

/-- Inserting an absent key into a cache with a non-negative size: the new element is at the
front and the list is cut to its `size` front elements; the invariant and the bound hold
afterwards. -/
theorem LRU.insertAndEvict_take {K V : Type} [DecidableEq K] (l : LRU K V) (key : K) (val : V)
    (hsize : 0 ≤ l.size) (h : l.Inv) (hget : LRU.mapGet l.elements key = none) :
    ∃ m2, LRU.insertAndEvict l key val
        = .ok ⟨l.size, m2, (⟨l.nextPtr, key, val⟩ :: l.access).take l.size.toNat,
            l.nextPtr + 1⟩ ∧
      LRU.Inv ⟨l.size, m2, (⟨l.nextPtr, key, val⟩ :: l.access).take l.size.toNat,
        l.nextPtr + 1⟩ ∧
      (m2.length : Int) ≤ l.size := by
  obtain ⟨l2, hins, hinv, hsz, hlen⟩ := LRU.insertAndEvict_ok l key val hsize h hget
  have hkey := LRU.not_mem_keys_of_mapGet_none l key h hget
  have hperm0 : (LRU.mapSet l.elements key l.nextPtr).Perm
      (((⟨l.nextPtr, key, val⟩ : Element K V) :: l.access).reverse.map
        (fun el => (el.key, el.ptr))) := by
    unfold LRU.mapSet
    rw [LRU.mapDelete_of_none l.elements key hget, List.map_reverse]
    exact (h.1.cons (key, l.nextPtr)).trans (List.reverse_perm _).symm
  have hnd0 : (((⟨l.nextPtr, key, val⟩ : Element K V) :: l.access).reverse.map
      (fun el => el.key)).Nodup := by
    rw [List.map_reverse, List.nodup_reverse, List.map_cons, List.nodup_cons]
    exact ⟨hkey, h.2.1⟩
  obtain ⟨m2, hev⟩ := LRU.evictLoop_take l.size hsize _ _ hperm0 hnd0
  have hrev : (((⟨l.nextPtr, key, val⟩ : Element K V) :: l.access).reverse.drop
      (((⟨l.nextPtr, key, val⟩ : Element K V) :: l.access).reverse.length
        - l.size.toNat)).reverse
      = ((⟨l.nextPtr, key, val⟩ : Element K V) :: l.access).take l.size.toNat := by
    rw [List.length_reverse, List.drop_reverse, List.reverse_reverse]
    exact LRU.take_length_sub _ _
  have hins2 : LRU.insertAndEvict l key val
      = .ok ⟨l.size, m2, (⟨l.nextPtr, key, val⟩ :: l.access).take l.size.toNat,
          l.nextPtr + 1⟩ := by
    simp only [LRU.insertAndEvict, hev]
    rw [hrev]
  have heq : l2 = ⟨l.size, m2, (⟨l.nextPtr, key, val⟩ :: l.access).take l.size.toNat,
      l.nextPtr + 1⟩ := by
    rw [hins] at hins2
    exact Except.ok.inj hins2
  refine ⟨m2, hins2, ?_, ?_⟩
  · rw [← heq]; exact hinv
  · have := hlen
    rw [heq] at this
    exact this

/-- A call that completes keeps the representation invariant and the size, whatever the
size is. -/
theorem LRU.step_Inv {K V : Type} [DecidableEq K] (l l2 : LRU K V) (op : CacheOp K V)
    (h : l.Inv) (hstep : LRU.step l op = .ok l2) : l2.Inv ∧ l2.size = l.size := by
  have hins : ∀ key val, LRU.mapGet l.elements key = none →
      LRU.insertAndEvict l key val = .ok l2 → l2.Inv ∧ l2.size = l.size := by
    intro key val hget hi
    by_cases hsize : 0 ≤ l.size
    · obtain ⟨l3, hi3, hinv, hsz, _⟩ := LRU.insertAndEvict_ok l key val hsize h hget
      rw [hi] at hi3
      cases hi3
      exact ⟨hinv, hsz⟩
    · rw [LRU.insertAndEvict_negative l key val (by omega)] at hi
      cases hi
  cases op with
  | load key =>
    cases hget : LRU.mapGet l.elements key with
    | none =>
      simp only [LRU.step, LRU.Load, hget] at hstep
      cases hstep
      exact ⟨h, rfl⟩
    | some p =>
      obtain ⟨el, hd, _, _⟩ := LRU.deref_of_mapGet l key p h hget
      simp only [LRU.step, LRU.Load, hget, hd] at hstep
      cases hstep
      exact ⟨LRU.Inv_MoveToFront l p h, rfl⟩
  | loadOrPut key val =>
    cases hget : LRU.mapGet l.elements key with
    | none =>
      simp only [LRU.step, LRU.LoadOrPut, hget] at hstep
      cases hi : LRU.insertAndEvict l key val with
      | error f =>
        rw [hi] at hstep
        cases hstep
      | ok l3 =>
        rw [hi] at hstep
        cases hstep
        exact hins key val hget hi
    | some p =>
      obtain ⟨el, hd, _, _⟩ := LRU.deref_of_mapGet l key p h hget
      simp only [LRU.step, LRU.LoadOrPut, hget, hd] at hstep
      cases hstep
      exact ⟨LRU.Inv_MoveToFront l p h, rfl⟩
  | put key val =>
    cases hget : LRU.mapGet l.elements key with
    | none =>
      simp only [LRU.step, LRU.Put, hget] at hstep
      exact hins key val hget hstep
    | some p =>
      obtain ⟨el, hd, _, _⟩ := LRU.deref_of_mapGet l key p h hget
      simp only [LRU.step, LRU.Put, hget, hd] at hstep
      cases hstep
      exact ⟨LRU.Inv_MoveToFront { l with access := LRU.setObj l.access p val } p
        (LRU.Inv_setObj l p val h), rfl⟩
  | remove key =>
    simp only [LRU.step] at hstep
    cases hstep
    exact ⟨(LRU.Remove_Inv l key h).1, (LRU.Remove_Inv l key h).2.1⟩

theorem LRU.run_Inv {K V : Type} [DecidableEq K] (ops : List (CacheOp K V)) :
    ∀ (l l2 : LRU K V), l.Inv → LRU.run l ops = .ok l2 → l2.Inv ∧ l2.size = l.size := by
  induction ops with
  | nil =>
    intro l l2 h hrun
    simp only [LRU.run] at hrun
    cases hrun
    exact ⟨h, rfl⟩
  | cons op rest ih =>
    intro l l2 h hrun
    simp only [LRU.run] at hrun
    cases hs : LRU.step l op with
    | error f =>
      rw [hs] at hrun
      cases hrun
    | ok l1 =>
      rw [hs] at hrun
      obtain ⟨hinv1, hsz1⟩ := LRU.step_Inv l l1 op h hs
      obtain ⟨hinv2, hsz2⟩ := ih l1 l2 hinv1 hrun
      exact ⟨hinv2, hsz2.trans hsz1⟩

theorem LRU.filter_key_of_front {K V : Type} [DecidableEq K] (front : Element K V)
    (rest : List (Element K V)) (hk : ((front :: rest).map (fun x => x.key)).Nodup) :
    (front :: rest).filter (fun x => decide (x.key ≠ front.key)) = rest := by
  simp only [List.map_cons, List.nodup_cons, List.mem_map, not_exists, not_and] at hk
  rw [List.filter_cons]
  simp only [ne_eq, not_true_eq_false, decide_False, Bool.false_eq_true, if_false]
  rw [List.filter_eq_self]
  intro x hx
  simpa using hk.1 x hx

theorem LRU.mapGet_front {K V : Type} [DecidableEq K] (l : LRU K V) (front : Element K V)
    (rest : List (Element K V)) (h : l.Inv) (hacc : l.access = front :: rest) :
    LRU.mapGet l.elements front.key = some front.ptr := by
  apply LRU.mapGet_of_mem _ _ _ (LRU.elements_nodup l h)
  rw [h.1.mem_iff, hacc]
  simp

/-- `Load` of the key at the front of the list: its value, a hit, the cache unchanged. -/
theorem LRU.Load_front {K V : Type} [DecidableEq K] (l : LRU K V) (front : Element K V)
    (rest : List (Element K V)) (h : l.Inv) (hacc : l.access = front :: rest) :
    LRU.Load l front.key = .ok (l, some front.obj, true) := by
  have hget := LRU.mapGet_front l front rest h hacc
  obtain ⟨el, hel, hk, hp, hload⟩ := LRU.Load_present l front.key front.ptr h hget
  have hfm : front ∈ l.access := by rw [hacc]; simp
  have heq : el = front := List.inj_on_of_nodup_map h.2.2.1 hel hfm hp
  subst heq
  rw [hload]
  have hk2 := h.2.1
  rw [hacc] at hk2
  have : l.access.filter (fun x => decide (x.key ≠ el.key)) = rest := by
    rw [hacc]
    exact LRU.filter_key_of_front el rest hk2
  rw [this, ← hacc]

/-- `LoadOrPut` of the key at the front of the list: its value, `true`, the cache
unchanged. -/
theorem LRU.LoadOrPut_front {K V : Type} [DecidableEq K] (l : LRU K V) (front : Element K V)
    (rest : List (Element K V)) (val : V) (h : l.Inv) (hacc : l.access = front :: rest) :
    LRU.LoadOrPut l front.key val = .ok (l, front.obj, true) := by
  have hget := LRU.mapGet_front l front rest h hacc
  obtain ⟨el, hel, hk, hp, hload⟩ := LRU.LoadOrPut_present l front.key val front.ptr h hget
  have hfm : front ∈ l.access := by rw [hacc]; simp
  have heq : el = front := List.inj_on_of_nodup_map h.2.2.1 hel hfm hp
  subst heq
  rw [hload]
  have hk2 := h.2.1
  rw [hacc] at hk2
  have : l.access.filter (fun x => decide (x.key ≠ el.key)) = rest := by
    rw [hacc]
    exact LRU.filter_key_of_front el rest hk2
  rw [this, ← hacc]

theorem sampleCache_Inv : sampleCache.Inv := by
  have hrun : LRU.run (NewStateLRU 2) [CacheOp.put 1 10, CacheOp.put 2 20] = .ok sampleCache :=
    rfl
  exact (LRU.run_Inv _ _ _ (LRU.Inv_New 2) hrun).1

/-! ## The bounded caches: contract of the calls -/

/-- C22, counterexample to the claim as stated: on a state cache of size 0, `Put(1, 10)`
inserts the entry and evicts it at once, so the next `Load(1)` misses. -/
theorem lru_size_zero_put_then_load_misses :
    LRU.Put (NewStateLRU 0) 1 10 = .ok ⟨0, [], [], 1⟩ ∧
    LRU.Load (⟨0, [], [], 1⟩ : StateLRU) 1 = .ok (⟨0, [], [], 1⟩, none, false) :=
  ⟨rfl, rfl⟩

/-- C22, as amended. Cache write/read round trip: for every cache of size at least 1, key
`k` and value `v`, after writing `(k, v)` with `Put` (or with `LoadOrPut` when `k` was
absent), the next `Load(k)` returns `v` with hit = true. -/
theorem lru_write_then_load {K V : Type} [DecidableEq K] (l : LRU K V) (k : K) (v : V)
    (h : l.Inv) (hsize : 1 ≤ l.size) :
    (∃ l1, LRU.Put l k v = .ok l1 ∧ ∃ l2, LRU.Load l1 k = .ok (l2, some v, true)) ∧
    (LRU.mapGet l.elements k = none →
      ∃ l1, LRU.LoadOrPut l k v = .ok (l1, v, false) ∧
        ∃ l2, LRU.Load l1 k = .ok (l2, some v, true)) := by
  have hins : LRU.mapGet l.elements k = none →
      ∃ l1, LRU.insertAndEvict l k v = .ok l1 ∧ LRU.Load l1 k = .ok (l1, some v, true) := by
    intro hget
    obtain ⟨m2, hi, hinv, _⟩ := LRU.insertAndEvict_take l k v (by omega) h hget
    refine ⟨_, hi, ?_⟩
    obtain ⟨n, hn⟩ : ∃ n, l.size.toNat = n + 1 := ⟨l.size.toNat - 1, by omega⟩
    have hacc : (⟨l.nextPtr, k, v⟩ :: l.access).take l.size.toNat
        = (⟨l.nextPtr, k, v⟩ : Element K V) :: l.access.take n := by
      rw [hn, List.take_succ_cons]
    exact LRU.Load_front _ ⟨l.nextPtr, k, v⟩ (l.access.take n) hinv hacc
  refine ⟨?_, ?_⟩
  · cases hget : LRU.mapGet l.elements k with
    | none =>
      obtain ⟨l1, hi, hload⟩ := hins hget
      refine ⟨l1, ?_, l1, hload⟩
      simp only [LRU.Put, hget, hi]
    | some p =>
      have hput := LRU.Put_present l k v p h hget
      have hinv := (LRU.step_Inv l _ (CacheOp.put k v) h hput).1
      exact ⟨_, hput, _, LRU.Load_front _ ⟨p, k, v⟩ _ hinv rfl⟩
  · intro hget
    obtain ⟨l1, hi, hload⟩ := hins hget
    refine ⟨l1, ?_, l1, hload⟩
    simp only [LRU.LoadOrPut, hget, hi]

/-- Witness of C22 as amended, on the sample cache of size 2. -/
theorem lru_write_then_load_witness :
    sampleCache.Inv ∧ (1 : Int) ≤ sampleCache.size ∧
    (∃ l1, LRU.Put sampleCache 3 30 = .ok l1 ∧ ∃ l2, LRU.Load l1 3 = .ok (l2, some 30, true)) :=
  ⟨sampleCache_Inv, by decide,
    (lru_write_then_load sampleCache 3 30 sampleCache_Inv (by decide)).1⟩

/-- C23, counterexample to the claim as stated: on a state cache of size 0 the second
`LoadOrPut(1, 20)` returns 20, not the 10 of the first call; and on the sample cache, where
key 1 already holds 10, `LoadOrPut(1, 77)` returns 10, not 77. -/
theorem lru_loadOrPut_twice_not_first_value :
    LRU.LoadOrPut (NewStateLRU 0) 1 10 = .ok (⟨0, [], [], 1⟩, 10, false) ∧
    LRU.LoadOrPut (⟨0, [], [], 1⟩ : StateLRU) 1 20 = .ok (⟨0, [], [], 2⟩, 20, false) ∧
    LRU.LoadOrPut sampleCache 1 77
      = .ok (⟨2, [(2, 1), (1, 0)], [⟨0, 1, 10⟩, ⟨1, 2, 20⟩], 2⟩, 10, true) :=
  ⟨rfl, rfl, rfl⟩

/-- C23, as amended. For every cache of size at least 1, key `k` absent from it and values
`v₁`, `v₂`, the call `LoadOrPut(k, v₁)` immediately followed by `LoadOrPut(k, v₂)` returns
`v₁` as the effective value both times (the key being absent the first time, present the
second time). -/
theorem lru_loadOrPut_twice {K V : Type} [DecidableEq K] (l : LRU K V) (k : K) (v1 v2 : V)
    (h : l.Inv) (hsize : 1 ≤ l.size) (habs : LRU.mapGet l.elements k = none) :
    ∃ l1, LRU.LoadOrPut l k v1 = .ok (l1, v1, false) ∧
      ∃ l2, LRU.LoadOrPut l1 k v2 = .ok (l2, v1, true) := by
  obtain ⟨m2, hi, hinv, _⟩ := LRU.insertAndEvict_take l k v1 (by omega) h habs
  obtain ⟨n, hn⟩ : ∃ n, l.size.toNat = n + 1 := ⟨l.size.toNat - 1, by omega⟩
  have hacc : (⟨l.nextPtr, k, v1⟩ :: l.access).take l.size.toNat
      = (⟨l.nextPtr, k, v1⟩ : Element K V) :: l.access.take n := by
    rw [hn, List.take_succ_cons]
  refine ⟨_, ?_, _, LRU.LoadOrPut_front _ ⟨l.nextPtr, k, v1⟩ (l.access.take n) v2 hinv hacc⟩
  simp only [LRU.LoadOrPut, habs, hi]

/-- Witness of C23 as amended, on the sample cache and the absent key 3. -/
theorem lru_loadOrPut_twice_witness :
    sampleCache.Inv ∧ (1 : Int) ≤ sampleCache.size ∧
    LRU.mapGet sampleCache.elements 3 = none ∧
    ∃ l1, LRU.LoadOrPut sampleCache 3 30 = .ok (l1, 30, false) ∧
      ∃ l2, LRU.LoadOrPut l1 3 40 = .ok (l2, 30, true) :=
  ⟨sampleCache_Inv, by decide, rfl,
    lru_loadOrPut_twice sampleCache 3 30 40 sampleCache_Inv (by decide) rfl⟩

/-- C24. Load hit: for every cache and key `k` present in it, `Load(k)` returns the value
stored for `k` with hit = true; afterwards the element of `k` is at the front of the access
list, followed by the other elements in their former order; the key map is unchanged and
the list holds the same elements with the same values. -/
theorem lru_load_hit {K V : Type} [DecidableEq K] (l : LRU K V) (k : K) (p : Nat)
    (h : l.Inv) (hget : LRU.mapGet l.elements k = some p) :
    ∃ el, el ∈ l.access ∧ el.key = k ∧ LRU.valueOf l k = some el.obj ∧
      LRU.Load l k
        = .ok (⟨l.size, l.elements, el :: l.access.filter (fun x => decide (x.key ≠ k)),
            l.nextPtr⟩, some el.obj, true) ∧
      (el :: l.access.filter (fun x => decide (x.key ≠ k))).Perm l.access := by
  obtain ⟨el, hel, hk, hp, hload⟩ := LRU.Load_present l k p h hget
  refine ⟨el, hel, hk, ?_, hload, ?_⟩
  · rw [← hk]
    exact LRU.valueOf_of_mem l el h.2.1 hel
  · rw [← hk, ← LRU.filter_ptr_eq_filter_key l.access el h.2.1 h.2.2.1 hel]
    exact (LRU.perm_front l.access el h.2.2.1 hel).symm

/-- Witness of C24: key 1 is present in the sample cache, behind key 2. -/
theorem lru_load_hit_witness :
    sampleCache.Inv ∧ LRU.mapGet sampleCache.elements 1 = some 0 ∧
    LRU.Load sampleCache 1
      = .ok (⟨2, [(2, 1), (1, 0)], [⟨0, 1, 10⟩, ⟨1, 2, 20⟩], 2⟩, some 10, true) ∧
    ∃ el, el ∈ sampleCache.access ∧ el.key = 1 ∧ LRU.valueOf sampleCache 1 = some el.obj ∧
      LRU.Load sampleCache 1
        = .ok (⟨sampleCache.size, sampleCache.elements,
            el :: sampleCache.access.filter (fun x => decide (x.key ≠ 1)),
            sampleCache.nextPtr⟩, some el.obj, true) ∧
      (el :: sampleCache.access.filter (fun x => decide (x.key ≠ 1))).Perm sampleCache.access :=
  ⟨sampleCache_Inv, rfl, rfl, lru_load_hit sampleCache 1 0 sampleCache_Inv rfl⟩

/-- C25. Load miss: for every cache and key `k` not present in it, `Load(k)` returns nil and
hit = false and leaves the cache (key map, access list, values) unchanged. -/
theorem lru_load_miss {K V : Type} [DecidableEq K] (l : LRU K V) (k : K)
    (hget : LRU.mapGet l.elements k = none) :
    LRU.Load l k = .ok (l, none, false) := by
  simp only [LRU.Load, hget]

/-- Witness of C25: key 3 is not in the sample cache. -/
theorem lru_load_miss_witness :
    LRU.mapGet sampleCache.elements 3 = none ∧
    LRU.Load sampleCache 3 = .ok (sampleCache, none, false) :=
  ⟨rfl, lru_load_miss sampleCache 3 rfl⟩

/-- C26. LoadOrPut on a present key: for every cache, key `k` present with value `w` and
every value `v`, `LoadOrPut(k, v)` returns `(w, true)`; the cache afterwards does not depend
on `v`: the key map is unchanged, the element of `k` is at the front of the access list,
followed by the other elements in their former order, all with their former values. -/
theorem lru_loadOrPut_present {K V : Type} [DecidableEq K] (l : LRU K V) (k : K) (v : V)
    (p : Nat) (h : l.Inv) (hget : LRU.mapGet l.elements k = some p) :
    ∃ el, el ∈ l.access ∧ el.key = k ∧ LRU.valueOf l k = some el.obj ∧
      LRU.LoadOrPut l k v
        = .ok (⟨l.size, l.elements, el :: l.access.filter (fun x => decide (x.key ≠ k)),
            l.nextPtr⟩, el.obj, true) ∧
      (el :: l.access.filter (fun x => decide (x.key ≠ k))).Perm l.access := by
  obtain ⟨el, hel, hk, hp, hload⟩ := LRU.LoadOrPut_present l k v p h hget
  refine ⟨el, hel, hk, ?_, hload, ?_⟩
  · rw [← hk]
    exact LRU.valueOf_of_mem l el h.2.1 hel
  · rw [← hk, ← LRU.filter_ptr_eq_filter_key l.access el h.2.1 h.2.2.1 hel]
    exact (LRU.perm_front l.access el h.2.2.1 hel).symm

/-- Witness of C26: key 1 holds 10 in the sample cache; `LoadOrPut(1, 77)` returns 10. -/
theorem lru_loadOrPut_present_witness :
    sampleCache.Inv ∧ LRU.mapGet sampleCache.elements 1 = some 0 ∧
    LRU.LoadOrPut sampleCache 1 77
      = .ok (⟨2, [(2, 1), (1, 0)], [⟨0, 1, 10⟩, ⟨1, 2, 20⟩], 2⟩, 10, true) ∧
    ∃ el, el ∈ sampleCache.access ∧ el.key = 1 ∧ LRU.valueOf sampleCache 1 = some el.obj ∧
      LRU.LoadOrPut sampleCache 1 77
        = .ok (⟨sampleCache.size, sampleCache.elements,
            el :: sampleCache.access.filter (fun x => decide (x.key ≠ 1)),
            sampleCache.nextPtr⟩, el.obj, true) ∧
      (el :: sampleCache.access.filter (fun x => decide (x.key ≠ 1))).Perm sampleCache.access :=
  ⟨sampleCache_Inv, rfl, rfl, lru_loadOrPut_present sampleCache 1 77 0 sampleCache_Inv rfl⟩

/-- C27, counterexample to the claim as stated: on a state cache created with size -1 the
call `LoadOrPut(7, 1)` of an absent key does not return: the eviction loop removes the new
entry, its guard still holds on the empty cache, and reading the back of the empty list
fails. -/
theorem lru_negative_size_loadOrPut_fails :
    LRU.mapGet (NewStateLRU (-1)).elements 7 = none ∧
    LRU.LoadOrPut (NewStateLRU (-1)) 7 1 = .error Fault.nilPointer :=
  ⟨rfl, rfl⟩

/-- C27, as amended. LoadOrPut on an absent key: for every cache with a non-negative size,
key `k` not present and value `v`, `LoadOrPut(k, v)` returns `(v, false)`; afterwards the
access list is the new element `(k, v)` followed by the former list, cut to its `size` front
elements (the elements beyond are removed from the back, the others keep their values and
order), the key map holds the keys of that list, and at most `size` entries are left. -/
theorem lru_loadOrPut_absent {K V : Type} [DecidableEq K] (l : LRU K V) (k : K) (v : V)
    (h : l.Inv) (hsize : 0 ≤ l.size) (habs : LRU.mapGet l.elements k = none) :
    ∃ m2, LRU.LoadOrPut l k v
        = .ok (⟨l.size, m2, (⟨l.nextPtr, k, v⟩ :: l.access).take l.size.toNat,
            l.nextPtr + 1⟩, v, false) ∧
      m2.Perm (((⟨l.nextPtr, k, v⟩ :: l.access).take l.size.toNat).map
        (fun el => (el.key, el.ptr))) ∧
      (m2.length : Int) ≤ l.size := by
  obtain ⟨m2, hi, hinv, hlen⟩ := LRU.insertAndEvict_take l k v hsize h habs
  refine ⟨m2, ?_, hinv.1, hlen⟩
  simp only [LRU.LoadOrPut, habs, hi]

/-- Witness of C27 as amended: inserting key 3 into the full sample cache evicts key 1. -/
theorem lru_loadOrPut_absent_witness :
    sampleCache.Inv ∧ (0 : Int) ≤ sampleCache.size ∧
    LRU.mapGet sampleCache.elements 3 = none ∧
    LRU.LoadOrPut sampleCache 3 30
      = .ok (⟨2, [(3, 2), (2, 1)], [⟨2, 3, 30⟩, ⟨1, 2, 20⟩], 3⟩, 30, false) ∧
    ∃ m2, LRU.LoadOrPut sampleCache 3 30
        = .ok (⟨sampleCache.size, m2,
            (⟨sampleCache.nextPtr, 3, 30⟩ :: sampleCache.access).take sampleCache.size.toNat,
            sampleCache.nextPtr + 1⟩, 30, false) ∧
      m2.Perm (((⟨sampleCache.nextPtr, 3, 30⟩ :: sampleCache.access).take
        sampleCache.size.toNat).map (fun el => (el.key, el.ptr))) ∧
      (m2.length : Int) ≤ sampleCache.size :=
  ⟨sampleCache_Inv, by decide, rfl, rfl,
    lru_loadOrPut_absent sampleCache 3 30 sampleCache_Inv (by decide) rfl⟩

/-- C28, counterexample to the claim as stated: on a VM cache created with size -2 the call
`Put` of an absent key does not complete: no eviction can bring the entry count down to the
size, and the loop fails on the empty list. -/
theorem lru_negative_size_put_fails :
    LRU.mapGet (NewVMLRU (-2)).elements [1, 2] = none ∧
    LRU.Put (NewVMLRU (-2)) [1, 2] 5 = .error Fault.nilPointer :=
  ⟨rfl, rfl⟩

/-- C28, as amended. Put: for every cache, key `k` and value `v`, if `k` is present
`Put(k, v)` gives its element the value `v`, moves it to the front of the access list and
removes no entry (key map unchanged, list of the same length, the other elements in their
former order); if `k` is absent and the size is non-negative it puts the new element
`(k, v)` at the front and cuts the list to its `size` front elements, evicting the others
from the back, so that at most `size` entries are left. -/
theorem lru_put {K V : Type} [DecidableEq K] (l : LRU K V) (k : K) (v : V) (h : l.Inv) :
    (∀ p, LRU.mapGet l.elements k = some p →
      LRU.Put l k v
        = .ok ⟨l.size, l.elements,
            ⟨p, k, v⟩ :: l.access.filter (fun x => decide (x.key ≠ k)), l.nextPtr⟩ ∧
      (⟨p, k, v⟩ :: l.access.filter (fun x => decide (x.key ≠ k))).length
        = l.access.length) ∧
    (0 ≤ l.size → LRU.mapGet l.elements k = none →
      ∃ m2, LRU.Put l k v
          = .ok ⟨l.size, m2, (⟨l.nextPtr, k, v⟩ :: l.access).take l.size.toNat,
              l.nextPtr + 1⟩ ∧
        m2.Perm (((⟨l.nextPtr, k, v⟩ :: l.access).take l.size.toNat).map
          (fun el => (el.key, el.ptr))) ∧
        (m2.length : Int) ≤ l.size) := by
  refine ⟨?_, ?_⟩
  · intro p hget
    refine ⟨LRU.Put_present l k v p h hget, ?_⟩
    obtain ⟨el, _, hel, hk, _⟩ := LRU.present l k p h hget
    have hperm := LRU.perm_front l.access el h.2.2.1 hel
    rw [LRU.filter_ptr_eq_filter_key l.access el h.2.1 h.2.2.1 hel, hk] at hperm
    have := hperm.length_eq
    simp only [List.length_cons] at this ⊢
    exact this.symm
  · intro hsize habs
    obtain ⟨m2, hi, hinv, hlen⟩ := LRU.insertAndEvict_take l k v hsize h habs
    refine ⟨m2, ?_, hinv.1, hlen⟩
    simp only [LRU.Put, habs, hi]

/-- Witness of C28 as amended, on the sample cache: `Put(1, 11)` overwrites and moves key 1
to the front, `Put(3, 30)` inserts key 3 and evicts key 1. -/
theorem lru_put_witness :
    sampleCache.Inv ∧ LRU.mapGet sampleCache.elements 1 = some 0 ∧
    LRU.Put sampleCache 1 11 = .ok ⟨2, [(2, 1), (1, 0)], [⟨0, 1, 11⟩, ⟨1, 2, 20⟩], 2⟩ ∧
    LRU.Put sampleCache 3 30 = .ok ⟨2, [(3, 2), (2, 1)], [⟨2, 3, 30⟩, ⟨1, 2, 20⟩], 3⟩ ∧
    (LRU.Put sampleCache 1 11
        = .ok ⟨sampleCache.size, sampleCache.elements,
            ⟨0, 1, 11⟩ :: sampleCache.access.filter (fun x => decide (x.key ≠ 1)),
            sampleCache.nextPtr⟩ ∧
      (⟨0, 1, 11⟩ :: sampleCache.access.filter (fun x => decide (x.key ≠ 1))).length
        = sampleCache.access.length) :=
  ⟨sampleCache_Inv, rfl, rfl, rfl, (lru_put sampleCache 1 11 sampleCache_Inv).1 0 rfl⟩

theorem LRU.filter_key_absent {K V : Type} [DecidableEq K] (l : LRU K V) (k : K) (h : l.Inv)
    (hget : LRU.mapGet l.elements k = none) :
    l.access.filter (fun x => decide (x.key ≠ k)) = l.access := by
  rw [List.filter_eq_self]
  intro x hx
  have hnot := LRU.not_mem_keys_of_mapGet_none l k h hget
  have : x.key ≠ k := fun hk => hnot (List.mem_map.mpr ⟨x, hx, hk⟩)
  simpa using this

/-- C29. Remove: for every cache and key `k`, after `Remove(k)` a `Load(k)` misses; the
access list is the former list without the element of `k` (the other elements keep their
values and order) and the key map is the former map without `k`; when `k` was not present
`Remove(k)` leaves the cache unchanged. -/
theorem lru_remove {K V : Type} [DecidableEq K] (l : LRU K V) (k : K) (h : l.Inv) :
    LRU.Load (LRU.Remove l k) k = .ok (LRU.Remove l k, none, false) ∧
    (LRU.Remove l k).access = l.access.filter (fun x => decide (x.key ≠ k)) ∧
    (LRU.Remove l k).elements = l.elements.filter (fun kv => decide (kv.1 ≠ k)) ∧
    (LRU.Remove l k).size = l.size ∧
    (LRU.mapGet l.elements k = none → LRU.Remove l k = l) := by
  cases hget : LRU.mapGet l.elements k with
  | none =>
    have hrem : LRU.Remove l k = l := by simp only [LRU.Remove, hget]
    rw [hrem]
    refine ⟨by simp only [LRU.Load, hget], (LRU.filter_key_absent l k h hget).symm, ?_, rfl,
      fun _ => rfl⟩
    exact (LRU.mapDelete_of_none l.elements k hget).symm
  | some p =>
    obtain ⟨el, _, hel, hk, hp⟩ := LRU.present l k p h hget
    have hrem : LRU.Remove l k
        = { l with elements := LRU.mapDelete l.elements k,
                   access := LRU.listRemove l.access p } := by
      simp only [LRU.Remove, hget]
    rw [hrem]
    refine ⟨?_, ?_, rfl, rfl, fun hn => by cases hn⟩
    · simp only [LRU.Load, LRU.mapGet_mapDelete_self]
    · simp only [LRU.listRemove]
      rw [← hp, LRU.filter_ptr_eq_filter_key l.access el h.2.1 h.2.2.1 hel, hk]

/-- Witness of C29: removing key 2 from the sample cache leaves key 1; removing the absent
key 3 changes nothing. -/
theorem lru_remove_witness :
    sampleCache.Inv ∧
    LRU.Remove sampleCache 2 = ⟨2, [(1, 0)], [⟨0, 1, 10⟩], 2⟩ ∧
    LRU.Remove sampleCache 3 = sampleCache ∧
    LRU.Load (LRU.Remove sampleCache 2) 2 = .ok (LRU.Remove sampleCache 2, none, false) :=
  ⟨sampleCache_Inv, by decide, (lru_remove sampleCache 3 sampleCache_Inv).2.2.2.2 rfl,
    (lru_remove sampleCache 2 sampleCache_Inv).1⟩

/-- C30. `LoadOrPut` is idempotent on the cache state: for every cache, key `k` and value
`v`, when `LoadOrPut(k, v)` completes (it always does on a cache with a non-negative size),
a second `LoadOrPut(k, v)` completes too and leaves the same size, the same key map and the
same access list, values and order included, as the first call. -/
theorem lru_loadOrPut_idempotent {K V : Type} [DecidableEq K] (l : LRU K V) (k : K) (v : V)
    (h : l.Inv) :
    (0 ≤ l.size → ∃ l1 r1, LRU.LoadOrPut l k v = .ok (l1, r1)) ∧
    (∀ l1 r1, LRU.LoadOrPut l k v = .ok (l1, r1) →
      ∃ l2 r2, LRU.LoadOrPut l1 k v = .ok (l2, r2) ∧
        l2.size = l1.size ∧ l2.elements = l1.elements ∧ l2.access = l1.access) := by
  cases hget : LRU.mapGet l.elements k with
  | some p =>
    obtain ⟨el, hel, hk, hp, hload⟩ := LRU.LoadOrPut_present l k v p h hget
    have hinv1 : LRU.Inv (⟨l.size, l.elements,
        el :: l.access.filter (fun x => decide (x.key ≠ k)), l.nextPtr⟩ : LRU K V) := by
      have hstep : LRU.step l (CacheOp.loadOrPut k v)
          = .ok ⟨l.size, l.elements, el :: l.access.filter (fun x => decide (x.key ≠ k)),
              l.nextPtr⟩ := by
        simp only [LRU.step, hload]
      exact (LRU.step_Inv l _ _ h hstep).1
    have hsecond := LRU.LoadOrPut_front _ el _ v hinv1 rfl
    rw [hk] at hsecond
    refine ⟨fun _ => ⟨_, _, hload⟩, ?_⟩
    intro l1 r1 hfirst
    rw [hload] at hfirst
    cases hfirst
    exact ⟨_, _, hsecond, rfl, rfl, rfl⟩
  | none =>
    by_cases hsize : 0 ≤ l.size
    · obtain ⟨m2, hi, hinv, hlen⟩ := LRU.insertAndEvict_take l k v hsize h hget
      have hfirst0 : LRU.LoadOrPut l k v
          = .ok (⟨l.size, m2, (⟨l.nextPtr, k, v⟩ :: l.access).take l.size.toNat,
              l.nextPtr + 1⟩, v, false) := by
        simp only [LRU.LoadOrPut, hget, hi]
      refine ⟨fun _ => ⟨_, _, hfirst0⟩, ?_⟩
      intro l1 r1 hfirst
      rw [hfirst0] at hfirst
      cases hfirst
      by_cases hz : l.size.toNat = 0
      · have hm2 : m2 = [] := by
          have hp := hinv.1
          simp only [hz, List.take_zero, List.map_nil] at hp
          exact List.Perm.eq_nil hp
        subst hm2
        have hinv1 := hinv
        simp only [hz, List.take_zero] at hinv1 ⊢
        obtain ⟨m3, hi3, hinv3, _⟩ := LRU.insertAndEvict_take
          (⟨l.size, [], [], l.nextPtr + 1⟩ : LRU K V) k v hsize hinv1 rfl
        simp only [hz, List.take_zero] at hi3 hinv3
        have hm3 : m3 = [] := by
          have hp := hinv3.1
          simp only [List.map_nil] at hp
          exact List.Perm.eq_nil hp
        subst hm3
        refine ⟨⟨l.size, [], [], l.nextPtr + 1 + 1⟩, (v, false), ?_, rfl, rfl, rfl⟩
        simp only [LRU.LoadOrPut, LRU.mapGet, hi3]
      · obtain ⟨n, hn⟩ : ∃ n, l.size.toNat = n + 1 := ⟨l.size.toNat - 1, by omega⟩
        have hacc : (⟨l.nextPtr, k, v⟩ :: l.access).take l.size.toNat
            = (⟨l.nextPtr, k, v⟩ : Element K V) :: l.access.take n := by
          rw [hn, List.take_succ_cons]
        exact ⟨_, _, LRU.LoadOrPut_front _ ⟨l.nextPtr, k, v⟩ (l.access.take n) v hinv hacc,
          rfl, rfl, rfl⟩
    · refine ⟨fun hh => absurd hh hsize, ?_⟩
      intro l1 r1 hfirst
      simp only [LRU.LoadOrPut, hget, LRU.insertAndEvict_negative l k v (by omega)] at hfirst
      cases hfirst

/-- Witness of C30 on the sample cache: `LoadOrPut(3, 30)` twice leaves the cache the first
call left. -/
theorem lru_loadOrPut_idempotent_witness :
    sampleCache.Inv ∧
    LRU.LoadOrPut sampleCache 3 30
      = .ok (⟨2, [(3, 2), (2, 1)], [⟨2, 3, 30⟩, ⟨1, 2, 20⟩], 3⟩, 30, false) ∧
    LRU.LoadOrPut (⟨2, [(3, 2), (2, 1)], [⟨2, 3, 30⟩, ⟨1, 2, 20⟩], 3⟩ : StateLRU) 3 30
      = .ok (⟨2, [(3, 2), (2, 1)], [⟨2, 3, 30⟩, ⟨1, 2, 20⟩], 3⟩, 30, true) ∧
    ∃ l2 r2, LRU.LoadOrPut (⟨2, [(3, 2), (2, 1)], [⟨2, 3, 30⟩, ⟨1, 2, 20⟩], 3⟩ : StateLRU) 3 30
        = .ok (l2, r2) ∧
      l2.size = 2 ∧ l2.elements = [(3, 2), (2, 1)] ∧
      l2.access = [⟨2, 3, 30⟩, ⟨1, 2, 20⟩] :=
  ⟨sampleCache_Inv, rfl, rfl,
    (lru_loadOrPut_idempotent sampleCache 3 30 sampleCache_Inv).2 _ _ rfl⟩

/-! ## The bounded caches: the access list is ordered by last access -/

theorem LRU.map_key_filter {K V : Type} [DecidableEq K] (access : List (Element K V)) (k : K) :
    (access.filter (fun x => decide (x.key ≠ k))).map (fun x => x.key)
      = (access.map (fun x => x.key)).filter (fun x => decide (x ≠ k)) := by
  rw [List.filter_map]
  rfl

/-- The keys of the access list after a call that completes: when the call accesses `k`,
they are among `k` followed by the former keys without `k`, in that order; otherwise they
are among the former keys, in their order. -/
theorem LRU.step_keys {K V : Type} [DecidableEq K] (l l2 : LRU K V) (op : CacheOp K V)
    (h : l.Inv) (hstep : LRU.step l op = .ok l2) :
    (∀ k, LRU.accessed l op = some k →
      (l2.access.map (fun x => x.key)).Sublist
        (k :: (l.access.map (fun x => x.key)).filter (fun x => decide (x ≠ k)))) ∧
    (LRU.accessed l op = none →
      (l2.access.map (fun x => x.key)).Sublist (l.access.map (fun x => x.key))) := by
  have hins : ∀ key val, LRU.mapGet l.elements key = none →
      LRU.insertAndEvict l key val = .ok l2 →
      (l2.access.map (fun x => x.key)).Sublist
        (key :: (l.access.map (fun x => x.key)).filter (fun x => decide (x ≠ key))) := by
    intro key val hget hi
    by_cases hsize : 0 ≤ l.size
    · obtain ⟨m2, hi3, _, _⟩ := LRU.insertAndEvict_take l key val hsize h hget
      rw [hi] at hi3
      cases hi3
      simp only
      rw [← LRU.map_key_filter, LRU.filter_key_absent l key h hget]
      exact (List.take_sublist _ _).map _
    · rw [LRU.insertAndEvict_negative l key val (by omega)] at hi
      cases hi
  have hhit : ∀ key (el : Element K V), el.key = key →
      l2.access = el :: l.access.filter (fun x => decide (x.key ≠ key)) →
      (l2.access.map (fun x => x.key)).Sublist
        (key :: (l.access.map (fun x => x.key)).filter (fun x => decide (x ≠ key))) := by
    intro key el hk hacc
    rw [hacc, List.map_cons, LRU.map_key_filter, hk]
  cases op with
  | load key =>
    cases hget : LRU.mapGet l.elements key with
    | none =>
      simp only [LRU.step, LRU.Load, hget] at hstep
      cases hstep
      refine ⟨?_, fun _ => List.Sublist.refl _⟩
      intro k hacc
      simp [LRU.accessed, hget] at hacc
    | some p =>
      obtain ⟨el, _, hk, _, hload⟩ := LRU.Load_present l key p h hget
      simp only [LRU.step, hload] at hstep
      cases hstep
      refine ⟨?_, ?_⟩
      · intro k hacc
        simp only [LRU.accessed, hget, Option.isSome_some, if_true, Option.some.injEq] at hacc
        subst hacc
        exact hhit key el hk rfl
      · intro hacc
        simp [LRU.accessed, hget] at hacc
  | loadOrPut key val =>
    refine ⟨?_, fun hacc => by simp [LRU.accessed] at hacc⟩
    intro k hacc
    simp only [LRU.accessed, Option.some.injEq] at hacc
    subst hacc
    cases hget : LRU.mapGet l.elements key with
    | none =>
      simp only [LRU.step, LRU.LoadOrPut, hget] at hstep
      cases hi : LRU.insertAndEvict l key val with
      | error f =>
        rw [hi] at hstep
        cases hstep
      | ok l3 =>
        rw [hi] at hstep
        cases hstep
        exact hins key val hget hi
    | some p =>
      obtain ⟨el, _, hk, _, hload⟩ := LRU.LoadOrPut_present l key val p h hget
      simp only [LRU.step, hload] at hstep
      cases hstep
      exact hhit key el hk rfl
  | put key val =>
    refine ⟨?_, fun hacc => by simp [LRU.accessed] at hacc⟩
    intro k hacc
    simp only [LRU.accessed, Option.some.injEq] at hacc
    subst hacc
    cases hget : LRU.mapGet l.elements key with
    | none =>
      simp only [LRU.step, LRU.Put, hget] at hstep
      exact hins key val hget hstep
    | some p =>
      have hput := LRU.Put_present l key val p h hget
      simp only [LRU.step, hput] at hstep
      cases hstep
      exact hhit key ⟨p, key, val⟩ rfl rfl
  | remove key =>
    refine ⟨fun k hacc => by simp [LRU.accessed] at hacc, fun _ => ?_⟩
    simp only [LRU.step] at hstep
    cases hstep
    unfold LRU.Remove
    cases hget : LRU.mapGet l.elements key with
    | none => exact List.Sublist.refl _
    | some p => exact (List.filter_sublist _).map _

/-- Stamping the key `k` with the current time `t` and putting it in front of the other keys
keeps a list of keys ordered by decreasing stamp. -/
theorem LRU.pairwise_touch {K : Type} [DecidableEq K] (ks : List K) (s : K → Nat) (t : Nat)
    (k : K) (hp : ks.Pairwise (fun a b => s b < s a)) (hb : ∀ a ∈ ks, s a < t) :
    (k :: ks.filter (fun x => decide (x ≠ k))).Pairwise
        (fun a b => (if b = k then t else s b) < (if a = k then t else s a)) ∧
    ∀ a ∈ k :: ks.filter (fun x => decide (x ≠ k)), (if a = k then t else s a) < t + 1 := by
  have hmem : ∀ a ∈ ks.filter (fun x => decide (x ≠ k)), a ∈ ks ∧ a ≠ k := by
    intro a ha
    have := List.mem_filter.mp ha
    exact ⟨this.1, by simpa using this.2⟩
  refine ⟨?_, ?_⟩
  · rw [List.pairwise_cons]
    refine ⟨?_, ?_⟩
    · intro b hb2
      obtain ⟨hbm, hbk⟩ := hmem b hb2
      simp only [hbk, if_false, if_true]
      exact hb b hbm
    · refine List.Pairwise.imp_of_mem ?_ (hp.filter _)
      intro a b ha hb2 hab
      simp only [(hmem a ha).2, (hmem b hb2).2, if_false]
      exact hab
  · intro a ha
    rcases List.mem_cons.mp ha with h1 | h1
    · simp [h1]
    · obtain ⟨ham, hak⟩ := hmem a h1
      simp only [hak, if_false]
      have := hb a ham
      omega

theorem LRU.lastAccess_sorted_aux {K V : Type} [DecidableEq K] (ops : List (CacheOp K V)) :
    ∀ (l lf : LRU K V) (t : Nat) (s : K → Nat), 1 ≤ t → l.Inv → LRU.run l ops = .ok lf →
      (l.access.map (fun x => x.key)).Pairwise (fun a b => s b < s a) →
      (∀ a ∈ l.access.map (fun x => x.key), s a < t) →
      (lf.access.map (fun x => x.key)).Pairwise
        (fun a b =>
          (if LRU.lastAccess l t ops b ≠ 0 then LRU.lastAccess l t ops b else s b)
            < (if LRU.lastAccess l t ops a ≠ 0 then LRU.lastAccess l t ops a else s a)) ∧
      ∀ a ∈ lf.access.map (fun x => x.key),
        (if LRU.lastAccess l t ops a ≠ 0 then LRU.lastAccess l t ops a else s a)
          < t + ops.length := by
  induction ops with
  | nil =>
    intro l lf t s _ _ hrun hp hb
    simp only [LRU.run] at hrun
    cases hrun
    simp only [LRU.lastAccess, ne_eq, not_true_eq_false, if_false, List.length_nil,
      Nat.add_zero]
    exact ⟨hp, hb⟩
  | cons op rest ih =>
    intro l lf t s ht h hrun hp hb
    simp only [LRU.run] at hrun
    cases hs : LRU.step l op with
    | error f =>
      rw [hs] at hrun
      cases hrun
    | ok l1 =>
      rw [hs] at hrun
      obtain ⟨hinv1, _⟩ := LRU.step_Inv l l1 op h hs
      obtain ⟨hk1, hk2⟩ := LRU.step_keys l l1 op h hs
      have hJ : (l1.access.map (fun x => x.key)).Pairwise
            (fun a b => (if LRU.accessed l op = some b then t else s b)
              < (if LRU.accessed l op = some a then t else s a)) ∧
          ∀ a ∈ l1.access.map (fun x => x.key),
            (if LRU.accessed l op = some a then t else s a) < t + 1 := by
        cases hacc : LRU.accessed l op with
        | none =>
          simp only [reduceCtorEq, if_false]
          refine ⟨hp.sublist (hk2 hacc), ?_⟩
          intro a ha
          have := hb a ((hk2 hacc).subset ha)
          omega
        | some k =>
          obtain ⟨hp2, hb2⟩ := LRU.pairwise_touch _ s t k hp hb
          have hsub := hk1 k hacc
          have heq : ∀ a : K, (some k = some a) ↔ a = k := by
            intro a
            constructor
            · intro hh; exact (Option.some.inj hh).symm
            · intro hh; rw [hh]
          simp only [heq]
          exact ⟨hp2.sublist hsub, fun a ha => hb2 a (hsub.subset ha)⟩
      obtain ⟨r1, r2⟩ := ih l1 lf (t + 1)
        (fun a => if LRU.accessed l op = some a then t else s a) (by omega) hinv1 hrun
        hJ.1 hJ.2
      have hstamp : ∀ a : K,
          (if LRU.lastAccess l t (op :: rest) a ≠ 0 then LRU.lastAccess l t (op :: rest) a
            else s a)
          = (if LRU.lastAccess l1 (t + 1) rest a ≠ 0 then LRU.lastAccess l1 (t + 1) rest a
            else (if LRU.accessed l op = some a then t else s a)) := by
        intro a
        simp only [LRU.lastAccess, hs]
        by_cases hla : LRU.lastAccess l1 (t + 1) rest a = 0
        · by_cases hacc : LRU.accessed l op = some a
          · have ht0 : t ≠ 0 := by omega
            simp [hla, hacc, ht0]
          · simp [hla, hacc]
        · simp [hla]
      refine ⟨?_, ?_⟩
      · refine List.Pairwise.imp ?_ r1
        intro a b hab
        rw [hstamp a, hstamp b]
        exact hab
      · intro a ha
        rw [hstamp a]
        have := r2 a ha
        simp only [List.length_cons]
        omega

/-- In a cache reached from a new cache by a run of calls, the access list is ordered by
last successful access, the most recent first. -/
theorem LRU.lastAccess_sorted {K V : Type} [DecidableEq K] (size : Int)
    (ops : List (CacheOp K V)) (lf : LRU K V)
    (hrun : LRU.run (LRU.New size : LRU K V) ops = .ok lf) :
    lf.access.Pairwise (fun a b =>
      LRU.lastAccess (LRU.New size : LRU K V) 1 ops b.key
        < LRU.lastAccess (LRU.New size : LRU K V) 1 ops a.key) := by
  obtain ⟨r1, _⟩ := LRU.lastAccess_sorted_aux ops (LRU.New size : LRU K V) lf 1
    (fun _ => 0) (le_refl 1) (LRU.Inv_New size) hrun (by simp [LRU.New]) (by simp [LRU.New])
  rw [List.pairwise_map] at r1
  refine List.Pairwise.imp ?_ r1
  intro a b hab
  have hsimp : ∀ x : K,
      (if LRU.lastAccess (LRU.New size : LRU K V) 1 ops x ≠ 0 then
        LRU.lastAccess (LRU.New size : LRU K V) 1 ops x else 0)
      = LRU.lastAccess (LRU.New size : LRU K V) 1 ops x := by
    intro x
    split
    · rfl
    · rename_i hx
      simp only [ne_eq, not_not] at hx
      exact hx.symm
  rw [hsimp a.key, hsimp b.key] at hab
  exact hab

/-- C21. LRU eviction order: when `Put` or `LoadOrPut` inserts a new key into a cache that
holds `size` entries, the access list afterwards is the new element followed by the former
list without its back element, so exactly the back element is evicted; in a cache reached
from a new one by any run of calls the back element is the one whose last successful
access (a `Load` that hit, a `Put` or a `LoadOrPut`) is older than that of every other
element; and with size 2 the calls `Put(1, 10)`, `Put(2, 20)`, `Load(1)`, `Put(3, 30)`
evict key 2 and leave exactly the keys 3 and 1. -/
theorem lru_evicts_least_recently_used {K V : Type} [DecidableEq K] :
    (∀ (l : LRU K V) (k : K) (v : V), l.Inv → (l.elements.length : Int) = l.size →
      LRU.mapGet l.elements k = none →
      ∃ m2,
        LRU.Put l k v
          = .ok ⟨l.size, m2, (⟨l.nextPtr, k, v⟩ :: l.access).dropLast, l.nextPtr + 1⟩ ∧
        LRU.LoadOrPut l k v
          = .ok (⟨l.size, m2, (⟨l.nextPtr, k, v⟩ :: l.access).dropLast, l.nextPtr + 1⟩,
              v, false) ∧
        m2.Perm (((⟨l.nextPtr, k, v⟩ :: l.access).dropLast).map
          (fun el => (el.key, el.ptr)))) ∧
    (∀ (size : Int) (ops : List (CacheOp K V)) (lf : LRU K V) (front : List (Element K V))
      (back : Element K V),
      LRU.run (LRU.New size : LRU K V) ops = .ok lf → lf.access = front ++ [back] →
      ∀ el ∈ front,
        LRU.lastAccess (LRU.New size : LRU K V) 1 ops back.key
          < LRU.lastAccess (LRU.New size : LRU K V) 1 ops el.key) ∧
    LRU.run (NewStateLRU 2)
        [CacheOp.put 1 10, CacheOp.put 2 20, CacheOp.load 1, CacheOp.put 3 30]
      = .ok ⟨2, [(3, 2), (1, 0)], [⟨2, 3, 30⟩, ⟨0, 1, 10⟩], 3⟩ := by
  refine ⟨?_, ?_, rfl⟩
  · intro l k v h hlen hget
    have hsize : 0 ≤ l.size := by omega
    obtain ⟨m2, hi, hinv, _⟩ := LRU.insertAndEvict_take l k v hsize h hget
    have htake : (⟨l.nextPtr, k, v⟩ :: l.access).take l.size.toNat
        = ((⟨l.nextPtr, k, v⟩ : Element K V) :: l.access).dropLast := by
      rw [List.dropLast_eq_take]
      congr 1
      have := LRU.Inv_length l h
      simp only [List.length_cons]
      omega
    rw [htake] at hi hinv
    refine ⟨m2, ?_, ?_, hinv.1⟩
    · simp only [LRU.Put, hget, hi]
    · simp only [LRU.LoadOrPut, hget, hi]
  · intro size ops lf front back hrun hacc el hel
    have hsorted := LRU.lastAccess_sorted size ops lf hrun
    rw [hacc, List.pairwise_append] at hsorted
    exact hsorted.2.2 el hel back (by simp)

/-- Witness of C21: inserting key 3 into the full sample cache evicts its back element, key
1; and after `Put(1, 10)`, `Put(2, 20)`, `Load(1)` the back element is key 2, last accessed
by call 2, while key 1 was last accessed by call 3. -/
theorem lru_evicts_least_recently_used_witness :
    sampleCache.Inv ∧ (sampleCache.elements.length : Int) = sampleCache.size ∧
    LRU.mapGet sampleCache.elements 3 = none ∧
    LRU.Put sampleCache 3 30 = .ok ⟨2, [(3, 2), (2, 1)], [⟨2, 3, 30⟩, ⟨1, 2, 20⟩], 3⟩ ∧
    (∃ m2,
      LRU.Put sampleCache 3 30
        = .ok ⟨sampleCache.size, m2,
            (⟨sampleCache.nextPtr, 3, 30⟩ :: sampleCache.access).dropLast,
            sampleCache.nextPtr + 1⟩ ∧
      LRU.LoadOrPut sampleCache 3 30
        = .ok (⟨sampleCache.size, m2,
            (⟨sampleCache.nextPtr, 3, 30⟩ :: sampleCache.access).dropLast,
            sampleCache.nextPtr + 1⟩, 30, false) ∧
      m2.Perm (((⟨sampleCache.nextPtr, 3, 30⟩ :: sampleCache.access).dropLast).map
        (fun el => (el.key, el.ptr)))) ∧
    LRU.run (NewStateLRU 2) [CacheOp.put 1 10, CacheOp.put 2 20, CacheOp.load 1]
      = .ok ⟨2, [(2, 1), (1, 0)], [⟨0, 1, 10⟩, ⟨1, 2, 20⟩], 2⟩ ∧
    LRU.lastAccess (NewStateLRU 2) 1
        [CacheOp.put 1 10, CacheOp.put 2 20, CacheOp.load 1] 2
      < LRU.lastAccess (NewStateLRU 2) 1
        [CacheOp.put 1 10, CacheOp.put 2 20, CacheOp.load 1] 1 :=
  ⟨sampleCache_Inv, by decide, rfl, rfl,
    (lru_evicts_least_recently_used (K := Nat) (V := Nat)).1 sampleCache 3 30 sampleCache_Inv
      (by decide) rfl,
    rfl,
    (lru_evicts_least_recently_used (K := Nat) (V := Nat)).2.1 2
      [CacheOp.put 1 10, CacheOp.put 2 20, CacheOp.load 1]
      ⟨2, [(2, 1), (1, 0)], [⟨0, 1, 10⟩, ⟨1, 2, 20⟩], 2⟩ [⟨0, 1, 10⟩] ⟨1, 2, 20⟩ rfl rfl
      ⟨0, 1, 10⟩ (by simp)⟩

/-! ## The bounded caches: calls complete, representation invariant -/

theorem LRU.mem_keys_iff_mapGet {K V : Type} [DecidableEq K] (l : LRU K V) (h : l.Inv)
    (k : K) :
    (LRU.mapGet l.elements k).isSome = true ↔ k ∈ l.access.map (fun el => el.key) := by
  constructor
  · intro hs
    cases hget : LRU.mapGet l.elements k with
    | none => rw [hget] at hs; cases hs
    | some p =>
      obtain ⟨el, _, hel, hk, _⟩ := LRU.present l k p h hget
      exact List.mem_map.mpr ⟨el, hel, hk⟩
  · intro hk
    cases hget : LRU.mapGet l.elements k with
    | none => exact absurd hk (LRU.not_mem_keys_of_mapGet_none l k h hget)
    | some p => rfl

/-- C31, counterexample to the claim as stated: on an empty VM cache of size 0 the calls
`LoadOrPut(k, 1)` and `LoadOrPut(k, 2)`, run one after the other, each return their own
value with was_present = false, and nothing is stored under `k` afterwards. -/
theorem lru_racing_loadOrPut_size_zero :
    LRU.LoadOrPut (NewVMLRU 0) [7] 1 = .ok (⟨0, [], [], 1⟩, 1, false) ∧
    LRU.LoadOrPut (⟨0, [], [], 1⟩ : VMLRU) [7] 2 = .ok (⟨0, [], [], 2⟩, 2, false) ∧
    LRU.valueOf (⟨0, [], [], 2⟩ : VMLRU) [7] = none :=
  ⟨rfl, rfl, rfl⟩

/-- C31, as amended. Racing `LoadOrPut` calls agree: for an empty cache of size at least 1,
a key `k` and values `A` and `B`, in either order in which the calls `LoadOrPut(k, A)` and
`LoadOrPut(k, B)` take the mutex and run one after the other, the value of the call that
runs first is the one stored under `k` (the only entry of the cache), both calls return it,
and was_present is false for the first call and true for the second. -/
theorem lru_racing_loadOrPut_agree {K V : Type} [DecidableEq K] (l : LRU K V) (k : K)
    (A B : V) (h : l.Inv) (hempty : l.elements = []) (hsize : 1 ≤ l.size) :
    (∃ l1 l2, LRU.LoadOrPut l k A = .ok (l1, A, false) ∧
      LRU.LoadOrPut l1 k B = .ok (l2, A, true) ∧
      LRU.valueOf l2 k = some A ∧ l2.access = [⟨l.nextPtr, k, A⟩]) ∧
    (∃ l1 l2, LRU.LoadOrPut l k B = .ok (l1, B, false) ∧
      LRU.LoadOrPut l1 k A = .ok (l2, B, true) ∧
      LRU.valueOf l2 k = some B ∧ l2.access = [⟨l.nextPtr, k, B⟩]) := by
  have hacc : l.access = [] := by
    have := LRU.Inv_length l h
    rw [hempty] at this
    exact List.length_eq_zero.mp this
  have key : ∀ X Y : V, ∃ l1 l2, LRU.LoadOrPut l k X = .ok (l1, X, false) ∧
      LRU.LoadOrPut l1 k Y = .ok (l2, X, true) ∧
      LRU.valueOf l2 k = some X ∧ l2.access = [⟨l.nextPtr, k, X⟩] := by
    intro X Y
    have hget : LRU.mapGet l.elements k = none := by rw [hempty]; rfl
    obtain ⟨m2, hi, hinv, _⟩ := LRU.insertAndEvict_take l k X (by omega) h hget
    obtain ⟨n, hn⟩ : ∃ n, l.size.toNat = n + 1 := ⟨l.size.toNat - 1, by omega⟩
    have htake : (⟨l.nextPtr, k, X⟩ :: l.access).take l.size.toNat
        = [(⟨l.nextPtr, k, X⟩ : Element K V)] := by
      rw [hn, hacc, List.take_succ_cons, List.take_nil]
    rw [htake] at hi hinv
    have hfirst : LRU.LoadOrPut l k X
        = .ok (⟨l.size, m2, [⟨l.nextPtr, k, X⟩], l.nextPtr + 1⟩, X, false) := by
      simp only [LRU.LoadOrPut, hget, hi]
    refine ⟨_, _, hfirst, LRU.LoadOrPut_front _ ⟨l.nextPtr, k, X⟩ [] Y hinv rfl, ?_, rfl⟩
    simp [LRU.valueOf]
  exact ⟨key A B, key B A⟩

/-- Witness of C31 as amended: the new state cache of size 1, key 7, values 1 and 2. -/
theorem lru_racing_loadOrPut_agree_witness :
    (NewStateLRU 1).Inv ∧ (NewStateLRU 1).elements = [] ∧ (1 : Int) ≤ (NewStateLRU 1).size ∧
    LRU.LoadOrPut (NewStateLRU 1) 7 1 = .ok (⟨1, [(7, 0)], [⟨0, 7, 1⟩], 1⟩, 1, false) ∧
    LRU.LoadOrPut (⟨1, [(7, 0)], [⟨0, 7, 1⟩], 1⟩ : StateLRU) 7 2
      = .ok (⟨1, [(7, 0)], [⟨0, 7, 1⟩], 1⟩, 1, true) ∧
    LRU.LoadOrPut (NewStateLRU 1) 7 2 = .ok (⟨1, [(7, 0)], [⟨0, 7, 2⟩], 1⟩, 2, false) ∧
    LRU.LoadOrPut (⟨1, [(7, 0)], [⟨0, 7, 2⟩], 1⟩ : StateLRU) 7 1
      = .ok (⟨1, [(7, 0)], [⟨0, 7, 2⟩], 1⟩, 2, true) ∧
    (∃ l1 l2, LRU.LoadOrPut (NewStateLRU 1) 7 1 = .ok (l1, 1, false) ∧
      LRU.LoadOrPut l1 7 2 = .ok (l2, 1, true) ∧
      LRU.valueOf l2 7 = some 1 ∧ l2.access = [⟨(NewStateLRU 1).nextPtr, 7, 1⟩]) :=
  ⟨LRU.Inv_New 1, rfl, by decide, rfl, rfl, rfl, rfl,
    (lru_racing_loadOrPut_agree (NewStateLRU 1) 7 1 2 (LRU.Inv_New 1) rfl (by decide)).1⟩

/-- C32, counterexample to the claim as stated: on the VM cache created by `NewVMLRU(-1)`
the sequence `Load(k)`, `Put(k, 5)` does not complete: the `Put` evicts the entry it
inserted, the guard `len(l.elements) > l.size` still holds on the empty cache, and the value
of the missing back element is read. -/
theorem lru_negative_size_run_fails :
    LRU.run (NewVMLRU (-1)) [CacheOp.load [1], CacheOp.put [1] 5] = .error Fault.nilPointer ∧
    LRU.run (NewStateLRU (-3)) [CacheOp.loadOrPut 4 9] = .error Fault.nilPointer :=
  ⟨rfl, rfl⟩

/-- C32, as amended. Cache operations never fail: for every cache created by
`NewStateLRU(size)` or `NewVMLRU(size)` with a non-negative size, and every sequence of
`Load`, `LoadOrPut`, `Put` and `Remove` calls, each call completes without a runtime
failure: every sequence of calls runs to its end, and every further call on the cache it
leaves completes too. -/
theorem lru_calls_complete (size : Int) (hsize : 0 ≤ size) :
    (∀ (ops : List (CacheOp Nat Nat)) (op : CacheOp Nat Nat),
      ∃ l l2, LRU.run (NewStateLRU size) ops = .ok l ∧ LRU.step l op = .ok l2) ∧
    (∀ (ops : List (CacheOp Bytes Nat)) (op : CacheOp Bytes Nat),
      ∃ l l2, LRU.run (NewVMLRU size) ops = .ok l ∧ LRU.step l op = .ok l2) := by
  constructor
  · intro ops op
    obtain ⟨l, hrun, hinv, hsz, hlen⟩ := LRU.run_ok ops (NewStateLRU size) hsize
      (LRU.Inv_New size) (by simpa [NewStateLRU, LRU.New] using hsize)
    have hsz2 : 0 ≤ l.size := by rw [hsz]; exact hsize
    obtain ⟨l2, hstep, _⟩ := LRU.step_ok l op hsz2 hinv hlen
    exact ⟨l, l2, hrun, hstep⟩
  · intro ops op
    obtain ⟨l, hrun, hinv, hsz, hlen⟩ := LRU.run_ok ops (NewVMLRU size) hsize
      (LRU.Inv_New size) (by simpa [NewVMLRU, LRU.New] using hsize)
    have hsz2 : 0 ≤ l.size := by rw [hsz]; exact hsize
    obtain ⟨l2, hstep, _⟩ := LRU.step_ok l op hsz2 hinv hlen
    exact ⟨l, l2, hrun, hstep⟩

/-- Witness of C32 as amended: on the state cache of size 0 the calls `Put(1, 10)`,
`LoadOrPut(1, 20)`, `Remove(1)` complete, and so does a `Load(1)` after them. -/
theorem lru_calls_complete_witness :
    (0 : Int) ≤ 0 ∧
    LRU.run (NewStateLRU 0) [CacheOp.put 1 10, CacheOp.loadOrPut 1 20, CacheOp.remove 1]
      = .ok ⟨0, [], [], 2⟩ ∧
    ∃ l l2, LRU.run (NewStateLRU 0)
        [CacheOp.put 1 10, CacheOp.loadOrPut 1 20, CacheOp.remove 1] = .ok l ∧
      LRU.step l (CacheOp.load 1) = .ok l2 :=
  ⟨le_refl 0, rfl, (lru_calls_complete 0 (le_refl 0)).1 _ _⟩

/-- C40. Representation invariant of the caches: for every cache reached from a new cache
of non-negative size through `Load`, `LoadOrPut`, `Put` and `Remove` calls (every such
sequence completes), the access list holds no key twice, the key map has exactly the keys
of the access list, each key maps to the element of the list that carries that key, and the
key map and the access list have the same number of entries. -/
theorem lru_representation_invariant {K V : Type} [DecidableEq K] (size : Int)
    (hsize : 0 ≤ size) (ops : List (CacheOp K V)) :
    ∃ l, LRU.run (LRU.New size : LRU K V) ops = .ok l ∧
      (l.access.map (fun el => el.key)).Nodup ∧
      (∀ k, (LRU.mapGet l.elements k).isSome = true ↔ k ∈ l.access.map (fun el => el.key)) ∧
      (∀ k p, LRU.mapGet l.elements k = some p →
        ∃ el, LRU.deref l.access p = some el ∧ el ∈ l.access ∧ el.key = k) ∧
      l.elements.length = l.access.length := by
  obtain ⟨l, hrun, hinv, _, _⟩ := LRU.run_ok ops (LRU.New size : LRU K V) hsize
    (LRU.Inv_New size) (by simpa [LRU.New] using hsize)
  refine ⟨l, hrun, hinv.2.1, LRU.mem_keys_iff_mapGet l hinv, ?_, (LRU.Inv_length l hinv).symm⟩
  intro k p hget
  obtain ⟨el, hd, hel, hk, _⟩ := LRU.present l k p hinv hget
  exact ⟨el, hd, hel, hk⟩

/-- Witness of C40: the state cache of size 2 after `Put(1, 10)`, `Put(2, 20)`, `Load(1)`,
`Put(3, 30)`, `Remove(5)`. -/
theorem lru_representation_invariant_witness :
    (0 : Int) ≤ 2 ∧
    LRU.run (NewStateLRU 2)
        [CacheOp.put 1 10, CacheOp.put 2 20, CacheOp.load 1, CacheOp.put 3 30,
          CacheOp.remove 5]
      = .ok ⟨2, [(3, 2), (1, 0)], [⟨2, 3, 30⟩, ⟨0, 1, 10⟩], 3⟩ ∧
    ∃ l, LRU.run (LRU.New 2 : LRU Nat Nat)
        [CacheOp.put 1 10, CacheOp.put 2 20, CacheOp.load 1, CacheOp.put 3 30,
          CacheOp.remove 5] = .ok l ∧
      (l.access.map (fun el => el.key)).Nodup ∧
      (∀ k, (LRU.mapGet l.elements k).isSome = true ↔ k ∈ l.access.map (fun el => el.key)) ∧
      (∀ k p, LRU.mapGet l.elements k = some p →
        ∃ el, LRU.deref l.access p = some el ∧ el ∈ l.access ∧ el.key = k) ∧
      l.elements.length = l.access.length :=
  ⟨by decide, rfl, lru_representation_invariant 2 (by decide) _⟩

/-! ## The bounded caches under a renaming of keys and values -/

theorem LRU.mapGet_rename {K K2 : Type} [DecidableEq K] [DecidableEq K2] (f : K → K2)
    (hf : Function.Injective f) (m : List (K × Nat)) (key : K) :
    LRU.mapGet (m.map (fun kv => (f kv.1, kv.2))) (f key) = LRU.mapGet m key := by
  induction m with
  | nil => rfl
  | cons kv rest ih =>
    obtain ⟨k, p⟩ := kv
    simp only [List.map_cons, LRU.mapGet]
    by_cases hk : k = key
    · simp [hk]
    · have : f k ≠ f key := fun h => hk (hf h)
      simp [hk, this, ih]

theorem LRU.mapDelete_rename {K K2 : Type} [DecidableEq K] [DecidableEq K2] (f : K → K2)
    (hf : Function.Injective f) (m : List (K × Nat)) (key : K) :
    LRU.mapDelete (m.map (fun kv => (f kv.1, kv.2))) (f key)
      = (LRU.mapDelete m key).map (fun kv => (f kv.1, kv.2)) := by
  simp only [LRU.mapDelete, List.filter_map]
  congr 1
  apply List.filter_congr
  intro kv _
  simp [hf.eq_iff]

theorem LRU.deref_rename {K V K2 V2 : Type} (f : K → K2) (g : V → V2)
    (access : List (Element K V)) (p : Nat) :
    LRU.deref (access.map (Element.rename f g)) p
      = (LRU.deref access p).map (Element.rename f g) := by
  simp only [LRU.deref, List.find?_map]
  rfl

theorem LRU.filter_ptr_rename {K V K2 V2 : Type} (f : K → K2) (g : V → V2)
    (access : List (Element K V)) (p : Nat) :
    (access.map (Element.rename f g)).filter (fun x => decide (x.ptr ≠ p))
      = (access.filter (fun x => decide (x.ptr ≠ p))).map (Element.rename f g) := by
  rw [List.filter_map]
  rfl

theorem LRU.MoveToFront_rename {K V K2 V2 : Type} (f : K → K2) (g : V → V2)
    (access : List (Element K V)) (p : Nat) :
    LRU.MoveToFront (access.map (Element.rename f g)) p
      = (LRU.MoveToFront access p).map (Element.rename f g) := by
  simp only [LRU.MoveToFront, LRU.deref_rename]
  cases LRU.deref access p with
  | none => rfl
  | some el => simp only [Option.map_some', List.map_cons, LRU.filter_ptr_rename]

theorem LRU.setObj_rename {K V K2 V2 : Type} (f : K → K2) (g : V → V2)
    (access : List (Element K V)) (p : Nat) (val : V) :
    LRU.setObj (access.map (Element.rename f g)) p (g val)
      = (LRU.setObj access p val).map (Element.rename f g) := by
  simp only [LRU.setObj, List.map_map]
  apply List.map_congr_left
  intro el _
  simp only [Function.comp, Element.rename]
  split <;> rfl

theorem LRU.evictLoop_rename {K V K2 V2 : Type} [DecidableEq K] [DecidableEq K2] (f : K → K2)
    (g : V → V2) (hf : Function.Injective f) (size : Int) (access : List (Element K V)) :
    ∀ m : List (K × Nat),
      LRU.evictLoop size (m.map (fun kv => (f kv.1, kv.2))) (access.map (Element.rename f g))
        = match LRU.evictLoop size m access with
          | .error fault => .error fault
          | .ok (m2, acc2) =>
            .ok (m2.map (fun kv => (f kv.1, kv.2)), acc2.map (Element.rename f g)) := by
  induction access with
  | nil =>
    intro m
    simp only [List.map_nil, LRU.evictLoop, List.length_map]
    split <;> rfl
  | cons back rest ih =>
    intro m
    simp only [List.map_cons, LRU.evictLoop, List.length_map]
    split
    · have := ih (LRU.mapDelete m back.key)
      rw [← LRU.mapDelete_rename f hf] at this
      exact this
    · rfl

theorem LRU.insertAndEvict_rename {K V K2 V2 : Type} [DecidableEq K] [DecidableEq K2]
    (f : K → K2) (g : V → V2) (hf : Function.Injective f) (l : LRU K V) (key : K) (val : V) :
    LRU.insertAndEvict (LRU.rename f g l) (f key) (g val)
      = match LRU.insertAndEvict l key val with
        | .error fault => .error fault
        | .ok l2 => .ok (LRU.rename f g l2) := by
  have hset : LRU.mapSet (l.elements.map (fun kv => (f kv.1, kv.2))) (f key) l.nextPtr
      = (LRU.mapSet l.elements key l.nextPtr).map (fun kv => (f kv.1, kv.2)) := by
    simp only [LRU.mapSet, List.map_cons, LRU.mapDelete_rename f hf]
  have hrev : ((⟨l.nextPtr, f key, g val⟩ : Element K2 V2)
        :: l.access.map (Element.rename f g)).reverse
      = ((⟨l.nextPtr, key, val⟩ : Element K V) :: l.access).reverse.map
          (Element.rename f g) := by
    simp only [List.reverse_cons, List.map_append, List.map_reverse, List.map_cons,
      List.map_nil, Element.rename]
  simp only [LRU.insertAndEvict, LRU.rename, hset, hrev, LRU.evictLoop_rename f g hf]
  cases LRU.evictLoop l.size (LRU.mapSet l.elements key l.nextPtr)
      ((⟨l.nextPtr, key, val⟩ : Element K V) :: l.access).reverse with
  | error fault => rfl
  | ok r =>
    obtain ⟨m2, acc2⟩ := r
    simp only [List.map_reverse]

theorem LRU.call_rename {K V K2 V2 : Type} [DecidableEq K] [DecidableEq K2]
    (f : K → K2) (g : V → V2) (hf : Function.Injective f) (l : LRU K V) (op : CacheOp K V) :
    LRU.call (LRU.rename f g l) (CacheOp.rename f g op)
      = match LRU.call l op with
        | .error fault => .error fault
        | .ok (l2, r) => .ok (LRU.rename f g l2, Reply.rename g r) := by
  have hget : ∀ key, LRU.mapGet (l.elements.map (fun kv => (f kv.1, kv.2))) (f key)
      = LRU.mapGet l.elements key := fun key => LRU.mapGet_rename f hf l.elements key
  have hderef : ∀ p, LRU.deref (l.access.map (Element.rename f g)) p
      = (LRU.deref l.access p).map (Element.rename f g) :=
    fun p => LRU.deref_rename f g l.access p
  cases op with
  | load key =>
    cases hm : LRU.mapGet l.elements key with
    | none => simp only [CacheOp.rename, LRU.call, LRU.Load, LRU.rename, hget, hm, Reply.rename, Option.map]
    | some p =>
      cases hd : LRU.deref l.access p with
      | none => simp only [CacheOp.rename, LRU.call, LRU.Load, LRU.rename, hget, hm, hderef, hd, Option.map]
      | some el =>
        simp only [CacheOp.rename, LRU.call, LRU.Load, LRU.rename, hget, hm, hderef, hd, Option.map,
          LRU.rename, LRU.MoveToFront_rename, Reply.rename, Element.rename]
  | loadOrPut key val =>
    cases hm : LRU.mapGet l.elements key with
    | none =>
      have hi := LRU.insertAndEvict_rename f g hf l key val
      simp only [LRU.rename] at hi
      simp only [CacheOp.rename, LRU.call, LRU.LoadOrPut, LRU.rename, hget, hm, hi]
      cases LRU.insertAndEvict l key val with
      | error fault => rfl
      | ok l2 => rfl
    | some p =>
      cases hd : LRU.deref l.access p with
      | none =>
        simp only [CacheOp.rename, LRU.call, LRU.LoadOrPut, LRU.rename, hget, hm, hderef, hd, Option.map]
      | some el =>
        simp only [CacheOp.rename, LRU.call, LRU.LoadOrPut, LRU.rename, hget, hm, hderef, hd, Option.map,
          LRU.rename, LRU.MoveToFront_rename, Reply.rename, Element.rename]
  | put key val =>
    cases hm : LRU.mapGet l.elements key with
    | none =>
      have hi := LRU.insertAndEvict_rename f g hf l key val
      simp only [LRU.rename] at hi
      simp only [CacheOp.rename, LRU.call, LRU.Put, LRU.rename, hget, hm, hi]
      cases LRU.insertAndEvict l key val with
      | error fault => rfl
      | ok l2 => rfl
    | some p =>
      cases hd : LRU.deref l.access p with
      | none => simp only [CacheOp.rename, LRU.call, LRU.Put, LRU.rename, hget, hm, hderef, hd, Option.map]
      | some el =>
        simp only [CacheOp.rename, LRU.call, LRU.Put, LRU.rename, hget, hm, hderef, hd, Option.map,
          LRU.rename, LRU.setObj_rename, LRU.MoveToFront_rename, Reply.rename]
  | remove key =>
    cases hm : LRU.mapGet l.elements key with
    | none => simp only [CacheOp.rename, LRU.call, LRU.Remove, LRU.rename, hget, hm, Reply.rename]
    | some p =>
      simp only [CacheOp.rename, LRU.call, LRU.Remove, LRU.rename, hget, hm, LRU.rename,
        LRU.mapDelete_rename f hf, LRU.listRemove, LRU.filter_ptr_rename, Reply.rename]

theorem LRU.trace_rename {K V K2 V2 : Type} [DecidableEq K] [DecidableEq K2]
    (f : K → K2) (g : V → V2) (hf : Function.Injective f) (ops : List (CacheOp K V)) :
    ∀ l : LRU K V,
      LRU.trace (LRU.rename f g l) (ops.map (CacheOp.rename f g))
        = LRU.renameOutcome f g (LRU.trace l ops) := by
  induction ops with
  | nil => intro l; rfl
  | cons op ops ih =>
    intro l
    simp only [List.map_cons, LRU.trace, LRU.call_rename f g hf]
    cases LRU.call l op with
    | error fault => rfl
    | ok r =>
      obtain ⟨l2, r⟩ := r
      simp only [ih l2]
      cases LRU.trace l2 ops with
      | error fault => rfl
      | ok r2 => rfl

/-! ## Frame of `acceptTransaction` and of the acceptance tick -/

theorem tick_Get_accepted (e : Env) (st : Store) (x : Symbol) :
    (updatedAcceptedTransactions e st).store.Get (acceptedKey x) = st.Get (acceptedKey x) ∨
    (updatedAcceptedTransactions e st).store.Get (acceptedKey x)
      = some (writeBoolean true) := by
  refine tick_induct e
    (fun st2 => st2.Get (acceptedKey x) = st.Get (acceptedKey x) ∨
      st2.Get (acceptedKey x) = some (writeBoolean true)) ?_ ?_ st (Or.inl rfl)
  · intro st2 tx _ _ h
    have hne : merge BucketAcceptPending (writeBytes tx.Id) ≠ acceptedKey x :=
      fun hh => acceptedKey_ne_pendingKey x tx.Id hh.symm
    rw [Store.Get_Put, if_neg hne]
    exact h
  · intro st2 k tx _ _ _ h
    rw [acceptTransaction_Get_accepted]
    by_cases hx : x = k
    · rw [if_pos hx]; exact Or.inr rfl
    · rw [if_neg hx]; exact h

/-- C39. Frame of accept and of the tick: `acceptTransaction(s)` leaves the entry of every
symbol other than `s` in the accepted bucket as it was (present with the same value, or
absent); an acceptance tick leaves each entry of the accepted bucket as it was or sets it to
true, so it removes no key from the bucket, and every symbol accepted before the tick is
accepted after it. -/
theorem accept_and_tick_frame (e : Env) (st : Store) :
    (∀ s x, x ≠ s →
      (acceptTransaction e st s).Get (acceptedKey x) = st.Get (acceptedKey x) ∧
      WasAccepted (acceptTransaction e st s) x = WasAccepted st x) ∧
    (∀ x, (updatedAcceptedTransactions e st).store.Get (acceptedKey x)
        = st.Get (acceptedKey x) ∨
      (updatedAcceptedTransactions e st).store.Get (acceptedKey x)
        = some (writeBoolean true)) ∧
    (∀ x, st.Get (acceptedKey x) ≠ none →
      (updatedAcceptedTransactions e st).store.Get (acceptedKey x) ≠ none) ∧
    (∀ x, WasAccepted st x = true →
      WasAccepted (updatedAcceptedTransactions e st).store x = true) := by
  refine ⟨?_, tick_Get_accepted e st, ?_, fun x h => WasAccepted_tick_mono e st x h⟩
  · intro s x hx
    constructor
    · rw [acceptTransaction_Get_accepted, if_neg hx]
    · rw [WasAccepted_acceptTransaction, if_neg hx]
  · intro x hx
    rcases tick_Get_accepted e st x with h | h
    · rw [h]; exact hx
    · rw [h]; exact fun hh => Option.noConfusion hh

/-- Witness of C39 on the sample ledger, where `symA` is accepted and `symB` is pending:
accepting `symB` leaves the entry of `symA` alone, and `symA` is still accepted after a
tick. -/
theorem accept_and_tick_frame_witness :
    symA ≠ symB ∧ WasAccepted sampleStore symA = true ∧
    WasAccepted (acceptTransaction sampleEnv sampleStore symB) symA
      = WasAccepted sampleStore symA ∧
    WasAccepted (updatedAcceptedTransactions sampleEnv sampleStore).store symA = true :=
  ⟨by decide, by decide,
    ((accept_and_tick_frame sampleEnv sampleStore).1 symB symA (by decide)).2,
    (accept_and_tick_frame sampleEnv sampleStore).2.2.2 symA (by decide)⟩

/-! ## Conflict sets and the acceptance tick -/

theorem SameConflictKey_symm (e : Env) (x y : Symbol) (h : SameConflictKey e x y) :
    SameConflictKey e y x := by
  obtain ⟨tx, ty, hx, hy, hs, hn⟩ := h
  exact ⟨ty, tx, hy, hx, hs.symm, hn.symm⟩

theorem doubleSpendStore_WasAccepted (s : Symbol) :
    WasAccepted doubleSpendStore s = true ↔ s = symA := by
  have hne : ¬ pendingKey symB = merge BucketAccepted (writeBytes s) :=
    fun hh => acceptedKey_ne_pendingKey s symB hh.symm
  have hne3 : ¬ pendingKey symD = merge BucketAccepted (writeBytes s) :=
    fun hh => acceptedKey_ne_pendingKey s symD hh.symm
  by_cases hs : s = symA
  · subst hs
    simp [WasAccepted, doubleSpendStore, Store.Get, acceptedKey, readBoolean]
  · have hne2 : ¬ acceptedKey symA = merge BucketAccepted (writeBytes s) :=
      fun hh => hs (acceptedKey_inj hh).symm
    simp [WasAccepted, doubleSpendStore, Store.Get, hne, hne2, hne3, hs, readBoolean]

theorem doubleSpendStore_ConflictFree (e : Env) : ConflictFree e doubleSpendStore := by
  intro x y hxy hx hy _
  rw [doubleSpendStore_WasAccepted] at hx hy
  exact hxy (hx.trans hy.symm)

/-! ## The emit step of the acceptance tick -/

theorem mapM_trimId_none (l : List Symbol) (s : Symbol) (hs : s ∈ l) (hlen : s.length < 10) :
    l.mapM trimId = none := by
  induction l with
  | nil => cases hs
  | cons a rest ih =>
    rw [List.mapM_cons]
    rcases List.mem_cons.mp hs with h | h
    · subst h
      simp [trimId, hlen]
    · rw [ih h]
      cases trimId a <;> rfl

theorem emitAccepted_none (l : List Symbol) (s : Symbol) (hs : s ∈ l) (hlen : s.length < 10) :
    emitAccepted l = none := by
  have hpos : l.length > 0 := List.length_pos_of_mem hs
  simp only [emitAccepted, hpos, if_true]
  exact mapM_trimId_none l s hs hlen

theorem tick_logged (e : Env) (st : Store) :
    (updatedAcceptedTransactions e st).logged
      = emitAccepted (updatedAcceptedTransactions e st).acceptedList := by
  unfold updatedAcceptedTransactions
  split
  · split
    · rfl
    · rfl
  · rfl

/-- C38, the defect: whenever a tick accepts a symbol shorter than 10 bytes, the slice
`acceptedList[i][:10]` of the emit step is out of range: the tick does not complete its emit
step, and the tick loop that ran it ends in a runtime failure. -/
theorem emit_fails_on_short_symbol (e : Env) (st : Store) (s : Symbol)
    (hs : s ∈ (updatedAcceptedTransactions e st).acceptedList) (hlen : s.length < 10) :
    (updatedAcceptedTransactions e st).logged = none ∧
    (UpdateAcceptedTransactions e st [SelectCase.timer]).failed = true := by
  have hlog : (updatedAcceptedTransactions e st).logged = none := by
    rw [tick_logged]
    exact emitAccepted_none _ s hs hlen
  refine ⟨hlog, ?_⟩
  simp only [UpdateAcceptedTransactions, List.foldl, tickLoopStep, if_true, hlog]

/-- Witness of C38: the bootstrap scenario with the one-byte genesis symbol `g` on the empty
store. The first tick inserts `g`, accepts it and fails in its emit step. -/
theorem emit_fails_on_short_symbol_witness :
    (updatedAcceptedTransactions shortEnv []).acceptedList = [symG] ∧
    symG.length = 1 ∧
    WasAccepted (updatedAcceptedTransactions shortEnv []).store symG = true ∧
    trimId symG = none ∧
    (updatedAcceptedTransactions shortEnv []).logged = none ∧
    (UpdateAcceptedTransactions shortEnv [] [SelectCase.timer]).failed = true :=
  ⟨by decide, rfl, by decide, rfl,
    emit_fails_on_short_symbol shortEnv [] symG (by decide) (by decide)⟩

/-! ## Request binding: signature check and tag check -/

/-- C35, the defect: for every well-formed session-init body whose `public_key` and
`signature` are hex strings of the required sizes, when the verification of the signature
over `perlin_session_init_` followed by `time_millis` fails, `bind` returns the nil error:
the error it wraps is the nil error of the last hex decoding, and wrapping nil gives nil. -/
theorem sessionInit_bad_signature_returns_nil (e : ApiEnv) (s : sessionInitRequest)
    (body : Bytes) (v : Json) (pk sg raw pkBuf sgBuf : Bytes) (t : Nat)
    (hvalid : e.ValidateBytes body = none) (hparse : e.ParseBytes body = .ok v)
    (hpk : v.Get keyPublicKey = some (.string pk))
    (hsg : v.Get keySignature = some (.string sg))
    (htm : v.Get keyTimeMillis = some (.number raw))
    (ht : Json.Uint64 (.number raw) = (t, none))
    (hpkhex : hex.DecodeString pk = (pkBuf, none)) (hpklen : pkBuf.length = e.SizeAccountID)
    (hsghex : hex.DecodeString sg = (sgBuf, none)) (hsglen : sgBuf.length = e.SizeSignature)
    (hbad : e.Verify (copyArray SizePublicKey pkBuf) (Sprintf SessionInitMessage t)
      (copyArray SizeEdSignature sgBuf) = false) :
    sessionInitRequest.bind e s body = (⟨pk, sg, t⟩, none) := by
  simp only [sessionInitRequest.bind, hvalid, hparse, hpk, hsg, htm, ht, Json.TypeOf,
    Json.StringBytes, hpkhex, hsghex, hpklen, hsglen, hbad, errors.Wrap, ne_eq,
    not_true_eq_false, if_false, Bool.not_false, if_true]

/-- Witness of C35: the sample session-init text, whose all-zero signature does not verify
under the toy scheme for the message `perlin_session_init_1`; `bind` returns nil. -/
theorem sessionInit_bad_signature_returns_nil_witness :
    sampleApi.Verify (copyArray SizePublicKey (List.replicate 32 0))
      (Sprintf SessionInitMessage 1) (copyArray SizeEdSignature (List.replicate 64 0))
      = false ∧
    (sessionInitRequest.bind sampleApi ⟨[], [], 0⟩ sessionBody).2 = none :=
  ⟨by decide,
    congrArg Prod.snd
      (sessionInit_bad_signature_returns_nil sampleApi ⟨[], [], 0⟩ sessionBody sessionJson
        (List.replicate 64 48) (List.replicate 128 48) [49] (List.replicate 32 0)
        (List.replicate 64 0) 1 (by simp [sampleApi]) (by simp [sampleApi]) rfl rfl rfl
        (by decide) (by decide) rfl (by decide) rfl (by decide))⟩

theorem transferBody_ne_sessionBody : transferBody ≠ sessionBody :=
  fun h => absurd (congrArg (fun l => l.take 3) h) (by decide)

/-- C36, the defect: the tag check follows the conversion `byte(tag)`. For every well-formed
send-transaction body whose tag is a number greater than `sys.TagBatch` with a low byte of
at most `sys.TagBatch` (256 for instance), `bind` returns the nil error and stores the low
byte, a tag other than the one sent, whether the signature verifies over that low byte or
not. -/
theorem sendTransaction_unknown_tag_returns_nil (e : ApiEnv) (s : sendTransactionRequest)
    (body : Bytes) (v : Json) (sender payload sg raw senderBuf payloadBuf sgBuf : Bytes)
    (tag : Nat)
    (hvalid : e.ValidateBytes body = none) (hparse : e.ParseBytes body = .ok v)
    (hsender : v.Get keySender = some (.string sender))
    (hpayload : v.Get keyPayload = some (.string payload))
    (hsg : v.Get keySignature = some (.string sg))
    (htag : v.Get keyTag = some (.number raw))
    (huint : Json.Uint (.number raw) = (tag, none))
    (hunknown : tag > e.TagBatch) (hlow : tag % 256 ≤ e.TagBatch)
    (hsenderhex : hex.DecodeString sender = (senderBuf, none))
    (hsenderlen : senderBuf.length = e.SizeAccountID)
    (hpayloadhex : hex.DecodeString payload = (payloadBuf, none))
    (hsghex : hex.DecodeString sg = (sgBuf, none))
    (hsglen : sgBuf.length = e.SizeSignature) :
    (sendTransactionRequest.bind e s body).2 = none ∧
    (sendTransactionRequest.bind e s body).1.Tag = tag % 256 ∧
    (sendTransactionRequest.bind e s body).1.Tag ≠ tag := by
  have hnot : ¬ tag % 256 > e.TagBatch := by omega
  have hne : tag % 256 ≠ tag := by omega
  cases hver : e.Verify (copyArray e.SizeAccountID senderBuf)
      (List.replicate 8 0 ++ ([tag % 256] ++ payloadBuf)) (copyArray SizeEdSignature sgBuf) <;>
  simp only [sendTransactionRequest.bind, hvalid, hparse, hsender, hpayload, hsg, htag, huint,
    Json.TypeOf, Json.StringBytes, hsenderhex, hpayloadhex, hsghex, hsenderlen, hsglen, hnot,
    hver, errors.Wrap, ne_eq, not_true_eq_false, if_false, Bool.not_false, Bool.not_true,
    if_true, Bool.false_eq_true, and_self, hne, not_false_eq_true]

/-- Witness of C36: the sample send-transaction text with tag 256 and a signature that
verifies, under the toy scheme, for the tag 0; `bind` returns nil and stores the tag 0. -/
theorem sendTransaction_unknown_tag_returns_nil_witness :
    Json.Uint (.number [50, 53, 54]) = (256, none) ∧
    256 > sampleApi.TagBatch ∧ 256 % 256 ≤ sampleApi.TagBatch ∧
    sampleApi.Verify (copyArray sampleApi.SizeAccountID (List.replicate 32 0))
      (List.replicate 8 0 ++ ([256 % 256] ++ []))
      (copyArray SizeEdSignature (List.replicate 64 0)) = true ∧
    (sendTransactionRequest.bind sampleApi ⟨[], 0, [], [], [], [], []⟩ transferBody).2 = none ∧
    (sendTransactionRequest.bind sampleApi ⟨[], 0, [], [], [], [], []⟩ transferBody).1.Tag
      = 256 % 256 ∧
    (sendTransactionRequest.bind sampleApi ⟨[], 0, [], [], [], [], []⟩ transferBody).1.Tag
      ≠ 256 :=
  ⟨by decide, by decide, by decide, by decide,
    sendTransaction_unknown_tag_returns_nil sampleApi ⟨[], 0, [], [], [], [], []⟩ transferBody
      transferJson (List.replicate 64 48) [] (List.replicate 128 48) [50, 53, 54]
      (List.replicate 32 0) [] (List.replicate 64 0) 256 (by simp [sampleApi])
      (by simp [sampleApi, transferBody_ne_sessionBody]) rfl rfl rfl rfl (by decide) (by decide) (by decide) (by decide) rfl
      rfl (by decide) rfl⟩


/-- The part of the tag check that works: a send-transaction body that does not parse, or
whose `tag` is missing, is not a number, is a number that `Uint()` rejects, or is a number
between `sys.TagBatch + 1` and 255, makes `bind` return an error. -/
theorem sendTransaction_rejects_bad_byte_tag (e : ApiEnv) (s : sendTransactionRequest)
    (body : Bytes)
    (hbad : ∀ v, e.ParseBytes body = .ok v →
      v.Get keyTag = none ∨
      (∃ tv, v.Get keyTag = some tv ∧ tv.TypeOf ≠ JsonType.TypeNumber) ∨
      (∃ tv n err, v.Get keyTag = some tv ∧ tv.Uint = (n, some err)) ∨
      (∃ tv tag, v.Get keyTag = some tv ∧ tv.Uint = (tag, none) ∧
        e.TagBatch < tag ∧ tag < 256)) :
    (sendTransactionRequest.bind e s body).2 ≠ none := by
  cases hparse : e.ParseBytes body with
  | error err =>
    simp only [sendTransactionRequest.bind, hparse]
    split <;> simp [errors.Wrap]
  | ok v =>
    rcases hbad v hparse with h | ⟨tv, h1, h2⟩ | ⟨tv, n, err, h1, h2⟩ |
      ⟨tv, tag, h1, h2, h3, h4⟩
    · simp only [sendTransactionRequest.bind, hparse, h]
      repeat' split
      all_goals simp [errors.Wrap, errors.New, errors.Errorf]
    · simp only [sendTransactionRequest.bind, hparse, h1, h2, ne_eq, not_false_eq_true,
        if_true]
      repeat' split
      all_goals simp [errors.Wrap, errors.New, errors.Errorf]
    · simp only [sendTransactionRequest.bind, hparse, h1, h2]
      repeat' split
      all_goals simp [errors.Wrap, errors.New, errors.Errorf]
    · have hgt : tag % 256 > e.TagBatch := by rw [Nat.mod_eq_of_lt h4]; exact h3
      simp only [sendTransactionRequest.bind, hparse, h1, h2, hgt, if_true]
      repeat' split
      all_goals simp [errors.Wrap, errors.New, errors.Errorf]

/-! ## Ancestor closure and bucket exclusivity on concrete ledgers -/

theorem chainStore_AncestorClosed : AncestorClosed deepEnv chainStore := by
  intro s p hs hp
  have hp2 : ParentOf sampleEnv s p := hp
  rw [sampleEnv_ParentOf] at hp2
  rcases hp2 with ⟨h1, h2⟩ | ⟨h1, h2⟩
  · subst h1; decide
  · subst h1 h2; exact absurd hs (by decide)

theorem fullStore_AncestorClosed : AncestorClosed deepEnv fullStore := by
  intro s p hs hp
  have hp2 : ParentOf sampleEnv s p := hp
  rw [sampleEnv_ParentOf] at hp2
  rcases hp2 with ⟨h1, h2⟩ | ⟨h1, h2⟩
  · subst h1; decide
  · subst h1; decide

/-- Witness of C1 on the chain `a ← b ← c` where every symbol passes the fast path. From the
store with `symA`, `symB` accepted and `symC` pending the tick accepts `symC`, whose parent
`symB` is accepted; from the store with the whole chain accepted, reverting `symB` also
reverts its child `symC` and leaves `symA` accepted, and reverting `symC` leaves `symB`
accepted with its parent `symA`. -/
theorem ancestor_closure_invariant_witness :
    FiniteGraph deepEnv ∧ (∀ p c, ChildOf deepEnv p c ↔ ParentOf deepEnv c p) ∧
    AncestorClosed deepEnv chainStore ∧ ParentOf deepEnv symB symA ∧
    ParentOf deepEnv symC symB ∧
    WasAccepted chainStore symB = true ∧ WasAccepted chainStore symC = false ∧
    WasAccepted (updatedAcceptedTransactions deepEnv chainStore).store symC = true ∧
    WasAccepted (updatedAcceptedTransactions deepEnv chainStore).store symB = true ∧
    AncestorClosed deepEnv (updatedAcceptedTransactions deepEnv chainStore).store ∧
    AncestorClosed deepEnv fullStore ∧ WasAccepted fullStore symC = true ∧
    WasAccepted (revertTransaction deepEnv fullStore symB) symA = true ∧
    WasAccepted (revertTransaction deepEnv fullStore symB) symB = false ∧
    WasAccepted (revertTransaction deepEnv fullStore symB) symC = false ∧
    AncestorClosed deepEnv (revertTransaction deepEnv fullStore symB) ∧
    WasAccepted (revertTransaction deepEnv fullStore symC) symB = true ∧
    AncestorClosed deepEnv (revertTransaction deepEnv fullStore symC) :=
  ⟨sampleEnv_finite, sampleEnv_converse, chainStore_AncestorClosed,
    (sampleEnv_ParentOf symB symA).mpr (Or.inl ⟨rfl, rfl⟩),
    (sampleEnv_ParentOf symC symB).mpr (Or.inr ⟨rfl, rfl⟩),
    by decide, by decide, by decide, by decide,
    (ancestor_closure_invariant deepEnv chainStore sampleEnv_finite sampleEnv_converse
      chainStore_AncestorClosed).1,
    fullStore_AncestorClosed, by decide, by decide, by decide, by decide,
    (ancestor_closure_invariant deepEnv fullStore sampleEnv_finite sampleEnv_converse
      fullStore_AncestorClosed).2 symB,
    by decide,
    (ancestor_closure_invariant deepEnv fullStore sampleEnv_finite sampleEnv_converse
      fullStore_AncestorClosed).2 symC⟩

/-! ## Bucket exclusivity by key -/

theorem KeyExclusive_iff_Exclusive (st : Store) (h : AcceptedValuesTrue st) :
    KeyExclusive st ↔ Exclusive st :=
  (Exclusive_iff_keys st h).symm

theorem AcceptedValuesTrue_bootstrap (st : Store) (s : Symbol) (h : AcceptedValuesTrue st) :
    AcceptedValuesTrue (st.Put (merge BucketAcceptPending (writeBytes s)) [0]) := by
  intro x v hv
  rw [Store.Get_Put] at hv
  have hne : ¬ merge BucketAcceptPending (writeBytes s) = acceptedKey x :=
    fun hh => acceptedKey_ne_pendingKey x s hh.symm
  simp only [hne, if_false] at hv
  exact h x v hv

theorem falseStore_KeyExclusive : KeyExclusive falseStore := by
  intro s hs
  apply hs.2
  have hne : ¬ acceptedKey symB = pendingKey s := acceptedKey_ne_pendingKey symB s
  simp [falseStore, Store.Get, hne]

theorem sampleStore_AcceptedValuesTrue : AcceptedValuesTrue sampleStore := by
  intro s v hv
  have hne : ¬ pendingKey symB = acceptedKey s :=
    fun hh => acceptedKey_ne_pendingKey s symB hh.symm
  simp only [sampleStore, Store.Get, hne, if_false] at hv
  split at hv
  · cases hv; rfl
  · cases hv

/-- C2, counterexample to the claim as stated: in the store whose only entry is the key of
`symB` in the accepted bucket with the false byte, no symbol has a key in both buckets;
`acceptTransaction(symA)` reads `symB`, a child of `symA`, as not accepted and puts its key
in the pending bucket, so that `symB` has a key in both buckets afterwards. -/
theorem accept_breaks_key_exclusivity :
    KeyExclusive falseStore ∧
    (acceptTransaction sampleEnv falseStore symA).Get (acceptedKey symB) ≠ none ∧
    InPending (acceptTransaction sampleEnv falseStore symA) symB ∧
    ¬ KeyExclusive (acceptTransaction sampleEnv falseStore symA) := by
  refine ⟨falseStore_KeyExclusive, by decide, by decide, ?_⟩
  intro h
  exact h symB ⟨by decide, by decide⟩

/-- C2, as amended. Bucket exclusivity is an invariant: starting from a store in which no
symbol has a key in both `BucketAccepted` and `BucketAcceptPending` and in which every value
of `BucketAccepted` reads as true (the only value the code writes there), after any of the
bootstrap step (made when both buckets are empty), `acceptTransaction(s)`,
`revertTransaction(s)` or a whole acceptance tick, no symbol has a key in both buckets, and
every value of `BucketAccepted` still reads as true. -/
theorem bucket_exclusivity_invariant (e : Env) (st : Store) (hex : KeyExclusive st)
    (hval : AcceptedValuesTrue st) :
    (∀ tx : Transaction, st.Size BucketAcceptPending = 0 → st.Size BucketAccepted = 0 →
      KeyExclusive (st.Put (merge BucketAcceptPending (writeBytes tx.Id)) [0]) ∧
      AcceptedValuesTrue (st.Put (merge BucketAcceptPending (writeBytes tx.Id)) [0])) ∧
    (∀ s, KeyExclusive (acceptTransaction e st s) ∧
      AcceptedValuesTrue (acceptTransaction e st s)) ∧
    (∀ s, KeyExclusive (revertTransaction e st s) ∧
      AcceptedValuesTrue (revertTransaction e st s)) ∧
    KeyExclusive (updatedAcceptedTransactions e st).store ∧
    AcceptedValuesTrue (updatedAcceptedTransactions e st).store := by
  have hex2 : Exclusive st := (KeyExclusive_iff_Exclusive st hval).mp hex
  refine ⟨?_, ?_, ?_, ?_, AcceptedValuesTrue_tick e st hval⟩
  · intro tx _ hacc
    have hv := AcceptedValuesTrue_bootstrap st tx.Id hval
    exact ⟨(KeyExclusive_iff_Exclusive _ hv).mpr (Exclusive_bootstrap st tx.Id hacc), hv⟩
  · intro s
    have hv := AcceptedValuesTrue_acceptTransaction e st s hval
    exact ⟨(KeyExclusive_iff_Exclusive _ hv).mpr (Exclusive_acceptTransaction e st s hex2), hv⟩
  · intro s
    have hv := AcceptedValuesTrue_revertTransaction e st s hval
    exact ⟨(KeyExclusive_iff_Exclusive _ hv).mpr
      (Exclusive_revertLoop e _ ⟨st, [s], []⟩ hex2), hv⟩
  · refine (KeyExclusive_iff_Exclusive _ (AcceptedValuesTrue_tick e st hval)).mpr ?_
    refine tick_induct e Exclusive ?_ ?_ st hex2
    · intro st2 tx _ hacc _
      exact Exclusive_bootstrap st2 tx.Id hacc
    · intro st2 k _ _ _ _ h
      exact Exclusive_acceptTransaction e st2 k h

/-- Witness of C2 as amended. On the sample ledger, with `symA` accepted and `symB`
pending: accepting `symB` moves its key from the pending to the accepted bucket and puts
its child `symC` in the pending bucket; reverting `symA` moves its key to the pending
bucket. On the empty store the bootstrap step puts the genesis in the pending bucket. -/
theorem bucket_exclusivity_invariant_witness :
    KeyExclusive sampleStore ∧ AcceptedValuesTrue sampleStore ∧
    InPending sampleStore symB ∧ sampleStore.Get (acceptedKey symA) ≠ none ∧
    (acceptTransaction sampleEnv sampleStore symB).Get (acceptedKey symB) ≠ none ∧
    ¬ InPending (acceptTransaction sampleEnv sampleStore symB) symB ∧
    InPending (acceptTransaction sampleEnv sampleStore symB) symC ∧
    KeyExclusive (acceptTransaction sampleEnv sampleStore symB) ∧
    (revertTransaction sampleEnv sampleStore symA).Get (acceptedKey symA) = none ∧
    InPending (revertTransaction sampleEnv sampleStore symA) symA ∧
    KeyExclusive (revertTransaction sampleEnv sampleStore symA) ∧
    KeyExclusive (updatedAcceptedTransactions sampleEnv sampleStore).store ∧
    KeyExclusive ([] : Store) ∧ AcceptedValuesTrue ([] : Store) ∧
    KeyExclusive (Store.Put [] (merge BucketAcceptPending (writeBytes txA.Id)) [0]) :=
  ⟨(KeyExclusive_iff_Exclusive _ sampleStore_AcceptedValuesTrue).mpr sampleStore_Exclusive,
    sampleStore_AcceptedValuesTrue, by decide, by decide, by decide, by decide, by decide,
    ((bucket_exclusivity_invariant sampleEnv sampleStore
      ((KeyExclusive_iff_Exclusive _ sampleStore_AcceptedValuesTrue).mpr sampleStore_Exclusive)
      sampleStore_AcceptedValuesTrue).2.1 symB).1,
    by decide, by decide,
    ((bucket_exclusivity_invariant sampleEnv sampleStore
      ((KeyExclusive_iff_Exclusive _ sampleStore_AcceptedValuesTrue).mpr sampleStore_Exclusive)
      sampleStore_AcceptedValuesTrue).2.2.1 symA).1,
    (bucket_exclusivity_invariant sampleEnv sampleStore
      ((KeyExclusive_iff_Exclusive _ sampleStore_AcceptedValuesTrue).mpr sampleStore_Exclusive)
      sampleStore_AcceptedValuesTrue).2.2.2.1,
    (fun s hs => hs.1 rfl), (fun s v hv => (by cases hv)),
    ((bucket_exclusivity_invariant sampleEnv []
      (fun s hs => hs.1 rfl) (fun s v hv => (by cases hv))).1 txA rfl rfl).1⟩

/-! ## Conflict sets and the strong path -/

/-- C37, the defect: the strong path accepts every pending member of a conflict set. Two
distinct pending symbols with the same sender and nonce, parents accepted, whose conflict
set has a count above `Beta2`, are both accepted by one tick, whatever the preferred symbol
of the set is; the store after the tick has two distinct accepted symbols that share a
conflict key. -/
theorem tick_accepts_two_members_of_conflict_set (e : Env) (st : Store) (x y : Symbol)
    (tx ty : Transaction) (set : ConflictSet) (h : Hll) (hxy : x ≠ y)
    (hpx : InPending st x) (hpy : InPending st y)
    (htx : e.GetBySymbol x = .ok tx) (hty : e.GetBySymbol y = .ok ty)
    (hsender : tx.Sender = ty.Sender) (hnonce : tx.Nonce = ty.Nonce)
    (hset : e.GetConflictSet tx.Sender tx.Nonce = .ok set)
    (hh : e.UnmarshalPb set.Transactions = .ok h)
    (hparx : ∀ p ∈ tx.Parents, WasAccepted st p = true)
    (hpary : ∀ p ∈ ty.Parents, WasAccepted st p = true)
    (hnax : WasAccepted st x = false) (hnay : WasAccepted st y = false)
    (hcount : set.Count > e.Beta2) :
    WasAccepted (updatedAcceptedTransactions e st).store x = true ∧
    WasAccepted (updatedAcceptedTransactions e st).store y = true ∧
    SameConflictKey e x y ∧
    ¬ ConflictFree e (updatedAcceptedTransactions e st).store := by
  have htick := updatedAcceptedTransactions_of_pending e st (Size_ne_zero_of_InPending st x hpx)
  have hsety : e.GetConflictSet ty.Sender ty.Nonce = .ok set := by
    rw [← hsender, ← hnonce]; exact hset
  have hx : WasAccepted (updatedAcceptedTransactions e st).store x = true := by
    rw [htick]
    exact (scan_accepts e x tx set h htx hset hh (Or.inl hcount)
      (st.bucketKeys BucketAcceptPending) ⟨st, []⟩ hparx
      (Or.inr ⟨hnax, mem_bucketKeys_of_InPending st x hpx⟩)).1
  have hy : WasAccepted (updatedAcceptedTransactions e st).store y = true := by
    rw [htick]
    exact (scan_accepts e y ty set h hty hsety hh (Or.inl hcount)
      (st.bucketKeys BucketAcceptPending) ⟨st, []⟩ hpary
      (Or.inr ⟨hnay, mem_bucketKeys_of_InPending st y hpy⟩)).1
  have hkey : SameConflictKey e x y := ⟨tx, ty, htx, hty, hsender, hnonce⟩
  exact ⟨hx, hy, hkey, fun hfree => hfree x y hxy hx hy hkey⟩

/-- Witness of C37: `symB` and `symD` are the two children of the accepted `symA`, both
pending, with the same sender and nonce; their conflict set prefers `symB`, holds two
members and has the count `Beta2 + 1`. No two accepted symbols share a conflict key before
the tick; after it `symB` and the conflicting `symD` are both accepted. -/
theorem tick_accepts_two_members_of_conflict_set_witness :
    ConflictFree doubleSpendEnv doubleSpendStore ∧ symB ≠ symD ∧
    doubleSpendEnv.GetConflictSet txB.Sender txB.Nonce = .ok ⟨symB, 11, [7, 8]⟩ ∧
    doubleSpendEnv.Cardinality ⟨[7, 8]⟩ = 2 ∧ doubleSpendEnv.Beta2 = 10 ∧
    (updatedAcceptedTransactions doubleSpendEnv doubleSpendStore).acceptedList
      = [symB, symD] ∧
    WasAccepted (updatedAcceptedTransactions doubleSpendEnv doubleSpendStore).store symB
      = true ∧
    WasAccepted (updatedAcceptedTransactions doubleSpendEnv doubleSpendStore).store symD
      = true ∧
    SameConflictKey doubleSpendEnv symB symD ∧
    ¬ ConflictFree doubleSpendEnv
        (updatedAcceptedTransactions doubleSpendEnv doubleSpendStore).store :=
  ⟨doubleSpendStore_ConflictFree _, by decide, rfl, rfl, rfl, by decide,
    tick_accepts_two_members_of_conflict_set doubleSpendEnv doubleSpendStore symB symD txB txD
      ⟨symB, 11, [7, 8]⟩ ⟨[7, 8]⟩ (by decide) (by decide) (by decide) rfl rfl rfl rfl rfl rfl
      (by decide) (by decide) (by decide) (by decide) (by decide)⟩

/-! ## The two cache files compared

The translation of each file agrees with the common embedding `LRU K V` at the key type of
that file; the comparison of the two files then follows from the behaviour of `LRU K V`
under a renaming. -/

theorem list_deref_map {α K V : Type} (c : ListElement α → Element K V)
    (hc : ∀ x, (c x).ptr = x.ptr) (l : List (ListElement α)) (p : Nat) :
    LRU.deref (l.map c) p = (list.deref l p).map c := by
  have hfun : ((fun el : Element K V => el.ptr == p) ∘ c)
      = (fun el : ListElement α => el.ptr == p) := by
    funext x
    simp [Function.comp, hc]
  simp only [LRU.deref, list.deref, List.find?_map, hfun]

theorem list_filter_map {α K V : Type} (c : ListElement α → Element K V)
    (hc : ∀ x, (c x).ptr = x.ptr) (l : List (ListElement α)) (p : Nat) :
    (l.map c).filter (fun x => decide (x.ptr ≠ p))
      = (l.filter (fun x => decide (x.ptr ≠ p))).map c := by
  have hfun : ((fun el : Element K V => decide (el.ptr ≠ p)) ∘ c)
      = (fun el : ListElement α => decide (el.ptr ≠ p)) := by
    funext x
    simp [Function.comp, hc]
  rw [List.filter_map, hfun]

theorem list_MoveToFront_map {α K V : Type} (c : ListElement α → Element K V)
    (hc : ∀ x, (c x).ptr = x.ptr) (l : List (ListElement α)) (p : Nat) :
    LRU.MoveToFront (l.map c) p = (list.MoveToFront l p).map c := by
  simp only [LRU.MoveToFront, list.MoveToFront, list_deref_map c hc]
  cases list.deref l p with
  | none => rfl
  | some el => simp only [Option.map_some', List.map_cons, list_filter_map c hc]

theorem state_setObj_map (access : List (ListElement lru_state.objectInfoState))
    (p val : Nat) :
    LRU.setObj (access.map stateElement) p val
      = (lru_state.setObj access p val).map stateElement := by
  simp only [LRU.setObj, lru_state.setObj, List.map_map]
  apply List.map_congr_left
  intro el _
  simp only [Function.comp, stateElement]
  split <;> rfl

theorem state_evictLoop_map (size : Int)
    (access : List (ListElement lru_state.objectInfoState)) :
    ∀ m : List (Nat × Nat),
      LRU.evictLoop size m (access.map stateElement)
        = match lru_state.evictLoop size m access with
          | .error fault => .error fault
          | .ok (m2, acc2) => .ok (m2, acc2.map stateElement) := by
  induction access with
  | nil =>
    intro m
    simp only [List.map_nil, LRU.evictLoop, lru_state.evictLoop]
    split <;> rfl
  | cons back rest ih =>
    intro m
    simp only [List.map_cons, LRU.evictLoop, lru_state.evictLoop]
    split
    · exact ih _
    · rfl

theorem state_call_toLRU (l : lru_state.StateLRU) (op : CacheOp Nat Nat) :
    LRU.call (stateToLRU l) op
      = match lru_state.StateLRU.call l op with
        | .error fault => .error fault
        | .ok (l2, r) => .ok (stateToLRU l2, r) := by
  have hc : ∀ x : ListElement lru_state.objectInfoState, (stateElement x).ptr = x.ptr :=
    fun _ => rfl
  have hins : ∀ key val,
      LRU.insertAndEvict (stateToLRU l) key val
        = match lru_state.evictLoop l.size (LRU.mapSet l.elements key l.nextPtr)
              (list.PushFront l.access l.nextPtr ⟨key, val⟩).reverse with
          | .error fault => .error fault
          | .ok (m2, acc2) => .ok (stateToLRU ⟨l.size, m2, acc2.reverse, l.nextPtr + 1⟩) := by
    intro key val
    have hrev : ((⟨l.nextPtr, key, val⟩ : Element Nat Nat)
          :: l.access.map stateElement).reverse
        = (list.PushFront l.access l.nextPtr ⟨key, val⟩).reverse.map stateElement := by
      simp only [list.PushFront, List.reverse_cons, List.map_append, List.map_reverse,
        List.map_cons, List.map_nil, stateElement]
    simp only [LRU.insertAndEvict, stateToLRU, hrev, state_evictLoop_map]
    cases lru_state.evictLoop l.size (LRU.mapSet l.elements key l.nextPtr)
        (list.PushFront l.access l.nextPtr ⟨key, val⟩).reverse with
    | error fault => rfl
    | ok r =>
      obtain ⟨m2, acc2⟩ := r
      simp only [List.map_reverse]
  have hderef : ∀ p, LRU.deref (l.access.map stateElement) p
      = (list.deref l.access p).map stateElement := fun p => list_deref_map _ hc _ p
  cases op with
  | load key =>
    cases hm : LRU.mapGet l.elements key with
    | none =>
      simp only [LRU.call, LRU.Load, lru_state.StateLRU.call, lru_state.StateLRU.Load,
        stateToLRU, hm]
    | some p =>
      cases hd : list.deref l.access p with
      | none =>
        simp only [LRU.call, LRU.Load, lru_state.StateLRU.call, lru_state.StateLRU.Load,
          stateToLRU, hm, hderef, hd, Option.map]
      | some el =>
        simp only [LRU.call, LRU.Load, lru_state.StateLRU.call, lru_state.StateLRU.Load,
          stateToLRU, hm, hderef, hd, Option.map, list_MoveToFront_map _ hc, stateElement]
  | loadOrPut key val =>
    cases hm : LRU.mapGet l.elements key with
    | none =>
      have hi := hins key val
      have hm2 : LRU.mapGet (stateToLRU l).elements key = none := hm
      simp only [LRU.call, LRU.LoadOrPut, lru_state.StateLRU.call,
        lru_state.StateLRU.LoadOrPut, hm, hm2, hi]
      cases lru_state.evictLoop l.size (LRU.mapSet l.elements key l.nextPtr)
          (list.PushFront l.access l.nextPtr ⟨key, val⟩).reverse with
      | error fault => rfl
      | ok r => rfl
    | some p =>
      cases hd : list.deref l.access p with
      | none =>
        simp only [LRU.call, LRU.LoadOrPut, lru_state.StateLRU.call,
          lru_state.StateLRU.LoadOrPut, stateToLRU, hm, hderef, hd, Option.map]
      | some el =>
        simp only [LRU.call, LRU.LoadOrPut, lru_state.StateLRU.call,
          lru_state.StateLRU.LoadOrPut, stateToLRU, hm, hderef, hd, Option.map,
          list_MoveToFront_map _ hc, stateElement]
  | put key val =>
    cases hm : LRU.mapGet l.elements key with
    | none =>
      have hi := hins key val
      have hm2 : LRU.mapGet (stateToLRU l).elements key = none := hm
      simp only [LRU.call, LRU.Put, lru_state.StateLRU.call, lru_state.StateLRU.Put, hm, hm2,
        hi]
      cases lru_state.evictLoop l.size (LRU.mapSet l.elements key l.nextPtr)
          (list.PushFront l.access l.nextPtr ⟨key, val⟩).reverse with
      | error fault => rfl
      | ok r => rfl
    | some p =>
      cases hd : list.deref l.access p with
      | none =>
        simp only [LRU.call, LRU.Put, lru_state.StateLRU.call, lru_state.StateLRU.Put,
          stateToLRU, hm, hderef, hd, Option.map]
      | some el =>
        simp only [LRU.call, LRU.Put, lru_state.StateLRU.call, lru_state.StateLRU.Put,
          stateToLRU, hm, hderef, hd, Option.map, state_setObj_map,
          list_MoveToFront_map _ hc]
  | remove key =>
    cases hm : LRU.mapGet l.elements key with
    | none =>
      simp only [LRU.call, LRU.Remove, lru_state.StateLRU.call, lru_state.StateLRU.Remove,
        stateToLRU, hm]
    | some p =>
      simp only [LRU.call, LRU.Remove, lru_state.StateLRU.call, lru_state.StateLRU.Remove,
        stateToLRU, hm, LRU.listRemove, list.Remove, list_filter_map _ hc]

theorem state_trace_toLRU (ops : List (CacheOp Nat Nat)) :
    ∀ l : lru_state.StateLRU,
      LRU.trace (stateToLRU l) ops
        = match lru_state.StateLRU.trace l ops with
          | .error fault => .error fault
          | .ok (l2, rs) => .ok (stateToLRU l2, rs) := by
  induction ops with
  | nil => intro l; rfl
  | cons op ops ih =>
    intro l
    simp only [LRU.trace, lru_state.StateLRU.trace, state_call_toLRU]
    cases lru_state.StateLRU.call l op with
    | error fault => rfl
    | ok r =>
      obtain ⟨l2, r⟩ := r
      simp only [ih l2]
      cases lru_state.StateLRU.trace l2 ops with
      | error fault => rfl
      | ok r2 => rfl

theorem vm_setObj_map (access : List (ListElement lru_vm.objectInfoVM))
    (p val : Nat) :
    LRU.setObj (access.map vmElement) p val
      = (lru_vm.setObj access p val).map vmElement := by
  simp only [LRU.setObj, lru_vm.setObj, List.map_map]
  apply List.map_congr_left
  intro el _
  simp only [Function.comp, vmElement]
  split <;> rfl

theorem vm_evictLoop_map (size : Int)
    (access : List (ListElement lru_vm.objectInfoVM)) :
    ∀ m : List (Bytes × Nat),
      LRU.evictLoop size m (access.map vmElement)
        = match lru_vm.evictLoop size m access with
          | .error fault => .error fault
          | .ok (m2, acc2) => .ok (m2, acc2.map vmElement) := by
  induction access with
  | nil =>
    intro m
    simp only [List.map_nil, LRU.evictLoop, lru_vm.evictLoop]
    split <;> rfl
  | cons back rest ih =>
    intro m
    simp only [List.map_cons, LRU.evictLoop, lru_vm.evictLoop]
    split
    · exact ih _
    · rfl

theorem vm_call_toLRU (l : lru_vm.VMLRU) (op : CacheOp Bytes Nat) :
    LRU.call (vmToLRU l) op
      = match lru_vm.VMLRU.call l op with
        | .error fault => .error fault
        | .ok (l2, r) => .ok (vmToLRU l2, r) := by
  have hc : ∀ x : ListElement lru_vm.objectInfoVM, (vmElement x).ptr = x.ptr :=
    fun _ => rfl
  have hins : ∀ key val,
      LRU.insertAndEvict (vmToLRU l) key val
        = match lru_vm.evictLoop l.size (LRU.mapSet l.elements key l.nextPtr)
              (list.PushFront l.access l.nextPtr ⟨key, val⟩).reverse with
          | .error fault => .error fault
          | .ok (m2, acc2) => .ok (vmToLRU ⟨l.size, m2, acc2.reverse, l.nextPtr + 1⟩) := by
    intro key val
    have hrev : ((⟨l.nextPtr, key, val⟩ : Element Bytes Nat)
          :: l.access.map vmElement).reverse
        = (list.PushFront l.access l.nextPtr ⟨key, val⟩).reverse.map vmElement := by
      simp only [list.PushFront, List.reverse_cons, List.map_append, List.map_reverse,
        List.map_cons, List.map_nil, vmElement]
    simp only [LRU.insertAndEvict, vmToLRU, hrev, vm_evictLoop_map]
    cases lru_vm.evictLoop l.size (LRU.mapSet l.elements key l.nextPtr)
        (list.PushFront l.access l.nextPtr ⟨key, val⟩).reverse with
    | error fault => rfl
    | ok r =>
      obtain ⟨m2, acc2⟩ := r
      simp only [List.map_reverse]
  have hderef : ∀ p, LRU.deref (l.access.map vmElement) p
      = (list.deref l.access p).map vmElement := fun p => list_deref_map _ hc _ p
  cases op with
  | load key =>
    cases hm : LRU.mapGet l.elements key with
    | none =>
      simp only [LRU.call, LRU.Load, lru_vm.VMLRU.call, lru_vm.VMLRU.Load,
        vmToLRU, hm]
    | some p =>
      cases hd : list.deref l.access p with
      | none =>
        simp only [LRU.call, LRU.Load, lru_vm.VMLRU.call, lru_vm.VMLRU.Load,
          vmToLRU, hm, hderef, hd, Option.map]
      | some el =>
        simp only [LRU.call, LRU.Load, lru_vm.VMLRU.call, lru_vm.VMLRU.Load,
          vmToLRU, hm, hderef, hd, Option.map, list_MoveToFront_map _ hc, vmElement]
  | loadOrPut key val =>
    cases hm : LRU.mapGet l.elements key with
    | none =>
      have hi := hins key val
      have hm2 : LRU.mapGet (vmToLRU l).elements key = none := hm
      simp only [LRU.call, LRU.LoadOrPut, lru_vm.VMLRU.call,
        lru_vm.VMLRU.LoadOrPut, hm, hm2, hi]
      cases lru_vm.evictLoop l.size (LRU.mapSet l.elements key l.nextPtr)
          (list.PushFront l.access l.nextPtr ⟨key, val⟩).reverse with
      | error fault => rfl
      | ok r => rfl
    | some p =>
      cases hd : list.deref l.access p with
      | none =>
        simp only [LRU.call, LRU.LoadOrPut, lru_vm.VMLRU.call,
          lru_vm.VMLRU.LoadOrPut, vmToLRU, hm, hderef, hd, Option.map]
      | some el =>
        simp only [LRU.call, LRU.LoadOrPut, lru_vm.VMLRU.call,
          lru_vm.VMLRU.LoadOrPut, vmToLRU, hm, hderef, hd, Option.map,
          list_MoveToFront_map _ hc, vmElement]
  | put key val =>
    cases hm : LRU.mapGet l.elements key with
    | none =>
      have hi := hins key val
      have hm2 : LRU.mapGet (vmToLRU l).elements key = none := hm
      simp only [LRU.call, LRU.Put, lru_vm.VMLRU.call, lru_vm.VMLRU.Put, hm, hm2,
        hi]
      cases lru_vm.evictLoop l.size (LRU.mapSet l.elements key l.nextPtr)
          (list.PushFront l.access l.nextPtr ⟨key, val⟩).reverse with
      | error fault => rfl
      | ok r => rfl
    | some p =>
      cases hd : list.deref l.access p with
      | none =>
        simp only [LRU.call, LRU.Put, lru_vm.VMLRU.call, lru_vm.VMLRU.Put,
          vmToLRU, hm, hderef, hd, Option.map]
      | some el =>
        simp only [LRU.call, LRU.Put, lru_vm.VMLRU.call, lru_vm.VMLRU.Put,
          vmToLRU, hm, hderef, hd, Option.map, vm_setObj_map,
          list_MoveToFront_map _ hc]
  | remove key =>
    cases hm : LRU.mapGet l.elements key with
    | none =>
      simp only [LRU.call, LRU.Remove, lru_vm.VMLRU.call, lru_vm.VMLRU.Remove,
        vmToLRU, hm]
    | some p =>
      simp only [LRU.call, LRU.Remove, lru_vm.VMLRU.call, lru_vm.VMLRU.Remove,
        vmToLRU, hm, LRU.listRemove, list.Remove, list_filter_map _ hc]

theorem vm_trace_toLRU (ops : List (CacheOp Bytes Nat)) :
    ∀ l : lru_vm.VMLRU,
      LRU.trace (vmToLRU l) ops
        = match lru_vm.VMLRU.trace l ops with
          | .error fault => .error fault
          | .ok (l2, rs) => .ok (vmToLRU l2, rs) := by
  induction ops with
  | nil => intro l; rfl
  | cons op ops ih =>
    intro l
    simp only [LRU.trace, lru_vm.VMLRU.trace, vm_call_toLRU]
    cases lru_vm.VMLRU.call l op with
    | error fault => rfl
    | ok r =>
      obtain ⟨l2, r⟩ := r
      simp only [ih l2]
      cases lru_vm.VMLRU.trace l2 ops with
      | error fault => rfl
      | ok r2 => rfl


theorem stateToLRU_injective : Function.Injective stateToLRU := by
  have hel : Function.Injective stateElement := by
    intro a b h
    obtain ⟨pa, ka, oa⟩ := a
    obtain ⟨pb, kb, ob⟩ := b
    simp only [stateElement, Element.mk.injEq] at h
    obtain ⟨h1, h2, h3⟩ := h
    subst h1 h2 h3
    rfl
  intro a b h
  obtain ⟨sa, ea, aa, na⟩ := a
  obtain ⟨sb, eb, ab, nb⟩ := b
  simp only [stateToLRU, LRU.mk.injEq] at h
  obtain ⟨h1, h2, h3, h4⟩ := h
  have h5 := hel.list_map h3
  subst h1 h2 h4 h5
  rfl

theorem vmToLRU_injective : Function.Injective vmToLRU := by
  have hel : Function.Injective vmElement := by
    intro a b h
    obtain ⟨pa, ka, oa⟩ := a
    obtain ⟨pb, kb, ob⟩ := b
    simp only [vmElement, Element.mk.injEq] at h
    obtain ⟨h1, h2, h3⟩ := h
    subst h1 h2 h3
    rfl
  intro a b h
  obtain ⟨sa, ea, aa, na⟩ := a
  obtain ⟨sb, eb, ab, nb⟩ := b
  simp only [vmToLRU, LRU.mk.injEq] at h
  obtain ⟨h1, h2, h3, h4⟩ := h
  have h5 := hel.list_map h3
  subst h1 h2 h4 h5
  rfl

theorem vmToLRU_rename (f : Nat → Bytes) (g : Nat → Nat) (l : lru_state.StateLRU) :
    vmToLRU (renameStateToVM f g l) = LRU.rename f g (stateToLRU l) := by
  simp only [vmToLRU, renameStateToVM, LRU.rename, stateToLRU, List.map_map]
  rfl

theorem stateToLRU_rename (f : Bytes → Nat) (g : Nat → Nat) (l : lru_vm.VMLRU) :
    stateToLRU (renameVMToState f g l) = LRU.rename f g (vmToLRU l) := by
  simp only [vmToLRU, renameVMToState, LRU.rename, stateToLRU, List.map_map]
  rfl

theorem state_trace_rename_vm (f : Nat → Bytes) (g : Nat → Nat) (hf : Function.Injective f)
    (ops : List (CacheOp Nat Nat)) (ls : lru_state.StateLRU) (lv : lru_vm.VMLRU)
    (hl : vmToLRU lv = LRU.rename f g (stateToLRU ls)) :
    lru_vm.VMLRU.trace lv (ops.map (CacheOp.rename f g))
      = outcomeStateToVM f g (lru_state.StateLRU.trace ls ops) := by
  have h1 := vm_trace_toLRU (ops.map (CacheOp.rename f g)) lv
  rw [hl, LRU.trace_rename f g hf ops, state_trace_toLRU ops ls] at h1
  cases hs : lru_state.StateLRU.trace ls ops with
  | error fault =>
    rw [hs] at h1
    cases hv : lru_vm.VMLRU.trace lv (ops.map (CacheOp.rename f g)) with
    | error fault2 =>
      rw [hv] at h1
      simp only [LRU.renameOutcome] at h1
      cases h1
      rfl
    | ok r =>
      rw [hv] at h1
      simp only [LRU.renameOutcome] at h1
      cases h1
  | ok rs =>
    obtain ⟨l2, replies⟩ := rs
    rw [hs] at h1
    cases hv : lru_vm.VMLRU.trace lv (ops.map (CacheOp.rename f g)) with
    | error fault2 =>
      rw [hv] at h1
      simp only [LRU.renameOutcome] at h1
      cases h1
    | ok r =>
      obtain ⟨l3, replies3⟩ := r
      rw [hv] at h1
      simp only [LRU.renameOutcome, Except.ok.injEq, Prod.mk.injEq] at h1
      obtain ⟨h2, h3⟩ := h1
      rw [← vmToLRU_rename] at h2
      have h4 := vmToLRU_injective h2
      simp only [outcomeStateToVM, h4, h3]

theorem vm_trace_rename_state (f : Bytes → Nat) (g : Nat → Nat) (hf : Function.Injective f)
    (ops : List (CacheOp Bytes Nat)) (lv : lru_vm.VMLRU) (ls : lru_state.StateLRU)
    (hl : stateToLRU ls = LRU.rename f g (vmToLRU lv)) :
    lru_state.StateLRU.trace ls (ops.map (CacheOp.rename f g))
      = outcomeVMToState f g (lru_vm.VMLRU.trace lv ops) := by
  have h1 := state_trace_toLRU (ops.map (CacheOp.rename f g)) ls
  rw [hl, LRU.trace_rename f g hf ops, vm_trace_toLRU ops lv] at h1
  cases hs : lru_vm.VMLRU.trace lv ops with
  | error fault =>
    rw [hs] at h1
    cases hv : lru_state.StateLRU.trace ls (ops.map (CacheOp.rename f g)) with
    | error fault2 =>
      rw [hv] at h1
      simp only [LRU.renameOutcome] at h1
      cases h1
      rfl
    | ok r =>
      rw [hv] at h1
      simp only [LRU.renameOutcome] at h1
      cases h1
  | ok rs =>
    obtain ⟨l2, replies⟩ := rs
    rw [hs] at h1
    cases hv : lru_state.StateLRU.trace ls (ops.map (CacheOp.rename f g)) with
    | error fault2 =>
      rw [hv] at h1
      simp only [LRU.renameOutcome] at h1
      cases h1
    | ok r =>
      obtain ⟨l3, replies3⟩ := r
      rw [hv] at h1
      simp only [LRU.renameOutcome, Except.ok.injEq, Prod.mk.injEq] at h1
      obtain ⟨h2, h3⟩ := h1
      rw [← stateToLRU_rename] at h2
      have h4 := stateToLRU_injective h2
      simp only [outcomeVMToState, h4, h3]

/-- C33. The VM cache and the state cache are the same machine up to the key and value
types. With `lru.state.go` and `lru.vm.go` each translated on its own: under any renaming of
keys (an injective map `f`) and of values (any map `g`), every sequence of `Load`,
`LoadOrPut`, `Put` and `Remove` calls on the cache `NewVMLRU(size)` of `lru.vm.go` fails
exactly when the renamed sequence fails on the cache `NewStateLRU(size)` of `lru.state.go`,
and otherwise returns the same hit flags and the renamed values and leaves the renamed
contents in the same access order; this holds from the state cache to the VM cache and
from the VM cache to the state cache. -/
theorem vm_cache_same_machine_as_state_cache (size : Int) :
    (∀ (f : Nat → Bytes) (g : Nat → Nat), Function.Injective f →
      ∀ ops : List (CacheOp Nat Nat),
        lru_vm.VMLRU.trace (lru_vm.NewVMLRU size) (ops.map (CacheOp.rename f g))
          = outcomeStateToVM f g
              (lru_state.StateLRU.trace (lru_state.NewStateLRU size) ops)) ∧
    (∀ (f : Bytes → Nat) (g : Nat → Nat), Function.Injective f →
      ∀ ops : List (CacheOp Bytes Nat),
        lru_state.StateLRU.trace (lru_state.NewStateLRU size) (ops.map (CacheOp.rename f g))
          = outcomeVMToState f g (lru_vm.VMLRU.trace (lru_vm.NewVMLRU size) ops)) :=
  ⟨fun f g hf ops => state_trace_rename_vm f g hf ops _ _ rfl,
    fun f g hf ops => vm_trace_rename_state f g hf ops _ _ rfl⟩

/-- Witness of C33: the keys `n` of the state cache renamed to the one-byte keys `[n]` of
the VM cache, the values kept; six calls on caches of size 2, evaluated on the translation
of each file. -/
theorem vm_cache_same_machine_as_state_cache_witness :
    Function.Injective (fun n : Nat => ([n] : Bytes)) ∧
    lru_state.StateLRU.trace (lru_state.NewStateLRU 2)
        [CacheOp.put 1 10, CacheOp.put 2 20, CacheOp.load 1, CacheOp.loadOrPut 3 30,
          CacheOp.load 2, CacheOp.remove 1]
      = .ok (⟨2, [(3, 2)], [⟨2, ⟨3, 30⟩⟩], 3⟩,
          [Reply.done, Reply.done, Reply.loaded (some 10) true, Reply.loadedOrPut 30 false,
            Reply.loaded none false, Reply.done]) ∧
    lru_vm.VMLRU.trace (lru_vm.NewVMLRU 2)
        [CacheOp.put [1] 10, CacheOp.put [2] 20, CacheOp.load [1], CacheOp.loadOrPut [3] 30,
          CacheOp.load [2], CacheOp.remove [1]]
      = .ok (⟨2, [([3], 2)], [⟨2, ⟨[3], 30⟩⟩], 3⟩,
          [Reply.done, Reply.done, Reply.loaded (some 10) true, Reply.loadedOrPut 30 false,
            Reply.loaded none false, Reply.done]) ∧
    lru_vm.VMLRU.trace (lru_vm.NewVMLRU 2)
        ([CacheOp.put 1 10, CacheOp.put 2 20, CacheOp.load 1, CacheOp.loadOrPut 3 30,
          CacheOp.load 2, CacheOp.remove 1].map
            (CacheOp.rename (fun n : Nat => ([n] : Bytes)) id))
      = outcomeStateToVM (fun n : Nat => ([n] : Bytes)) id
          (lru_state.StateLRU.trace (lru_state.NewStateLRU 2)
            [CacheOp.put 1 10, CacheOp.put 2 20, CacheOp.load 1, CacheOp.loadOrPut 3 30,
              CacheOp.load 2, CacheOp.remove 1]) :=
  ⟨fun a b h => by simpa using h, rfl, rfl,
    (vm_cache_same_machine_as_state_cache 2).1 (fun n : Nat => ([n] : Bytes)) id
      (fun a b h => by simpa using h) _⟩

end Wavelet
